import Mathlib

/-!
# http-ratelimiter: the admission-control core

A shallow embedding of `internal/app` (`middleware.go`, `app.go`, `handlers.go`).

* Strings are handled as lists of characters where the Go code works on bytes.
* Instants and durations are integers counting nanoseconds (`time.Time`,
  `time.Duration`); an instant counts from the zero `time.Time` of Go.
* A Go runtime panic is the result `none`.
* `map[string]*client` is an association list with distinct keys (`AList`); no
  two keys share a `client`, so writing through the pointer is replacing the
  value stored under the key.
-/

set_option autoImplicit false

/-! ## Package `net`: what `getNetwork` uses of the standard library -/

/-- Modelled from the spec: `bytealg.IndexByteString` followed by the two slices
`s[:i]`, `s[i+1:]` (Go standard library, not part of the repository): the text
before and after the first `sep`, `none` when `sep` does not occur. -/
def cutAt (sep : Char) : List Char → Option (List Char × List Char)
  | [] => none
  | c :: rest =>
    if c = sep then some ([], rest)
    else match cutAt sep rest with
      | none => none
      | some (before, after) => some (c :: before, after)

/-- Modelled from the spec: the bound `big` of `net.dtoi` (Go standard library). -/
def big : Nat := 0xFFFFFF

/-- Modelled from the spec: the value of a decimal digit, `int(s[i] - '0')` (Go
standard library). -/
def digitVal (c : Char) : Nat := c.toNat - 48

/-- Modelled from the spec: the loop of `net.dtoi` (Go standard library): `n` is
the number read so far, `i` the count of characters consumed. -/
def dtoiLoop : List Char → Nat → Nat → Nat × Nat × Bool
  | [], n, i => (n, i, true)
  | c :: rest, n, i =>
    if c.isDigit then
      if n * 10 + digitVal c ≥ big then (big, i, false)
      else dtoiLoop rest (n * 10 + digitVal c) (i + 1)
    else (n, i, true)

/-- Modelled from the spec: `net.dtoi` (Go standard library): decimal to
integer, returning the number, the characters consumed and success. -/
def dtoi (s : List Char) : Nat × Nat × Bool :=
  match dtoiLoop s 0 0 with
  | (n, i, ok) => if ok && i == 0 then (0, 0, false) else (n, i, ok)

/-- Modelled from the spec: the loop of `netip.parseIPv4Fields` (Go standard
library). `first` says that the character is the first of the text, `prevDot`
that the previous character was a dot; `fields` holds the `pos` octets stored so
far. -/
def parseIPv4FieldsLoop :
    List Char → Bool → Bool → Nat → Nat → List Nat → Option (List Nat)
  | [], _, _, val, _, fields =>
    if fields.length < 3 then none else some (fields ++ [val])
  | c :: rest, first, prevDot, val, digLen, fields =>
    if c.isDigit then
      if digLen = 1 ∧ val = 0 then none
      else if val * 10 + digitVal c > 255 then none
      else parseIPv4FieldsLoop rest false false (val * 10 + digitVal c) (digLen + 1) fields
    else if c = '.' then
      if first ∨ rest = [] ∨ prevDot then none
      else if fields.length = 3 then none
      else parseIPv4FieldsLoop rest false true 0 0 (fields ++ [val])
    else none

/-- Modelled from the spec: `netip.parseIPv4Fields` (Go standard library): four
decimal octets separated by dots, none above 255, none with a leading zero. -/
def parseIPv4Fields (s : List Char) : Option (List Nat) :=
  parseIPv4FieldsLoop s true false 0 0 []

/-- Modelled from the spec: the value of a hexadecimal digit in `netip.parseIPv6`
(Go standard library), `none` for any other character. -/
def hexVal (c : Char) : Option Nat :=
  if c.isDigit then some (c.toNat - 48)
  else if 'a' ≤ c ∧ c ≤ 'f' then some (c.toNat - 97 + 10)
  else if 'A' ≤ c ∧ c ≤ 'F' then some (c.toNat - 65 + 10)
  else none

/-- Modelled from the spec: the inner loop of `netip.parseIPv6` (Go standard
library): reads hexadecimal digits into `acc`, `off` counting them; stops at the
first other character, fails on a fifth digit or a value above 16 bits. -/
def scanHex : List Char → Nat → Nat → Option (Nat × Nat × List Char)
  | [], acc, off => some (acc, off, [])
  | c :: rest, acc, off =>
    match hexVal c with
    | none => some (acc, off, c :: rest)
    | some v =>
      if off > 3 then none
      else if acc * 16 + v > 65535 then none
      else scanHex rest (acc * 16 + v) (off + 1)

/-- Modelled from the spec: the outer loop of `netip.parseIPv6` (Go standard
library), at most eight rounds: `ip` holds the bytes written so far
(`i = ip.length`), `ellipsis` the position of `::`. Returns the text left over,
the bytes and the ellipsis when the loop ends. -/
def parseIPv6Loop :
    Nat → List Char → List Nat → Option Nat → Option (List Char × List Nat × Option Nat)
  | 0, s, ip, ellipsis => some (s, ip, ellipsis)
  | fuel + 1, s, ip, ellipsis =>
    if ¬ ip.length < 16 then some (s, ip, ellipsis)
    else match scanHex s 0 0 with
      | none => none
      | some (acc, off, rest) =>
        if off = 0 then none
        else if rest.head? = some '.' then
          if ellipsis = none ∧ ip.length ≠ 12 then none
          else if ip.length + 4 > 16 then none
          else match parseIPv4Fields s with
            | none => none
            | some four => some ([], ip ++ four, ellipsis)
        else
          let ip1 := ip ++ [acc / 256, acc % 256]
          match rest with
          | [] => some ([], ip1, ellipsis)
          | c :: rest1 =>
            if c ≠ ':' then none
            else match rest1 with
              | [] => none
              | c1 :: rest2 =>
                if c1 = ':' then
                  if ellipsis.isSome then none
                  else match rest2 with
                    | [] => some ([], ip1, some ip1.length)
                    | _ :: _ => parseIPv6Loop fuel rest2 ip1 (some ip1.length)
                else parseIPv6Loop fuel rest1 ip1 ellipsis

/-- Modelled from the spec: an address as `netip.Addr` (Go standard library)
holds it: 4 or 16 bytes and a zone. -/
structure Addr where
  bytes : List Nat
  zone : List Char
  deriving DecidableEq, Repr

/-- Modelled from the spec: the part of `netip.parseIPv6` (Go standard library)
after the zone is split off: `s` is the address text, `zone` the zone. -/
def parseIPv6Body (s zone : List Char) : Option Addr :=
  let lead : Bool := match s with
    | c0 :: c1 :: _ => c0 == ':' && c1 == ':'
    | _ => false
  let s1 := if lead then s.drop 2 else s
  let ellipsis0 : Option Nat := if lead then some 0 else none
  if lead ∧ s1 = [] then some ⟨List.replicate 16 0, zone⟩
  else match parseIPv6Loop 8 s1 [] ellipsis0 with
    | none => none
    | some (left, ip, ellipsis) =>
      if left ≠ [] then none
      else if ip.length < 16 then
        match ellipsis with
        | none => none
        | some e => some ⟨ip.take e ++ List.replicate (16 - ip.length) 0 ++ ip.drop e, zone⟩
      else if ellipsis.isSome then none
      else some ⟨ip, zone⟩

/-- Modelled from the spec: `netip.parseIPv6` (Go standard library): the zone
follows the first `%` and may not be empty. -/
def parseIPv6 (input : List Char) : Option Addr :=
  match cutAt '%' input with
  | none => parseIPv6Body input []
  | some (s, zone) => if zone = [] then none else parseIPv6Body s zone

/-- Modelled from the spec: `netip.parseIPv4` (Go standard library). -/
def parseIPv4 (s : List Char) : Option Addr :=
  match parseIPv4Fields s with
  | none => none
  | some fields => some ⟨fields, []⟩

/-- Modelled from the spec: `netip.ParseAddr` (Go standard library): the first
of `.`, `:` and `%` in the text chooses the parser. -/
def ParseAddr (s : List Char) : Option Addr :=
  match s.find? (fun c => c = '.' ∨ c = ':' ∨ c = '%') with
  | none => none
  | some c => if c = '.' then parseIPv4 s else if c = ':' then parseIPv6 s else none

/-- Modelled from the spec: `Addr.BitLen` (Go standard library): 32 for an IPv4
address, 128 for an IPv6 address. -/
def Addr.BitLen (a : Addr) : Nat := if a.bytes.length = 4 then 32 else 128

/-- Modelled from the spec: the first twelve bytes of an IPv4 address in its
16-byte form, `v4InV6Prefix` (Go standard library). -/
def v4InV6Prefix : List Nat := [0, 0, 0, 0, 0, 0, 0, 0, 0, 0, 0xff, 0xff]

/-- Modelled from the spec: `Addr.As16` (Go standard library). -/
def Addr.As16 (a : Addr) : List Nat :=
  if a.bytes.length = 4 then v4InV6Prefix ++ a.bytes else a.bytes

/-- Modelled from the spec: the loop of `net.CIDRMask` (Go standard library): `l`
bytes of which the first `n` bits are set. -/
def CIDRMaskLoop : Nat → Nat → List Nat
  | 0, _ => []
  | l + 1, n =>
    if n ≥ 8 then 0xff :: CIDRMaskLoop l (n - 8)
    else (255 - 255 / 2 ^ n) :: CIDRMaskLoop l 0

/-- Modelled from the spec: `net.CIDRMask(ones, bits)` (Go standard library). -/
def CIDRMask (ones bits : Nat) : List Nat := CIDRMaskLoop (bits / 8) ones

/-- Modelled from the spec: `IP.Mask` (Go standard library): a 16-byte mask of
twelve `0xff` on a 4-byte address counts by its last four bytes, a 4-byte mask on
a 16-byte IPv4 address works on the last four bytes of the address; the result
is `nil` (the empty list) when the lengths still differ. -/
def IP_Mask (ip mask : List Nat) : List Nat :=
  let mask1 :=
    if mask.length = 16 ∧ ip.length = 4 ∧ (mask.take 12).all (· == 0xff) then mask.drop 12
    else mask
  let ip1 :=
    if mask1.length = 4 ∧ ip.length = 16 ∧ ip.take 12 = v4InV6Prefix then ip.drop 12 else ip
  if ip1.length ≠ mask1.length then [] else List.zipWith Nat.land ip1 mask1

/-- Modelled from the spec: the struct `net.IPNet` (Go standard library). -/
structure IPNet where
  IP : List Nat
  Mask : List Nat
  deriving DecidableEq, Repr

/-- Modelled from the spec: `net.ParseCIDR` (Go standard library), its `*IPNet`
result; `none` is the error result. -/
def ParseCIDR (s : List Char) : Option IPNet :=
  match cutAt '/' s with
  | none => none
  | some (addr, mask) =>
    match ParseAddr addr with
    | none => none
    | some ipAddr =>
      if ipAddr.zone ≠ [] then none
      else match dtoi mask with
        | (n, i, ok) =>
          if ¬ ok ∨ i ≠ mask.length ∨ n > ipAddr.BitLen then none
          else
            let m := CIDRMask n ipAddr.BitLen
            some ⟨IP_Mask ipAddr.As16 m, m⟩

/-- Modelled from the spec: `IP.To4` (Go standard library). -/
def To4 (ip : List Nat) : Option (List Nat) :=
  if ip.length = 4 then some ip
  else if ip.length = 16 ∧ ip.take 12 = v4InV6Prefix then some (ip.drop 12)
  else none

/-- Modelled from the spec: `net.networkNumberAndMask` (Go standard library). -/
def networkNumberAndMask (n : IPNet) : Option (List Nat × List Nat) :=
  let ip : Option (List Nat) :=
    match To4 n.IP with
    | some ip4 => some ip4
    | none => if n.IP.length ≠ 16 then none else some n.IP
  match ip with
  | none => none
  | some ip =>
    if n.Mask.length = 4 then
      if ip.length ≠ 4 then none else some (ip, n.Mask)
    else if n.Mask.length = 16 then
      if ip.length = 4 then some (ip, n.Mask.drop 12) else some (ip, n.Mask)
    else none

/-- Modelled from the spec: the bit loop of `net.simpleMaskLength` (Go standard
library): the count of the leading one bits of a byte, with the byte that is
left after shifting them out. -/
def leadingOnes : Nat → Nat → Nat × Nat
  | 0, v => (0, v)
  | fuel + 1, v =>
    if v / 128 % 2 = 1 then
      match leadingOnes fuel (v * 2 % 256) with
      | (n, w) => (n + 1, w)
    else (0, v)

/-- Modelled from the spec: `net.simpleMaskLength` (Go standard library): the
count of leading ones of a mask of the form 1..10..0, `none` for any other mask
(the `-1` of Go). -/
def simpleMaskLength : List Nat → Option Nat
  | [] => some 0
  | v :: rest =>
    if v = 0xff then (simpleMaskLength rest).map (· + 8)
    else match leadingOnes 8 v with
      | (n, w) => if w ≠ 0 then none else if rest.all (· == 0) then some n else none

/-- Modelled from the spec: `net.uitoa` and the `%d` verb (Go standard library):
decimal digits, no leading zero. -/
def uitoa (n : Nat) : List Char := Nat.toDigits 10 n

/-- Modelled from the spec: `Addr.string4` (Go standard library): the dotted
decimal form of the bytes of an IPv4 address. -/
def string4 (ip : List Nat) : List Char :=
  List.intercalate ['.'] (ip.map uitoa)

/-- Modelled from the spec: `Addr.v6u16` (Go standard library): the eight 16-bit
groups of a 16-byte address. -/
def groups16 : List Nat → List Nat
  | hi :: lo :: rest => (hi * 256 + lo) :: groups16 rest
  | _ => []

/-- Modelled from the spec: the inner loop of the zero search of
`Addr.appendTo6` (Go standard library): the count of the zero groups at the head
of a list of groups. -/
def zeroRun : List Nat → Nat
  | [] => 0
  | g :: rest => if g = 0 then zeroRun rest + 1 else 0

/-- Modelled from the spec: the first loop of `Addr.appendTo6` (Go standard
library): the first longest run of two or more zero groups as
`(zeroStart, zeroEnd)`; `(255, 255)` when there is none. -/
def longestZeroRun : List Nat → Nat → Nat × Nat → Nat × Nat
  | [], _, best => best
  | g :: rest, i, best =>
    let l := zeroRun (g :: rest)
    if l ≥ 2 ∧ l > best.2 - best.1 then longestZeroRun rest (i + 1) (i, i + l)
    else longestZeroRun rest (i + 1) best

/-- Modelled from the spec: `netip.appendHex` (Go standard library): lower-case
hexadecimal, no leading zero. -/
def appendHex (v : Nat) : List Char := Nat.toDigits 16 v

/-- Modelled from the spec: the second loop of `Addr.appendTo6` (Go standard
library), from group `i` on. -/
def string6Loop (groups : List Nat) (zeroStart zeroEnd : Nat) : Nat → Nat → List Char
  | 0, _ => []
  | fuel + 1, i =>
    if i ≥ 8 then []
    else if i = zeroStart then
      ':' :: ':' ::
        (if zeroEnd ≥ 8 then []
         else appendHex (groups.getD zeroEnd 0) ++ string6Loop groups zeroStart zeroEnd fuel (zeroEnd + 1))
    else
      (if i > 0 then [':'] else []) ++ appendHex (groups.getD i 0) ++
        string6Loop groups zeroStart zeroEnd fuel (i + 1)

/-- Modelled from the spec: `Addr.string6` (Go standard library): the canonical
text of an IPv6 address, its longest run of zero groups written `::`. -/
def string6 (ip : List Nat) : List Char :=
  let groups := groups16 ip
  match longestZeroRun groups 0 (255, 255) with
  | (zeroStart, zeroEnd) => string6Loop groups zeroStart zeroEnd 8 0

/-- Modelled from the spec: `net.hexString` (Go standard library) on one byte:
two lower-case hexadecimal digits. -/
def hexByte (b : Nat) : List Char := [Nat.digitChar (b / 16), Nat.digitChar (b % 16)]

/-- Modelled from the spec: `IP.String` (Go standard library). -/
def IPString (ip : List Nat) : List Char :=
  if ip.length = 0 then "<nil>".data
  else if ip.length ≠ 4 ∧ ip.length ≠ 16 then '?' :: (ip.map hexByte).flatten
  else match To4 ip with
    | some p4 => string4 p4
    | none => string6 ip

/-- Modelled from the spec: `IPNet.String` (Go standard library): the network
address, a slash and the prefix length. -/
def IPNetString (n : IPNet) : List Char :=
  match networkNumberAndMask n with
  | none => "<nil>".data
  | some (nn, m) =>
    match simpleMaskLength m with
    | none => IPString nn ++ '/' :: (if m.length = 0 then "<nil>".data else (m.map hexByte).flatten)
    | some l => IPString nn ++ '/' :: uitoa l

/-! ## `middleware.go`: the network resolver -/

/-- The text of the error of `getNetwork`. -/
def badClientIP : String := "bad client IP address received"

/-- The function `getNetwork` (middleware.go 79-88) with `netmask` a `uint8`. The
result is the pair `(string, error)`, the error `none` for `nil`; the outer
`none` is the panic of a slice bound out of range. -/
def getNetwork (ip : String) (netmask : Nat) : Option (String × Option String) :=
  let CIDR := ip.data ++ '/' :: uitoa netmask
  match ParseCIDR CIDR with
  | none => some ("", some badClientIP)
  | some ipnet =>
    let s := IPNetString ipnet
    if s.length < 3 then none
    else some (String.mk (s.take (s.length - 3)), none)

/-! ## Package `rate`: the token bucket -/

/-- The constant `time.Minute` in nanoseconds. -/
def Minute : Int := 60000000000

/-- Modelled from the spec: `rate.Every` (golang.org/x/time/rate, not part of the
repository). A rate is held as the nanoseconds it takes one credit to accrue;
an interval that is not positive gives `rate.Inf`, held as `0`. -/
def Every (interval : Int) : Int := if interval ≤ 0 then 0 else interval

/-- Modelled from the spec: the token bucket `rate.Limiter` (golang.org/x/time/rate,
not part of the repository), section 4.2: credits accrue continuously at the
configured rate up to `burst`. Credit is counted exactly, in nanoseconds of
refill: one whole credit is `interval` of them, the full bucket holds
`burst * interval`. `interval ≤ 0` is the unlimited rate `rate.Inf`. `last` is
the instant of the last grant. -/
structure Limiter where
  interval : Int
  burst : Int
  credit : Int
  last : Int
  deriving DecidableEq, Repr

/-- Modelled from the spec: `rate.NewLimiter(r, b)`: a full bucket. -/
def NewLimiter (r : Int) (b : Int) : Limiter :=
  { interval := r, burst := b, credit := b * r, last := 0 }

/-- Modelled from the spec: the refill check of the bucket at instant `t`: the
credit held then, capped at the full bucket (an instant before `last` adds
nothing). -/
def Limiter.advance (lim : Limiter) (t : Int) : Int :=
  let last := if t < lim.last then t else lim.last
  min (lim.credit + (t - last)) (lim.burst * lim.interval)

/-- Modelled from the spec: the bucket holds at least one credit at instant `t`
(section 4.2, "if available"); the unlimited bucket always does. -/
def Limiter.hasCredit (lim : Limiter) (t : Int) : Bool :=
  decide (lim.interval ≤ 0) || decide (lim.interval ≤ lim.advance t)

/-- Modelled from the spec: `Limiter.Allow()` at instant `t`, section 4.2:
"returns true and deducts one credit if available; returns false and deducts
nothing otherwise". The unlimited rate always grants. -/
def Limiter.Allow (lim : Limiter) (t : Int) : Bool × Limiter :=
  if lim.interval ≤ 0 then (true, lim)
  else if lim.interval ≤ lim.advance t then
    (true, { lim with credit := lim.advance t - lim.interval, last := t })
  else (false, lim)

/-! ## `middleware.go`, `app.go`: the records and the application -/

/-- The struct `client` (middleware.go 14-20). -/
structure client where
  limiter : Limiter
  blocked : Bool
  blockedSince : Int
  lastSeen : Int
  deriving DecidableEq, Repr

/-- The struct `App` (app.go 21-30) without the router and the mutex. `netmask` is
a `uint8`. -/
structure App where
  clientsRate : AList (fun _ : String => client)
  limitPerMinute : Int
  cooldownPeriod : Int
  cleanPeriod : Int
  netmask : Nat

/-- Modelled from the spec: what `rateLimiter` uses of `gin.Context` (gin, not
part of the repository): the `X-Forwarded-For` header, the result of
`c.RemoteIP()`, the responses written with `c.String` in order, whether
`c.Abort()` was called and whether the handlers after this one ran. -/
structure Context where
  forwardedFor : String
  remoteIP : String
  writes : List (Nat × String)
  aborted : Bool
  handled : Bool
  deriving DecidableEq, Repr

/-- Modelled from the spec: `c.String(code, ...)` of gin (not part of the
repository): writes a response of status `code` and text `body`. -/
def Context.String (c : Context) (code : Nat) (body : String) : Context :=
  { c with writes := c.writes ++ [(code, body)] }

/-- Modelled from the spec: `c.Abort()` of gin: the handlers after this one no
longer run. -/
def Context.Abort (c : Context) : Context := { c with aborted := true }

/-- Modelled from the spec: `c.Next()` of gin: runs the handlers after this one,
none once aborted. -/
def Context.Next (c : Context) : Context :=
  { c with handled := c.handled || !c.aborted }

/-- The constant `http.StatusBadRequest`. -/
def StatusBadRequest : Nat := 400

/-- The constant `http.StatusTooManyRequests`. -/
def StatusTooManyRequests : Nat := 429

/-- The function `getIP` (middleware.go 69-75). -/
def getIP (c : Context) : String :=
  if c.forwardedFor = "" then c.remoteIP else c.forwardedFor

/-- The readings of the clock one call of `rateLimiter` can take, in program
order: `time.Now()` of line 37, `time.Since` of line 42, the instant
`limiter.Allow()` takes on line 50, `time.Now()` of line 52. -/
structure Clock where
  created : Int
  checked : Int
  allowed : Int
  blockedAt : Int
  deriving DecidableEq, Repr

/-- The record `rateLimiter` installs for a new network (middleware.go 35-38);
`none` is the panic of the integer division by a zero `limitPerMinute`. -/
def newClient (limitPerMinute : Int) (now : Int) : Option client :=
  if limitPerMinute = 0 then none
  else some
    { limiter := NewLimiter (Every (Minute.tdiv limitPerMinute)) limitPerMinute
      blocked := false
      blockedSince := 0
      lastSeen := now }

/-- The handler `rateLimiter` (middleware.go 23-65): the application and the
context after the call, `none` for a panic. -/
def rateLimiter (a : App) (c : Context) (clk : Clock) : Option (App × Context) :=
  let clientIP := getIP c
  match getNetwork clientIP a.netmask with
  | none => none
  | some (clientNetwork, err) =>
    -- lines 26-29: no return after the abort
    let c1 : Context :=
      match err with
      | some e => (c.String StatusBadRequest (e ++ "\n")).Abort
      | none => c
    -- lines 34-39
    let created : Option (AList (fun _ : String => client)) :=
      match a.clientsRate.lookup clientNetwork with
      | some _ => some a.clientsRate
      | none =>
        match newClient a.limitPerMinute clk.created with
        | none => none
        | some r => some (a.clientsRate.insert clientNetwork r)
    match created with
    | none => none
    | some m =>
      match m.lookup clientNetwork with
      | none => none
      | some r =>
        -- lines 42-47
        if r.blocked = true ∧ clk.checked - r.blockedSince < a.cooldownPeriod then
          some ({ a with clientsRate := m },
                (c1.String StatusTooManyRequests "Too many requests\n").Abort)
        else
          -- lines 50-64
          match r.limiter.Allow clk.allowed with
          | (false, lim) =>
            let r1 : client := { r with limiter := lim, blocked := true, blockedSince := clk.blockedAt }
            some ({ a with clientsRate := m.insert clientNetwork r1 },
                  (c1.String StatusTooManyRequests "Too many requests\n").Abort)
          | (true, lim) =>
            let r1 : client := { r with limiter := lim, blocked := false }
            some ({ a with clientsRate := m.insert clientNetwork r1 }, c1.Next)

/-- One pass of the loop of `cleanClientsRateMap` (app.go 68-77): ranges over the
records and deletes every one that `time.Since(client.lastSeen)` finds older
than the cooldown; `now key` is the clock reading taken for the record `key`. -/
def cleanPass (a : App) (now : String → Int) : App :=
  let swept := a.clientsRate.entries.foldl
    (fun m e => if now e.1 - e.2.lastSeen > a.cooldownPeriod then m.erase e.1 else m)
    a.clientsRate
  { a with clientsRate := swept }

/-- The loop `cleanClientsRateMap` (app.go 65-80) after the passes whose clock
readings are `clocks`; the loop itself never ends. -/
def cleanClientsRateMap (a : App) (clocks : List (String → Int)) : App :=
  clocks.foldl cleanPass a

/-- The constructor `NewApp` (app.go 33-44) for the values `getVars` returned: an
empty map. -/
def NewApp (limitPerMinute : Int) (netmask : Nat) (cooldownTime cleanPeriod : Int) : App :=
  { clientsRate := ∅
    limitPerMinute := limitPerMinute
    cooldownPeriod := cooldownTime
    cleanPeriod := cleanPeriod
    netmask := netmask }

/-- A request as it reaches `rateLimiter`, the first handler of the chain. -/
def request (forwardedFor remoteIP : String) : Context :=
  { forwardedFor := forwardedFor, remoteIP := remoteIP, writes := [], aborted := false,
    handled := false }

/-- A clock that reads the same instant throughout one call. -/
def Clock.at (t : Int) : Clock := { created := t, checked := t, allowed := t, blockedAt := t }

/-- Runs `rateLimiter` on the requests in order; returns the application at the
end and the context of every request. -/
def serve (a : App) : List (Context × Clock) → Option (App × List Context)
  | [] => some (a, [])
  | (c, clk) :: rest =>
    match rateLimiter a c clk with
    | none => none
    | some (a1, c1) =>
      match serve a1 rest with
      | none => none
      | some (a2, cs) => some (a2, c1 :: cs)

/-- Modelled from the spec: a syntactically valid IPv4/IPv6 literal (section 4.1)
is a text `net.ParseIP` accepts: `netip.ParseAddr` parses it and finds no zone.
The result is the bit width of the family of the literal, 32 or 128; `none` for
a text that is not a literal. -/
def literalBits (ip : String) : Option Nat :=
  match ParseAddr ip.data with
  | none => none
  | some addr => if addr.zone = [] then some addr.BitLen else none

/-- A character an address without zone can hold: a hexadecimal digit, a dot or
a colon. -/
def addrChar (c : Char) : Prop := (hexVal c).isSome = true ∨ c = '.' ∨ c = ':'

/-! ## States and requests used as concrete inputs -/

/-- The constant `time.Second` in nanoseconds. -/
def Second : Int := 1000000000

/-- A request from the host 192.168.1.10 (no forwarding header). -/
def hostRequest : Context := request "" "192.168.1.10"

/-- A request whose client address cannot be parsed. -/
def badRequest : Context := request "" "541.221.1.10"

/-- The application with one request per minute, a cooldown of one minute and
the mask 24, its map empty. -/
def oneApp : App := NewApp 1 24 Minute Minute

/-- The application with five requests per minute, a cooldown of one minute and
the mask 24, its map empty. -/
def fiveApp : App := NewApp 5 24 Minute Minute

/-- A record with an empty bucket, blocked since second 101. -/
def blockedClient : client :=
  { limiter := { interval := Minute, burst := 1, credit := 0, last := 100 * Second }
    blocked := true
    blockedSince := 101 * Second
    lastSeen := 100 * Second }

/-- The application `oneApp` holding `blockedClient` for the network 192.168.1.0. -/
def blockedApp : App :=
  { oneApp with clientsRate := (∅ : AList (fun _ : String => client)).insert "192.168.1.0" blockedClient }

/-- The application `blockedApp` with a cooldown of zero minutes. -/
def impatientApp : App := { blockedApp with cooldownPeriod := 0 }

/-- Six requests of the host 192.168.1.10, one second apart from second 100 on. -/
def sixRequests : List (Context × Clock) :=
  [(hostRequest, Clock.at (100 * Second)), (hostRequest, Clock.at (101 * Second)),
   (hostRequest, Clock.at (102 * Second)), (hostRequest, Clock.at (103 * Second)),
   (hostRequest, Clock.at (104 * Second)), (hostRequest, Clock.at (105 * Second))]

/-! ## `handlers.go` -/

/-- The constant `http.StatusOK`. -/
def StatusOK : Nat := 200

/-- The handler `clearLimitsHandler` (handlers.go 14-19): a new empty map in
place of `clientsRate` and the answer 200 "Limits are cleared\n". -/
def clearLimitsHandler (a : App) (c : Context) : App × Context :=
  ({ a with clientsRate := ∅ }, c.String StatusOK "Limits are cleared\n")

/-! ## `app.go`: the configuration -/

/-- Modelled from the spec: `strconv.Atoi` (Go standard library) for the 64-bit
`int`: an optional sign, one or more decimal digits and nothing else, the value
within the range of `int64`; `none` is the error result. -/
def Atoi (s : List Char) : Option Int :=
  let neg : Bool := s.head? == some '-'
  let digits := if s.head? = some '-' ∨ s.head? = some '+' then s.tail else s
  if digits = [] then none
  else if ¬ digits.all Char.isDigit = true then none
  else
    let un : Nat := digits.foldl (fun n ch => n * 10 + digitVal ch) 0
    if neg = true then (if un > 2 ^ 63 then none else some (-(un : Int)))
    else if un ≥ 2 ^ 63 then none
    else some (un : Int)

/-- The function `getIntEnv` (app.go 93-104); `env` is the environment
`os.LookupEnv` reads, `none` for a variable that is not set. -/
def getIntEnv (env : String → Option String) (envName : String) (defaultValue : Int) : Int :=
  match env envName with
  | none => defaultValue
  | some value =>
    match Atoi value.data with
    | none => defaultValue
    | some result => result

/-- The constant `defaultLimitPerMinute` (app.go 15). -/
def defaultLimitPerMinute : Int := 100

/-- The constant `defaultCooldownPeriodInMinutes` (app.go 16). -/
def defaultCooldownPeriodInMinutes : Int := 1

/-- The constant `defaultCleanPeriodInMinutes` (app.go 17). -/
def defaultCleanPeriodInMinutes : Int := 1

/-- The constant `defaultBanNetmask` (app.go 18). -/
def defaultBanNetmask : Int := 24

/-- The product of two `int64` (`time.Duration`) values: the result wraps into
the range of `int64`. -/
def mulInt64 (x y : Int) : Int := (x * y + 2 ^ 63) % 2 ^ 64 - 2 ^ 63

/-- The conversion `uint8(x)` of an `int`: the value modulo 256. -/
def toUint8 (x : Int) : Nat := (x % 256).toNat

/-- The function `getVars` (app.go 83-91): `limitPerMinute`, `netmask`,
`cooldownPeriod` and `cleanPeriod` in that order. -/
def getVars (env : String → Option String) : Int × Nat × Int × Int :=
  let limitPerMinute := getIntEnv env "LIMIT_PER_MINUTE" defaultLimitPerMinute
  let cooldownPeriodVal := getIntEnv env "COOLDOWN_PERIOD_IN_MINUTES" defaultCooldownPeriodInMinutes
  let cooldownPeriod := mulInt64 cooldownPeriodVal Minute
  let cleanPeriodVal := getIntEnv env "CLEAN_PERIOD_IN_MINUTES" defaultCleanPeriodInMinutes
  let cleanPeriod := mulInt64 cleanPeriodVal Minute
  let netmask := toUint8 (getIntEnv env "NETMASK" defaultBanNetmask)
  (limitPerMinute, netmask, cooldownPeriod, cleanPeriod)

/-- The environment that sets the variables listed and no other. -/
def envOf (vars : List (String × String)) : String → Option String :=
  fun name => vars.lookup name

/-! ## Package `gin`: the remote address -/

/-- Modelled from the spec: `unicode.IsSpace` (Go standard library). -/
def isSpace (c : Char) : Bool :=
  c.toNat ∈ [0x09, 0x0a, 0x0b, 0x0c, 0x0d, 0x20, 0x85, 0xa0, 0x1680, 0x2028, 0x2029, 0x202f,
    0x205f, 0x3000] || (0x2000 ≤ c.toNat && c.toNat ≤ 0x200a)

/-- Modelled from the spec: `strings.TrimSpace` (Go standard library): the text
without the white space at its two ends. -/
def TrimSpace (s : List Char) : List Char :=
  (((s.dropWhile isSpace).reverse).dropWhile isSpace).reverse

/-- Modelled from the spec: `bytealg.LastIndexByteString` followed by the two
slices `s[:i]`, `s[i+1:]` (Go standard library): the text before and after the
last `sep`, `none` when `sep` does not occur. -/
def cutLast (sep : Char) (s : List Char) : Option (List Char × List Char) :=
  match cutAt sep s.reverse with
  | none => none
  | some (after, before) => some (before.reverse, after.reverse)

/-- Modelled from the spec: `net.SplitHostPort` (Go standard library): host and
port of `host:port` or `[host]:port`; `none` is the error result. -/
def SplitHostPort (hostport : List Char) : Option (List Char × List Char) :=
  match cutLast ':' hostport with
  | none => none
  | some (beforeColon, port) =>
    if hostport.head? = some '[' then
      match cutAt ']' hostport with
      | none => none
      | some (upToBracket, afterBracket) =>
        if afterBracket = [] then none
        else if upToBracket.length + 1 ≠ beforeColon.length then none
        else if '[' ∈ hostport.tail then none
        else if ']' ∈ afterBracket then none
        else some (upToBracket.tail, port)
    else
      if ':' ∈ beforeColon then none
      else if '[' ∈ hostport then none
      else if ']' ∈ hostport then none
      else some (beforeColon, port)

/-- Modelled from the spec: `c.RemoteIP()` of gin (not part of the repository) on
the `RemoteAddr` of the request: the host of `net.SplitHostPort`, "" when that
fails. -/
def RemoteIP (remoteAddr : String) : String :=
  match SplitHostPort (TrimSpace remoteAddr.data) with
  | none => ""
  | some (ip, _) => String.mk ip

/-- The context of a request with the value `forwardedFor` that
`Header.Get("X-Forwarded-For")` returns ("" without the header) and the
`RemoteAddr` of its connection. -/
def ginRequest (forwardedFor remoteAddr : String) : Context :=
  request forwardedFor (RemoteIP remoteAddr)

/-- A character of a host or port written without brackets: no colon, no
bracket, no white space. -/
def plainChar (c : Char) : Prop := c ≠ ':' ∧ c ≠ '[' ∧ c ≠ ']' ∧ isSpace c = false

/-- The application with a limit of zero requests per minute, its map empty. -/
def zeroApp : App := NewApp 0 24 Minute Minute

/-- The variable `name` is set to a text that `strconv.Atoi` reads as `n`. -/
def holds (env : String → Option String) (name : String) (n : Int) : Prop :=
  ∃ value, env name = some value ∧ Atoi value.data = some n

/-- The variable `name` is not set, or set to a text `strconv.Atoi` refuses. -/
def unreadable (env : String → Option String) (name : String) : Prop :=
  ∀ value, env name = some value → Atoi value.data = none

/-- The environment of `Test_getVars` (app_test.go 60-63). -/
def testEnv : String → Option String :=
  envOf [("LIMIT_PER_MINUTE", "100"), ("COOLDOWN_PERIOD_IN_MINUTES", "1"),
         ("CLEAN_PERIOD_IN_MINUTES", "1"), ("NETMASK", "24")]

/-! ## The mutex: what each function does to `a.mu` and to the map, in order -/

/-- A step of a function that matters to the locking: `a.mu.Lock()`,
`a.mu.Unlock()`, or a line that reads or writes `clientsRate` or a record. -/
inductive MuEvent where
  | lock : MuEvent
  | unlock : MuEvent
  | access : MuEvent
  deriving DecidableEq, Repr

/-- The steps of one call of `rateLimiter` (middleware.go 31-62), one `access`
for each line that touches the map or a record: line 34, line 35 when the record
is made, line 42, then line 50 and line 59, or lines 50, 51 and 52. The panic of
line 36 ends the call with the mutex locked. -/
def rateLimiterEvents (a : App) (c : Context) (clk : Clock) : List MuEvent :=
  match getNetwork (getIP c) a.netmask with
  | none => []
  | some (clientNetwork, _) =>
    let found := a.clientsRate.lookup clientNetwork
    let record : Option client :=
      match found with
      | some r => some r
      | none => newClient a.limitPerMinute clk.created
    let made : List MuEvent := if found.isNone then [MuEvent.access] else []
    match record with
    | none => [MuEvent.lock, MuEvent.access]
    | some r =>
      if r.blocked = true ∧ clk.checked - r.blockedSince < a.cooldownPeriod then
        [MuEvent.lock, MuEvent.access] ++ made ++ [MuEvent.access, MuEvent.unlock]
      else if r.limiter.hasCredit clk.allowed = true then
        [MuEvent.lock, MuEvent.access] ++ made ++
          [MuEvent.access, MuEvent.access, MuEvent.access, MuEvent.unlock]
      else
        [MuEvent.lock, MuEvent.access] ++ made ++
          [MuEvent.access, MuEvent.access, MuEvent.access, MuEvent.access, MuEvent.unlock]

/-- The steps of one pass of `cleanClientsRateMap` (app.go 68-77): the lock, for
every record the read of `lastSeen` on line 72 and the `delete` of line 73 when
it is due, the unlock. -/
def cleanPassEvents (a : App) (now : String → Int) : List MuEvent :=
  [MuEvent.lock] ++
    (a.clientsRate.entries.map (fun e =>
      if now e.1 - e.2.lastSeen > a.cooldownPeriod then [MuEvent.access, MuEvent.access]
      else [MuEvent.access])).flatten ++
    [MuEvent.unlock]

/-- The steps of `clearLimitsHandler` (handlers.go 14-19): the write of
`a.clientsRate` on line 17; the function does not touch the mutex. -/
def clearLimitsHandlerEvents : List MuEvent := [MuEvent.access]

/-- Every `access` of the steps happens while the mutex is held, no lock is taken
twice, no unlock is done on a free mutex, and the mutex is free at the end;
`held` says whether the mutex is held at the start. -/
def guardedFrom : Bool → List MuEvent → Bool
  | held, [] => !held
  | held, MuEvent.lock :: rest => !held && guardedFrom true rest
  | held, MuEvent.unlock :: rest => held && guardedFrom false rest
  | held, MuEvent.access :: rest => held && guardedFrom held rest

/-- The steps keep the discipline of the mutex: every access under the lock, and
the mutex released exactly once. -/
def disciplined (steps : List MuEvent) : Bool :=
  guardedFrom false steps && steps.count MuEvent.unlock == 1

/-! ## The states the application can reach -/

/-- The response of a rejection for too many requests: status 429 and its text. -/
def tooManyWrite : Nat × String := (StatusTooManyRequests, "Too many requests\n")

/-- The states reached from the empty map of `NewApp` by admission decisions,
sweep passes and resets. `Reachable a log now` says that the application is `a`,
that `log` holds, latest first, the network key and the clock readings of every
request answered 429 so far, and that `now` is the current time. The clock never
runs backwards and reads positive instants. -/
inductive Reachable : App → List (String × Clock) → Int → Prop where
  | start (limitPerMinute : Int) (netmask : Nat) (cooldownTime cleanPeriod now : Int) :
      0 < now → Reachable (NewApp limitPerMinute netmask cooldownTime cleanPeriod) [] now
  | decision (a a1 : App) (log : List (String × Clock)) (now : Int)
      (forwardedFor remoteIP : String) (clk : Clock) (key : String) (err : Option String)
      (c1 : Context) :
      Reachable a log now →
      now ≤ clk.created → clk.created ≤ clk.checked → clk.checked ≤ clk.allowed →
      clk.allowed ≤ clk.blockedAt →
      getNetwork (getIP (request forwardedFor remoteIP)) a.netmask = some (key, err) →
      rateLimiter a (request forwardedFor remoteIP) clk = some (a1, c1) →
      Reachable a1 (if tooManyWrite ∈ c1.writes then (key, clk) :: log else log) clk.blockedAt
  | sweep (a : App) (log : List (String × Clock)) (now now1 : Int) (clock : String → Int) :
      Reachable a log now → now ≤ now1 → Reachable (cleanPass a clock) log now1
  | reset (a : App) (log : List (String × Clock)) (now : Int) (c : Context) :
      Reachable a log now → Reachable (clearLimitsHandler a c).1 log now

/-- The application `oneApp` after the request of the host 192.168.1.10 at second
100: the record of the network 192.168.1.0 was made and gave its one credit. -/
def spentApp : App :=
  { oneApp with clientsRate := ((∅ : AList (fun _ : String => client)).insert "192.168.1.0" { limiter := { interval := Minute, burst := 1, credit := 1 * Minute, last := 0 }, blocked := false, blockedSince := 0, lastSeen := 100 * Second }).insert "192.168.1.0" { limiter := { interval := Minute, burst := 1, credit := 0, last := 100 * Second }, blocked := false, blockedSince := 0, lastSeen := 100 * Second } }

/-- The application `spentApp` after the request of the same host at second 101:
the network is blocked since second 101. -/
def refusedApp : App :=
  { spentApp with clientsRate := spentApp.clientsRate.insert "192.168.1.0" { limiter := { interval := Minute, burst := 1, credit := 0, last := 100 * Second }, blocked := true, blockedSince := 101 * Second, lastSeen := 100 * Second } }

/-! ## The parts of the text of an IPv6 address -/

/-- The texts between the colons of what the second loop of `Addr.appendTo6`
writes for `groups` with the zero run `(zeroStart, zeroEnd)`: the numerals of
the groups outside the run, with an empty text where the run is (two at an end
of the address). -/
def hexTokens (groups : List Nat) (zeroStart zeroEnd : Nat) : List (List Char) :=
  if zeroStart ≥ 8 then groups.map appendHex
  else (groups.take zeroStart).map appendHex ++ (if zeroStart = 0 then [[], []] else [[]]) ++
    (if zeroEnd ≥ 8 then [[]] else []) ++ (groups.drop zeroEnd).map appendHex

/-- A zero run `(zeroStart, zeroEnd)` as the first loop of `Addr.appendTo6`
leaves it: none, or two or more groups of `groups` that are all zero. -/
def validRun (groups : List Nat) (run : Nat × Nat) : Prop :=
  (run.1 = 255 ∧ run.2 = 255) ∨
    (run.1 + 2 ≤ run.2 ∧ run.2 ≤ groups.length ∧ ∀ j, run.1 ≤ j → j < run.2 → groups.getD j 1 = 0)

/-- Bit `i` of an address, counted from the most significant bit of its first
byte: the `i`-th bit of the address as a prefix length counts them. -/
def addrBit (bytes : List Nat) (i : Nat) : Bool := (bytes.getD (i / 8) 0).testBit (7 - i % 8)

/-! # Theorems -/

/-! ## Lemmas on the resolver -/

theorem toDigitsCore_ne_nil (b : Nat) :
    ∀ (fuel n : Nat) (ds : List Char), ds ≠ [] → Nat.toDigitsCore b fuel n ds ≠ [] := by
  intro fuel
  induction fuel with
  | zero => intro n ds h; simpa [Nat.toDigitsCore] using h
  | succ f ih =>
    intro n ds _
    unfold Nat.toDigitsCore
    simp only
    split
    · simp
    · exact ih _ _ (by simp)

theorem toDigits_ne_nil (b n : Nat) : Nat.toDigits b n ≠ [] := by
  unfold Nat.toDigits Nat.toDigitsCore
  simp only
  split
  · simp
  · exact toDigitsCore_ne_nil b _ _ _ (by simp)

theorem uitoa_length_pos (n : Nat) : 1 ≤ (uitoa n).length := by
  have h := toDigits_ne_nil 10 n
  unfold uitoa
  cases hd : Nat.toDigits 10 n with
  | nil => exact absurd hd h
  | cons c cs => simp

theorem appendHex_length_pos (n : Nat) : 1 ≤ (appendHex n).length := by
  have h := toDigits_ne_nil 16 n
  unfold appendHex
  cases hd : Nat.toDigits 16 n with
  | nil => exact absurd hd h
  | cons c cs => simp

theorem string4_length_pos (ip : List Nat) (h : ip ≠ []) : 1 ≤ (string4 ip).length := by
  cases ip with
  | nil => exact absurd rfl h
  | cons b rest =>
    have h1 := uitoa_length_pos b
    cases rest with
    | nil => simpa [string4, List.intercalate] using h1
    | cons b2 rest2 =>
      simp only [string4, List.map_cons, List.intercalate, List.intersperse, List.flatten_cons,
        List.length_append]
      omega

theorem string6Loop_length_pos (groups : List Nat) (zs ze fuel : Nat) :
    1 ≤ (string6Loop groups zs ze (fuel + 1) 0).length := by
  rw [string6Loop]
  have h0 : ¬ (0 ≥ 8) := by decide
  simp only [h0, if_false]
  by_cases h : 0 = zs
  · simp only [h, if_true, List.length_cons]; omega
  · have h1 := appendHex_length_pos (groups.getD 0 0)
    have h2 : ¬ (0 > 0) := by decide
    simp only [h, if_false, h2, List.nil_append, List.length_append]
    omega

theorem string6_length_pos (ip : List Nat) : 1 ≤ (string6 ip).length := by
  unfold string6
  simp only
  generalize longestZeroRun (groups16 ip) 0 (255, 255) = p
  obtain ⟨zs, ze⟩ := p
  exact string6Loop_length_pos _ zs ze 7

theorem To4_length (ip p4 : List Nat) (h : To4 ip = some p4) : p4.length = 4 := by
  unfold To4 at h
  split at h
  · next h1 => cases h; exact h1
  · split at h
    · next h2 => cases h; rw [List.length_drop, h2.1]
    · cases h

theorem IPString_length_pos (ip : List Nat) : 1 ≤ (IPString ip).length := by
  unfold IPString
  by_cases h0 : ip.length = 0
  · simp only [h0, if_true]; decide
  · simp only [h0, if_false]
    by_cases h1 : ip.length ≠ 4 ∧ ip.length ≠ 16
    · simp only [h1, ne_eq, not_false_eq_true, and_self, if_true, List.length_cons]; omega
    · simp only [h1, if_false]
      cases h4 : To4 ip with
      | none => exact string6_length_pos ip
      | some p4 =>
        have hl := To4_length ip p4 h4
        exact string4_length_pos p4 (by intro h; rw [h] at hl; cases hl)

theorem hexBytes_length_pos (m : List Nat) (h : m.length ≠ 0) :
    1 ≤ ((m.map hexByte).flatten).length := by
  cases m with
  | nil => exact absurd rfl h
  | cons b rest => simp [hexByte]

/-- The text of a network is at least three characters long, so the slice of
`getNetwork` is always in range. -/
theorem IPNetString_length (n : IPNet) : 3 ≤ (IPNetString n).length := by
  unfold IPNetString
  cases hnm : networkNumberAndMask n with
  | none => decide
  | some p =>
    obtain ⟨nn, m⟩ := p
    have h1 := IPString_length_pos nn
    simp only
    cases hl : simpleMaskLength m with
    | none =>
      simp only [List.length_append, List.length_cons]
      by_cases hm : m.length = 0
      · simp only [hm, if_true]
        have h5 : (['<', 'n', 'i', 'l', '>'] : List Char).length = 5 := rfl
        omega
      · have h2 := hexBytes_length_pos m hm
        simp only [hm, if_false]
        omega
    | some l =>
      have h2 := uitoa_length_pos l
      simp only [List.length_append, List.length_cons]
      omega

theorem cutAt_append (sep : Char) (b : List Char) :
    ∀ a : List Char, sep ∉ a → cutAt sep (a ++ sep :: b) = some (a, b) := by
  intro a
  induction a with
  | nil => intro _; simp [cutAt]
  | cons c rest ih =>
    intro h
    have hc : c ≠ sep := fun e => h (by simp [e])
    have hr : sep ∉ rest := fun e => h (List.mem_cons_of_mem _ e)
    simp [cutAt, hc, ih hr]

theorem cutAt_some (sep : Char) :
    ∀ (s a b : List Char), cutAt sep s = some (a, b) → s = a ++ sep :: b ∧ sep ∉ a := by
  intro s
  induction s with
  | nil => intro a b h; simp [cutAt] at h
  | cons c rest ih =>
    intro a b h
    unfold cutAt at h
    by_cases hc : c = sep
    · simp only [hc, if_true, Option.some.injEq, Prod.mk.injEq] at h
      obtain ⟨h1, h2⟩ := h
      subst h1; subst h2
      simp [hc]
    · simp only [hc, if_false] at h
      cases hr : cutAt sep rest with
      | none => simp [hr] at h
      | some p =>
        obtain ⟨a1, b1⟩ := p
        simp only [hr, Option.some.injEq, Prod.mk.injEq] at h
        obtain ⟨h1, h2⟩ := h
        subst h1; subst h2
        obtain ⟨e1, e2⟩ := ih a1 b1 hr
        refine ⟨by rw [e1]; rfl, ?_⟩
        intro hm
        rcases List.mem_cons.1 hm with e | e
        · exact hc e.symm
        · exact e2 e

theorem cutAt_none (sep : Char) : ∀ s : List Char, cutAt sep s = none → sep ∉ s := by
  intro s
  induction s with
  | nil => intro _; simp
  | cons c rest ih =>
    intro h
    unfold cutAt at h
    by_cases hc : c = sep
    · simp [hc] at h
    · simp only [hc, if_false] at h
      cases hr : cutAt sep rest with
      | none =>
        intro hm
        rcases List.mem_cons.1 hm with e | e
        · exact hc e.symm
        · exact ih hr e
      | some p => simp [hr] at h

theorem dtoiLoop_all_digits :
    ∀ (s : List Char) (n i n1 i1 : Nat), dtoiLoop s n i = (n1, i1, true) →
      i1 = i + s.length → ∀ c ∈ s, c.isDigit = true := by
  intro s
  induction s with
  | nil => intro n i n1 i1 _ _ c hc; simp at hc
  | cons d rest ih =>
    intro n i n1 i1 h hlen c hc
    unfold dtoiLoop at h
    by_cases hd : d.isDigit = true
    · simp only [hd, if_true] at h
      by_cases hb : n * 10 + digitVal d ≥ big
      · simp [hb] at h
      · simp only [hb, if_false] at h
        rcases List.mem_cons.1 hc with e | e
        · rw [e]; exact hd
        · exact ih _ _ _ _ h (by simp only [List.length_cons] at hlen; omega) c e
    · simp only [hd, Bool.false_eq_true, if_false, Prod.mk.injEq, and_true] at h
      simp only [List.length_cons] at hlen
      omega

theorem dtoi_all_digits (s : List Char) (n i : Nat) (h : dtoi s = (n, i, true))
    (hlen : i = s.length) : ∀ c ∈ s, c.isDigit = true := by
  unfold dtoi at h
  rcases hl : dtoiLoop s 0 0 with ⟨n1, i1, ok⟩
  rw [hl] at h
  simp only at h
  by_cases hz : (ok && i1 == 0) = true
  · simp [hz] at h
  · simp only [hz, Bool.false_eq_true, if_false, Prod.mk.injEq] at h
    obtain ⟨_, h2, h3⟩ := h
    subst h2; subst h3
    exact dtoiLoop_all_digits s 0 0 n1 i1 hl (by omega)

set_option maxRecDepth 100000 in
/-- Reading back: `dtoi` returns what `%d` wrote for a `uint8`. -/
theorem dtoi_uitoa : ∀ m : Nat, m < 256 → dtoi (uitoa m) = (m, (uitoa m).length, true) := by
  decide

theorem addrChar_of_isDigit (c : Char) (h : c.isDigit = true) : addrChar c := by
  left
  simp [hexVal, h]

theorem parseIPv4FieldsLoop_chars :
    ∀ (s : List Char) (first prevDot : Bool) (val digLen : Nat) (fields f : List Nat),
      parseIPv4FieldsLoop s first prevDot val digLen fields = some f →
      ∀ c ∈ s, addrChar c := by
  intro s
  induction s with
  | nil => intro _ _ _ _ _ _ _ c hc; simp at hc
  | cons d rest ih =>
    intro first prevDot val digLen fields f h c hc
    unfold parseIPv4FieldsLoop at h
    by_cases hd : d.isDigit = true
    · simp only [hd, if_true] at h
      split at h
      · cases h
      · split at h
        · cases h
        · rcases List.mem_cons.1 hc with e | e
          · rw [e]; exact addrChar_of_isDigit d hd
          · exact ih _ _ _ _ _ _ h c e
    · simp only [hd, Bool.false_eq_true, if_false] at h
      split at h
      · next hdot =>
        split at h
        · cases h
        · split at h
          · cases h
          · rcases List.mem_cons.1 hc with e | e
            · rw [e, hdot]; right; left; rfl
            · exact ih _ _ _ _ _ _ h c e
      · cases h

/-- An IPv4 literal parses to four bytes, so its `BitLen` is 32. -/
theorem parseIPv4FieldsLoop_length :
    ∀ (s : List Char) (first prevDot : Bool) (val digLen : Nat) (fields f : List Nat),
      fields.length ≤ 3 →
      parseIPv4FieldsLoop s first prevDot val digLen fields = some f → f.length = 4 := by
  intro s
  induction s with
  | nil =>
    intro _ _ val _ fields f hle h
    unfold parseIPv4FieldsLoop at h
    split at h
    · cases h
    · cases h
      simp only [List.length_append, List.length_cons, List.length_nil]
      omega
  | cons d rest ih =>
    intro first prevDot val digLen fields f hle h
    unfold parseIPv4FieldsLoop at h
    split at h
    · split at h
      · cases h
      · split at h
        · cases h
        · exact ih _ _ _ _ _ _ hle h
    · split at h
      · split at h
        · cases h
        · split at h
          · cases h
          · next hne =>
            exact ih _ _ _ _ _ _
              (by simp only [List.length_append, List.length_cons, List.length_nil]; omega) h
      · cases h

theorem scanHex_split :
    ∀ (s : List Char) (acc off acc1 off1 : Nat) (rest : List Char),
      scanHex s acc off = some (acc1, off1, rest) →
      ∃ pre, s = pre ++ rest ∧ ∀ c ∈ pre, addrChar c := by
  intro s
  induction s with
  | nil =>
    intro acc off acc1 off1 rest h
    simp only [scanHex, Option.some.injEq, Prod.mk.injEq] at h
    exact ⟨[], by simp [h.2.2.symm], by simp⟩
  | cons d tl ih =>
    intro acc off acc1 off1 rest h
    unfold scanHex at h
    cases hv : hexVal d with
    | none =>
      simp only [hv, Option.some.injEq, Prod.mk.injEq] at h
      exact ⟨[], by simp [h.2.2.symm], by simp⟩
    | some v =>
      simp only [hv] at h
      split at h
      · cases h
      · split at h
        · cases h
        · obtain ⟨pre, e1, e2⟩ := ih _ _ _ _ _ h
          refine ⟨d :: pre, by rw [e1]; rfl, ?_⟩
          intro c hc
          rcases List.mem_cons.1 hc with e | e
          · rw [e]; left; simp [hv]
          · exact e2 c e

theorem parseIPv6Loop_chars :
    ∀ (fuel : Nat) (s : List Char) (ip : List Nat) (ellipsis : Option Nat)
      (left : List Char) (ip1 : List Nat) (ellipsis1 : Option Nat),
      parseIPv6Loop fuel s ip ellipsis = some (left, ip1, ellipsis1) →
      ∀ c ∈ s, addrChar c ∨ c ∈ left := by
  intro fuel
  induction fuel with
  | zero =>
    intro s ip ellipsis left ip1 ellipsis1 h c hc
    simp only [parseIPv6Loop, Option.some.injEq, Prod.mk.injEq] at h
    right; rw [← h.1]; exact hc
  | succ fuel ih =>
    intro s ip ellipsis left ip1 ellipsis1 h c hc
    unfold parseIPv6Loop at h
    split at h
    · simp only [Option.some.injEq, Prod.mk.injEq] at h
      right; rw [← h.1]; exact hc
    · cases hscan : scanHex s 0 0 with
      | none => simp [hscan] at h
      | some p =>
        obtain ⟨acc, off, rest⟩ := p
        simp only [hscan] at h
        obtain ⟨pre, hs, hpre⟩ := scanHex_split s 0 0 acc off rest hscan
        have hcolon : addrChar ':' := Or.inr (Or.inr rfl)
        split at h
        · cases h
        · split at h
          · split at h
            · cases h
            · split at h
              · cases h
              · cases hfour : parseIPv4Fields s with
                | none => simp [hfour] at h
                | some four =>
                  left
                  exact parseIPv4FieldsLoop_chars s true false 0 0 [] four hfour c hc
          · rw [hs] at hc
            rcases List.mem_append.1 hc with hp | hr
            · left; exact hpre c hp
            · cases rest with
              | nil => simp at hr
              | cons c0 rest1 =>
                simp only at h
                split at h
                · cases h
                · next hc0 =>
                  have hc0' : c0 = ':' := by simpa using hc0
                  cases rest1 with
                  | nil => simp at h
                  | cons c1 rest2 =>
                    simp only at h
                    split at h
                    · next hc1 =>
                      split at h
                      · cases h
                      · cases rest2 with
                        | nil =>
                          rcases List.mem_cons.1 hr with e | e
                          · left; rw [e, hc0']; exact hcolon
                          · rcases List.mem_cons.1 e with e | e
                            · left; rw [e, hc1]; exact hcolon
                            · simp at e
                        | cons c2 rest3 =>
                          simp only at h
                          rcases List.mem_cons.1 hr with e | e
                          · left; rw [e, hc0']; exact hcolon
                          · rcases List.mem_cons.1 e with e | e
                            · left; rw [e, hc1]; exact hcolon
                            · exact ih _ _ _ _ _ _ h c e
                    · rcases List.mem_cons.1 hr with e | e
                      · left; rw [e, hc0']; exact hcolon
                      · exact ih _ _ _ _ _ _ h c e

theorem parseIPv6Body_zone (s zone : List Char) (a : Addr)
    (h : parseIPv6Body s zone = some a) : a.zone = zone := by
  unfold parseIPv6Body at h
  simp only at h
  generalize (match s with
    | c0 :: c1 :: _ => c0 == ':' && c1 == ':'
    | _ => false) = lead at h
  generalize (if lead = true then List.drop 2 s else s) = s1 at h
  generalize (if lead = true then some 0 else none) = e0 at h
  split at h
  · cases h; rfl
  · cases hl : parseIPv6Loop 8 s1 [] e0 with
    | none => simp [hl] at h
    | some p =>
      obtain ⟨left, ip, ellipsis⟩ := p
      simp only [hl] at h
      split at h
      · cases h
      · split at h
        · cases ellipsis with
          | none => cases h
          | some e => cases h; rfl
        · split at h
          · cases h
          · cases h; rfl

theorem parseIPv6Body_chars (s zone : List Char) (a : Addr)
    (h : parseIPv6Body s zone = some a) : ∀ c ∈ s, addrChar c := by
  have hcolon : addrChar ':' := Or.inr (Or.inr rfl)
  have key : ∀ (s1 : List Char) (e0 : Option Nat),
      (match parseIPv6Loop 8 s1 [] e0 with
        | none => none
        | some (left, ip, ellipsis) =>
          if left ≠ [] then none
          else if ip.length < 16 then
            match ellipsis with
            | none => none
            | some e => some (⟨ip.take e ++ List.replicate (16 - ip.length) 0 ++ ip.drop e, zone⟩ : Addr)
          else if ellipsis.isSome then none
          else some ⟨ip, zone⟩) = some a →
      ∀ c ∈ s1, addrChar c := by
    intro s1 e0 h1 c hc
    cases hl : parseIPv6Loop 8 s1 [] e0 with
    | none => simp [hl] at h1
    | some p =>
      obtain ⟨left, ip, ellipsis⟩ := p
      simp only [hl] at h1
      split at h1
      · cases h1
      · next hleft =>
        have hleft' : left = [] := by simpa using hleft
        rcases parseIPv6Loop_chars 8 s1 [] e0 left ip ellipsis hl c hc with h2 | h2
        · exact h2
        · rw [hleft'] at h2; simp at h2
  unfold parseIPv6Body at h
  simp only at h
  cases s with
  | nil =>
    simp only [Bool.false_eq_true, false_and, if_false] at h
    intro c hc; simp at hc
  | cons c0 t =>
    cases t with
    | nil =>
      simp only [Bool.false_eq_true, false_and, if_false] at h
      exact key _ _ h
    | cons c1 t1 =>
      simp only at h
      by_cases hlead : (c0 == ':' && c1 == ':') = true
      · have h01 : c0 = ':' ∧ c1 = ':' := by simpa using hlead
        simp only [hlead, if_true, List.drop_succ_cons, List.drop_zero, true_and] at h
        intro c hc
        rcases List.mem_cons.1 hc with e | e
        · rw [e, h01.1]; exact hcolon
        · rcases List.mem_cons.1 e with e | e
          · rw [e, h01.2]; exact hcolon
          · split at h
            · next ht => rw [ht] at e; simp at e
            · exact key _ _ h c e
      · simp only [hlead, Bool.false_eq_true, false_and, if_false] at h
        exact key _ _ h

/-- A text `netip.ParseAddr` accepts without finding a zone holds only
hexadecimal digits, dots and colons. -/
theorem ParseAddr_chars (s : List Char) (a : Addr) (h : ParseAddr s = some a)
    (hz : a.zone = []) : ∀ c ∈ s, addrChar c := by
  unfold ParseAddr at h
  split at h
  · cases h
  · split at h
    · unfold parseIPv4 at h
      cases h4 : parseIPv4Fields s with
      | none => simp [h4] at h
      | some f => exact parseIPv4FieldsLoop_chars s true false 0 0 [] f h4
    · split at h
      · unfold parseIPv6 at h
        cases hcut : cutAt '%' s with
        | none =>
          simp only [hcut] at h
          exact parseIPv6Body_chars s [] a h
        | some p =>
          obtain ⟨s1, zone⟩ := p
          simp only [hcut] at h
          split at h
          · cases h
          · next hzone =>
            have := parseIPv6Body_zone s1 zone a h
            rw [hz] at this
            exact absurd this.symm hzone
      · cases h

theorem not_addrChar_slash : ¬ addrChar '/' := by
  unfold addrChar
  decide

theorem literalBits_none_of_slash (ip : String) (h : '/' ∈ ip.data) : literalBits ip = none := by
  unfold literalBits
  cases hp : ParseAddr ip.data with
  | none => rfl
  | some a =>
    simp only
    by_cases hz : a.zone = []
    · exact absurd (ParseAddr_chars ip.data a hp hz '/' h) not_addrChar_slash
    · simp [hz]

theorem ParseCIDR_none_of_slash (ip : String) (ds : List Char) (h : '/' ∈ ip.data) :
    ParseCIDR (ip.data ++ '/' :: ds) = none := by
  cases hcut : cutAt '/' ip.data with
  | none => exact absurd h (cutAt_none '/' ip.data hcut)
  | some p =>
    obtain ⟨pre, post⟩ := p
    obtain ⟨hsplit, hpre⟩ := cutAt_some '/' ip.data pre post hcut
    have hcut2 : cutAt '/' (ip.data ++ '/' :: ds) = some (pre, post ++ '/' :: ds) := by
      rw [hsplit, List.append_assoc, List.cons_append]
      exact cutAt_append '/' _ pre hpre
    unfold ParseCIDR
    simp only [hcut2]
    cases hp : ParseAddr pre with
    | none => rfl
    | some a =>
      simp only
      by_cases hz : a.zone ≠ []
      · simp [hz]
      · simp only [hz, if_false]
        rcases hd : dtoi (post ++ '/' :: ds) with ⟨n, i, ok⟩
        simp only
        by_cases hbad : ¬ ok = true ∨ i ≠ (post ++ '/' :: ds).length ∨ n > a.BitLen
        · simp only [hbad, if_true]
        · exfalso
          simp only [not_or, not_not] at hbad
          obtain ⟨hok, hi, _⟩ := hbad
          rw [hok] at hd
          have := dtoi_all_digits (post ++ '/' :: ds) n i hd hi '/' (by simp)
          exact absurd this (by decide)

theorem ParseCIDR_of_no_slash (ip : String) (m : Nat) (hm : m < 256) (h : '/' ∉ ip.data) :
    ParseCIDR (ip.data ++ '/' :: uitoa m) =
      match ParseAddr ip.data with
      | none => none
      | some a =>
        if a.zone ≠ [] then none
        else if m > a.BitLen then none
        else some ⟨IP_Mask a.As16 (CIDRMask m a.BitLen), CIDRMask m a.BitLen⟩ := by
  unfold ParseCIDR
  rw [cutAt_append '/' (uitoa m) ip.data h]
  simp only
  cases hp : ParseAddr ip.data with
  | none => rfl
  | some a =>
    simp only [dtoi_uitoa m hm]
    by_cases hz : a.zone ≠ []
    · simp [hz]
    · by_cases hb : m > a.BitLen
      · simp [hz, hb]
      · simp [hz, hb]

/-- The parser `net.ParseCIDR` refuses the text `getNetwork` builds exactly when
the address is no literal or the mask is wider than its family. -/
theorem ParseCIDR_none_iff (ip : String) (m : Nat) (hm : m < 256) :
    ParseCIDR (ip.data ++ '/' :: uitoa m) = none ↔
      (literalBits ip = none ∨ ∃ bits, literalBits ip = some bits ∧ bits < m) := by
  by_cases h : '/' ∈ ip.data
  · constructor
    · intro _; exact Or.inl (literalBits_none_of_slash ip h)
    · intro _; exact ParseCIDR_none_of_slash ip _ h
  · rw [ParseCIDR_of_no_slash ip m hm h]
    unfold literalBits
    cases hp : ParseAddr ip.data with
    | none => simp
    | some a =>
      simp only
      by_cases hz : a.zone = []
      · by_cases hb : m > a.BitLen
        · simp [hz, hb]
        · simp [hz, hb]
      · simp [hz]

/-! ## Lemmas on the bucket and on one admission decision -/

theorem Allow_fst (lim : Limiter) (t : Int) : (lim.Allow t).1 = lim.hasCredit t := by
  unfold Limiter.Allow Limiter.hasCredit
  by_cases h1 : lim.interval ≤ 0
  · simp [h1]
  · by_cases h2 : lim.interval ≤ lim.advance t <;> simp [h1, h2]

theorem Allow_snd_of_empty (lim : Limiter) (t : Int) (h : lim.hasCredit t = false) :
    (lim.Allow t).2 = lim := by
  unfold Limiter.hasCredit at h
  unfold Limiter.Allow
  by_cases h1 : lim.interval ≤ 0
  · simp [h1] at h
  · by_cases h2 : lim.interval ≤ lim.advance t
    · simp [h2] at h
    · simp [h1, h2]

/-- One call of `rateLimiter` for a network that has a record. -/
theorem rateLimiter_of_record (a : App) (c : Context) (clk : Clock) (key : String) (r : client)
    (hnet : getNetwork (getIP c) a.netmask = some (key, none))
    (hrec : a.clientsRate.lookup key = some r) :
    rateLimiter a c clk =
      if r.blocked = true ∧ clk.checked - r.blockedSince < a.cooldownPeriod then
        some (a, (c.String StatusTooManyRequests "Too many requests\n").Abort)
      else if r.limiter.hasCredit clk.allowed = true then
        some ({ a with clientsRate := a.clientsRate.insert key { r with limiter := (r.limiter.Allow clk.allowed).2, blocked := false } },
              c.Next)
      else
        some ({ a with clientsRate := a.clientsRate.insert key { r with blocked := true, blockedSince := clk.blockedAt } },
              (c.String StatusTooManyRequests "Too many requests\n").Abort) := by
  unfold rateLimiter
  simp only [hnet, hrec]
  by_cases hb : r.blocked = true ∧ clk.checked - r.blockedSince < a.cooldownPeriod
  · simp only [hb, and_self, if_true]
  · simp only [hb, if_false]
    have h1 := Allow_fst r.limiter clk.allowed
    cases hc : r.limiter.hasCredit clk.allowed
    · have h2 := Allow_snd_of_empty r.limiter clk.allowed hc
      rw [hc] at h1
      rcases hA : r.limiter.Allow clk.allowed with ⟨ok, lim⟩
      rw [hA] at h1 h2
      simp only at h1 h2
      subst h1; subst h2
      simp
    · rw [hc] at h1
      rcases hA : r.limiter.Allow clk.allowed with ⟨ok, lim⟩
      rw [hA] at h1
      simp only at h1
      subst h1
      simp

/-- A call of `rateLimiter` for a network that has a record never writes
`lastSeen`. -/
theorem rateLimiter_lastSeen_unchanged (a a1 : App) (c c1 : Context) (clk : Clock)
    (key : String) (r : client)
    (hnet : getNetwork (getIP c) a.netmask = some (key, none))
    (hrec : a.clientsRate.lookup key = some r)
    (hrun : rateLimiter a c clk = some (a1, c1)) :
    (a1.clientsRate.lookup key).map client.lastSeen = some r.lastSeen := by
  rw [rateLimiter_of_record a c clk key r hnet hrec] at hrun
  split at hrun
  · cases hrun
    simp [hrec]
  · split at hrun
    · cases hrun
      simp [AList.lookup_insert]
    · cases hrun
      simp [AList.lookup_insert]

/-- For a network without a record, `rateLimiter` goes on as if the new record
were already in the map. -/
theorem rateLimiter_of_absent (a : App) (c : Context) (clk : Clock) (key : String) (r0 : client)
    (hnet : getNetwork (getIP c) a.netmask = some (key, none))
    (hnone : a.clientsRate.lookup key = none)
    (hnew : newClient a.limitPerMinute clk.created = some r0) :
    rateLimiter a c clk =
      rateLimiter { a with clientsRate := a.clientsRate.insert key r0 } c clk := by
  unfold rateLimiter
  simp only [hnet, hnone, hnew, AList.lookup_insert]

/-- Requests inside one refill interval, on a bucket that holds as many whole
credits as there are requests before the last one: all are let through but the
last. -/
theorem serve_within_interval (key : String) (I : Int) (hI : 0 < I) (last : Context × Clock) :
    ∀ (reqs : List (Context × Clock)) (a : App) (r : client) (d : Int),
      a.clientsRate.lookup key = some r → r.blocked = false → r.limiter.interval = I →
      r.limiter.credit = (reqs.length : Int) * I + d → 0 ≤ d →
      d + (last.2.allowed - r.limiter.last) < I →
      (reqs.length : Int) * I + I ≤ r.limiter.burst * I →
      (∀ q ∈ reqs ++ [last], getNetwork (getIP q.1) a.netmask = some (key, none)) →
      List.Pairwise (· ≤ ·) (r.limiter.last :: (reqs ++ [last]).map (fun q => q.2.allowed)) →
      ∃ a', serve a (reqs ++ [last]) =
        some (a', reqs.map (fun q => q.1.Next) ++
          [(last.1.String StatusTooManyRequests "Too many requests\n").Abort]) := by
  intro reqs
  induction reqs with
  | nil =>
    intro a r d hrec hblocked hint hcredit hd hwin _ hnet hsorted
    have hnet1 := hnet last (by simp)
    have hle : r.limiter.last ≤ last.2.allowed := by
      exact List.rel_of_pairwise_cons hsorted (by simp : last.2.allowed ∈ _)
    have hempty : r.limiter.hasCredit last.2.allowed = false := by
      unfold Limiter.hasCredit Limiter.advance
      have h1 : ¬ last.2.allowed < r.limiter.last := not_lt.2 hle
      simp only [h1, if_false, hint]
      simp only [List.length_nil, Nat.cast_zero, zero_mul, zero_add] at hcredit
      have h2 : ¬ I ≤ 0 := not_le.2 hI
      have h3 : ¬ I ≤ min (r.limiter.credit + (last.2.allowed - r.limiter.last)) (r.limiter.burst * I) := by
        intro h
        have := le_trans h (min_le_left _ _)
        omega
      simp [h2, h3]
    obtain ⟨c, clk⟩ := last
    simp only [List.nil_append, serve, List.map_nil]
    rw [rateLimiter_of_record a c clk key r hnet1 hrec]
    simp only [hblocked, hempty, Bool.false_eq_true, false_and, if_false]
    exact ⟨_, rfl⟩
  | cons q reqs ih =>
    intro a r d hrec hblocked hint hcredit hd hwin hcap hnet hsorted
    have hnetq := hnet q (by simp)
    simp only [List.cons_append, List.map_cons] at hsorted
    have hle : r.limiter.last ≤ q.2.allowed :=
      List.rel_of_pairwise_cons hsorted (List.mem_cons_self _ _)
    have hsorted1 := (List.pairwise_cons.1 hsorted).2
    have hqlast : q.2.allowed ≤ last.2.allowed :=
      List.rel_of_pairwise_cons hsorted1 (by simp)
    simp only [List.length_cons, Nat.cast_add, Nat.cast_one] at hcredit hcap
    have hmul : ((reqs.length : Int) + 1) * I = (reqs.length : Int) * I + I := by ring
    rw [hmul] at hcredit hcap
    have hnn : 0 ≤ (reqs.length : Int) * I :=
      mul_nonneg (Int.ofNat_nonneg _) (le_of_lt hI)
    have hadv : r.limiter.advance q.2.allowed = r.limiter.credit + (q.2.allowed - r.limiter.last) := by
      unfold Limiter.advance
      have h1 : ¬ q.2.allowed < r.limiter.last := not_lt.2 hle
      simp only [h1, if_false, hint]
      apply min_eq_left
      omega
    have hfull : r.limiter.hasCredit q.2.allowed = true := by
      unfold Limiter.hasCredit
      rw [hadv, hint]
      have : I ≤ r.limiter.credit + (q.2.allowed - r.limiter.last) := by omega
      simp [this]
    have hallow : (r.limiter.Allow q.2.allowed).2 =
        { r.limiter with credit := r.limiter.credit + (q.2.allowed - r.limiter.last) - I,
                         last := q.2.allowed } := by
      unfold Limiter.Allow
      rw [hadv]
      have h2 : ¬ I ≤ 0 := by omega
      have h3 : I ≤ r.limiter.credit + (q.2.allowed - r.limiter.last) := by omega
      simp [h2, h3, hint]
    obtain ⟨a', ha'⟩ := ih
      { a with clientsRate := a.clientsRate.insert key { r with limiter := (r.limiter.Allow q.2.allowed).2, blocked := false } }
      { r with limiter := (r.limiter.Allow q.2.allowed).2, blocked := false }
      (d + (q.2.allowed - r.limiter.last))
      (by simp only [AList.lookup_insert])
      rfl
      (by rw [hallow]; exact hint)
      (by rw [hallow]; simp only; omega)
      (by omega)
      (by rw [hallow]; simp only; omega)
      (by rw [hallow]; simp only; omega)
      (fun q' hq' => hnet q' (List.mem_cons_of_mem _ hq'))
      (by rw [hallow]; exact hsorted1)
    refine ⟨a', ?_⟩
    obtain ⟨c, clk⟩ := q
    simp only [List.cons_append, serve, List.map_cons, List.append_eq]
    rw [rateLimiter_of_record a c clk key r hnetq hrec]
    simp only [hblocked, hfull, Bool.false_eq_true, false_and, if_false, if_true]
    rw [ha']

/-- A new bucket of a positive rate grants its first request and is then one
credit short of full. -/
theorem NewLimiter_allow (I L t : Int) (hI : 0 < I) (hL : I ≤ L * I) :
    (NewLimiter I L).hasCredit t = true ∧
    ((NewLimiter I L).Allow t).2 = { interval := I, burst := L, credit := L * I - I, last := t } := by
  have hadv : (NewLimiter I L).advance t = L * I := by
    unfold Limiter.advance NewLimiter
    simp only
    apply min_eq_right
    by_cases h : t < 0
    · simp only [h, if_true]; omega
    · simp only [h, if_false]; omega
  have h2 : ¬ I ≤ 0 := not_le.2 hI
  constructor
  · unfold Limiter.hasCredit
    rw [hadv]
    simp [NewLimiter, hL]
  · unfold Limiter.Allow
    rw [hadv]
    simp [NewLimiter, hL, h2]


/-- One step of the sweep on the record `e`. -/
theorem lookup_sweep_step (cooldown : Int) (now : String → Int) (key : String)
    (m : AList (fun _ : String => client)) (e : Sigma (fun _ : String => client)) :
    (if now e.1 - e.2.lastSeen > cooldown then m.erase e.1 else m).lookup key =
      if e.1 = key ∧ now e.1 - e.2.lastSeen > cooldown then none else m.lookup key := by
  by_cases hx : now e.1 - e.2.lastSeen > cooldown
  · by_cases hk : e.1 = key
    · subst hk
      simp [hx, AList.lookup_erase]
    · have hk' : key ≠ e.1 := fun h => hk h.symm
      simp [hx, hk, AList.lookup_erase_ne hk']
  · simp [hx]

/-- The sweep over the records `l`, started on the map `m`. -/
theorem lookup_sweep_fold (cooldown : Int) (now : String → Int) (key : String) :
    ∀ (l : List (Sigma (fun _ : String => client))) (m : AList (fun _ : String => client)),
      (l.foldl (fun m e => if now e.1 - e.2.lastSeen > cooldown then m.erase e.1 else m) m).lookup key =
        if ∃ e ∈ l, e.1 = key ∧ now e.1 - e.2.lastSeen > cooldown then none else m.lookup key := by
  intro l
  induction l with
  | nil => intro m; simp
  | cons e l ih =>
    intro m
    rw [List.foldl_cons, ih, lookup_sweep_step]
    by_cases h1 : ∃ e' ∈ l, e'.1 = key ∧ now e'.1 - e'.2.lastSeen > cooldown
    · have h2 : ∃ e' ∈ e :: l, e'.1 = key ∧ now e'.1 - e'.2.lastSeen > cooldown := by
        obtain ⟨e', he', hp⟩ := h1
        exact ⟨e', List.mem_cons_of_mem _ he', hp⟩
      rw [if_pos h1, if_pos h2]
    · rw [if_neg h1]
      by_cases h3 : e.1 = key ∧ now e.1 - e.2.lastSeen > cooldown
      · have h2 : ∃ e' ∈ e :: l, e'.1 = key ∧ now e'.1 - e'.2.lastSeen > cooldown :=
          ⟨e, List.mem_cons_self _ _, h3⟩
        rw [if_pos h3, if_pos h2]
      · have h2 : ¬ ∃ e' ∈ e :: l, e'.1 = key ∧ now e'.1 - e'.2.lastSeen > cooldown := by
          rintro ⟨e', he', hp⟩
          rcases List.mem_cons.1 he' with rfl | hmem
          · exact h3 hp
          · exact h1 ⟨e', hmem, hp⟩
        rw [if_neg h3, if_neg h2]


/-! ## The claims -/

/-- C1. A request whose client address `getNetwork` refuses does reach the
store: on the empty map of `NewApp 100 24`, the request from "541.221.1.10"
leaves a record under the key "" whose bucket has already given one of its 100
credits. The claim asks for no store interaction at all. -/
theorem rateLimiter_bad_address_reaches_store :
    getNetwork (getIP badRequest) 24 = some ("", some badClientIP) ∧
    (NewApp 100 24 Minute Minute).clientsRate.lookup "" = none ∧
    (rateLimiter (NewApp 100 24 Minute Minute) badRequest (Clock.at (100 * Second))).map
        (fun x => x.1.clientsRate.lookup "") =
      some (some
        { limiter := { interval := 600000000, burst := 100, credit := 59400000000,
                       last := 100 * Second }
          blocked := false
          blockedSince := 0
          lastSeen := 100 * Second }) := by
  decide

/-- C2. With a mask of one digit `getNetwork` cuts one character too many, with
a mask of three digits one too few: for "192.168.1.10" and the mask 8 it returns
"192.0.0." where the network is "192.0.0.0", for "2001:db8::1" and the mask 120
it returns "2001:db8::/". -/
theorem getNetwork_cuts_three_characters :
    getNetwork "192.168.1.10" 8 = some ("192.0.0.", none) ∧
    getNetwork "2001:db8::1" 120 = some ("2001:db8::/", none) := by
  decide

/-- C3, as stated: a request is rejected at T = 160.5 s by the blocked check (the
network is blocked since 101 s), and the request at t = 161.5 s, with
T <= t < T + cooldownPeriod, is let through. -/
theorem rejected_then_admitted_inside_cooldown :
    (serve oneApp
        [(hostRequest, Clock.at (100 * Second)), (hostRequest, Clock.at (101 * Second)),
         (hostRequest, Clock.at 160500000000), (hostRequest, Clock.at 161500000000)]).map
        Prod.snd =
      some [hostRequest.Next,
            (hostRequest.String StatusTooManyRequests "Too many requests\n").Abort,
            (hostRequest.String StatusTooManyRequests "Too many requests\n").Abort,
            hostRequest.Next] ∧
    (160500000000 : Int) ≤ 161500000000 ∧
    (161500000000 : Int) < 160500000000 + oneApp.cooldownPeriod := by
  decide

/-- C3, amended. A request of a network whose record is blocked, checked at an
instant with `now - blockedSince < cooldownPeriod`, is answered 429
"Too many requests\n" and aborted, and the application is left as it was: the
bucket is not consulted, `blocked` and `blockedSince` keep their values. Hence
every run of requests of that network, each checked before
`blockedSince + cooldownPeriod`, is rejected throughout; `blockedSince` is the
instant of the last rejection that consulted the bucket. -/
theorem blocked_rejected_until_cooldown (a : App) (c : Context) (clk : Clock)
    (reqs : List (Context × Clock)) (key : String) (r : client)
    (hrec : a.clientsRate.lookup key = some r)
    (hblocked : r.blocked = true)
    (hnet : getNetwork (getIP c) a.netmask = some (key, none))
    (hcool : clk.checked - r.blockedSince < a.cooldownPeriod)
    (hreqs : ∀ q ∈ reqs, getNetwork (getIP q.1) a.netmask = some (key, none) ∧
      q.2.checked - r.blockedSince < a.cooldownPeriod) :
    rateLimiter a c clk =
      some (a, (c.String StatusTooManyRequests "Too many requests\n").Abort) ∧
    serve a reqs =
      some (a, reqs.map
        (fun q => (q.1.String StatusTooManyRequests "Too many requests\n").Abort)) := by
  have hone : ∀ (c' : Context) (clk' : Clock),
      getNetwork (getIP c') a.netmask = some (key, none) →
      clk'.checked - r.blockedSince < a.cooldownPeriod →
      rateLimiter a c' clk' =
        some (a, (c'.String StatusTooManyRequests "Too many requests\n").Abort) := by
    intro c' clk' h1 h2
    rw [rateLimiter_of_record a c' clk' key r h1 hrec]
    simp only [hblocked, h2, and_self, if_true]
  refine ⟨hone c clk hnet hcool, ?_⟩
  induction reqs with
  | nil => rfl
  | cons q rest ih =>
    obtain ⟨c', clk'⟩ := q
    have hq := hreqs (c', clk') (List.mem_cons_self _ _)
    simp only [serve, List.map_cons]
    rw [hone c' clk' hq.1 hq.2]
    simp only
    rw [ih (fun q' hq' => hreqs q' (List.mem_cons_of_mem _ hq'))]

/-- Witness of C3: the blocked network 192.168.1.0, blocked since 101 s, asked
at 130 s and then at 140 s and 160.5 s. -/
theorem blocked_rejected_until_cooldown_witness :
    rateLimiter blockedApp hostRequest (Clock.at (130 * Second)) =
      some (blockedApp, (hostRequest.String StatusTooManyRequests "Too many requests\n").Abort) ∧
    serve blockedApp [(hostRequest, Clock.at (140 * Second)), (hostRequest, Clock.at 160500000000)] =
      some (blockedApp,
        [(hostRequest, Clock.at (140 * Second)), (hostRequest, Clock.at 160500000000)].map
          (fun q => (q.1.String StatusTooManyRequests "Too many requests\n").Abort)) :=
  blocked_rejected_until_cooldown blockedApp hostRequest (Clock.at (130 * Second))
    [(hostRequest, Clock.at (140 * Second)), (hostRequest, Clock.at 160500000000)]
    "192.168.1.0" blockedClient (by decide) (by decide) (by decide) (by decide) (by decide)

/-- C4. For every `limitPerMinute` L >= 1 and every network without a record:
when L+1 requests of that network are decided at non-decreasing instants, all
within a window shorter than the refill interval `time.Minute / L` (the integer
division of the code), the first L are let through to the next handler and the
last one is answered 429 "Too many requests\n" and aborted. -/
theorem first_limit_admitted_next_rejected (a : App) (key : String)
    (reqs : List (Context × Clock)) (last : Context × Clock)
    (hL : 1 ≤ a.limitPerMinute)
    (hnone : a.clientsRate.lookup key = none)
    (hlen : (reqs.length : Int) = a.limitPerMinute)
    (hnet : ∀ q ∈ reqs ++ [last], getNetwork (getIP q.1) a.netmask = some (key, none))
    (hsorted : List.Pairwise (· ≤ ·) ((reqs ++ [last]).map (fun q => q.2.allowed)))
    (hwindow : ∀ q ∈ reqs, last.2.allowed - q.2.allowed < Minute.tdiv a.limitPerMinute) :
    ∃ a', serve a (reqs ++ [last]) =
      some (a', reqs.map (fun q => q.1.Next) ++
        [(last.1.String StatusTooManyRequests "Too many requests\n").Abort]) := by
  cases reqs with
  | nil => simp only [List.length_nil, Nat.cast_zero] at hlen; omega
  | cons q0 mid =>
    obtain ⟨c0, clk0⟩ := q0
    simp only [List.cons_append, List.map_cons] at hsorted
    have hq0last : clk0.allowed ≤ last.2.allowed :=
      List.rel_of_pairwise_cons hsorted (by simp)
    have hwin0 := hwindow (c0, clk0) (List.mem_cons_self _ _)
    simp only at hwin0
    have hI : 0 < Minute.tdiv a.limitPerMinute := by omega
    generalize hIdef : Minute.tdiv a.limitPerMinute = I at hI hwin0 hwindow
    simp only [List.length_cons, Nat.cast_add, Nat.cast_one] at hlen
    have hnn : 0 ≤ (mid.length : Int) * I := mul_nonneg (Int.ofNat_nonneg _) (le_of_lt hI)
    have hLI : a.limitPerMinute * I = (mid.length : Int) * I + I := by rw [← hlen]; ring
    have hL0 : a.limitPerMinute ≠ 0 := by omega
    have hnew : newClient a.limitPerMinute clk0.created =
        some { limiter := NewLimiter I a.limitPerMinute, blocked := false, blockedSince := 0,
               lastSeen := clk0.created } := by
      unfold newClient Every
      have h2 : ¬ I ≤ 0 := not_le.2 hI
      simp [hL0, hIdef, h2]
    obtain ⟨hfull, hallow⟩ := NewLimiter_allow I a.limitPerMinute clk0.allowed hI (by omega)
    have hnet0 := hnet (c0, clk0) (by simp)
    simp only at hnet0
    obtain ⟨a', ha'⟩ := serve_within_interval key I hI last mid
      { a with clientsRate := (a.clientsRate.insert key { limiter := NewLimiter I a.limitPerMinute, blocked := false, blockedSince := 0, lastSeen := clk0.created }).insert key { limiter := ((NewLimiter I a.limitPerMinute).Allow clk0.allowed).2, blocked := false, blockedSince := 0, lastSeen := clk0.created } }
      { limiter := ((NewLimiter I a.limitPerMinute).Allow clk0.allowed).2, blocked := false, blockedSince := 0, lastSeen := clk0.created }
      0
      (by simp only [AList.lookup_insert])
      rfl
      (by rw [hallow])
      (by rw [hallow]; simp only; omega)
      (le_refl 0)
      (by rw [hallow]; simp only; omega)
      (by rw [hallow]; simp only; omega)
      (fun q' hq' => hnet q' (List.mem_cons_of_mem _ hq'))
      (by rw [hallow]; exact hsorted)
    refine ⟨a', ?_⟩
    simp only [List.cons_append, serve, List.map_cons, List.append_eq]
    rw [rateLimiter_of_absent a c0 clk0 key _ hnet0 hnone hnew]
    rw [rateLimiter_of_record
      { a with clientsRate := a.clientsRate.insert key { limiter := NewLimiter I a.limitPerMinute, blocked := false, blockedSince := 0, lastSeen := clk0.created } }
      c0 clk0 key
      { limiter := NewLimiter I a.limitPerMinute, blocked := false, blockedSince := 0, lastSeen := clk0.created }
      hnet0 (by simp only [AList.lookup_insert])]
    simp only [hfull, Bool.false_eq_true, false_and, if_false, if_true]
    rw [ha']

/-- Witness of C4: the limit 5 and six requests of one host within five seconds,
the refill interval being twelve seconds. -/
theorem first_limit_admitted_next_rejected_witness :
    ∃ a', serve fiveApp (sixRequests.take 5 ++ [(hostRequest, Clock.at (105 * Second))]) =
      some (a', (sixRequests.take 5).map (fun q => q.1.Next) ++
        [(hostRequest.String StatusTooManyRequests "Too many requests\n").Abort]) :=
  first_limit_admitted_next_rejected fiveApp "192.168.1.0" (sixRequests.take 5)
    (hostRequest, Clock.at (105 * Second))
    (by decide) (by decide) (by decide) (by decide) (by decide) (by decide)

/-- C5. For a record that is blocked with `now - blockedSince >= cooldownPeriod`
when the request is checked, `rateLimiter` lets the request through to the next
handler if the bucket of the record holds at least one credit at that instant,
and answers 429 otherwise; the two outcomes differ. When it lets the request
through, the record has one credit less (an unlimited bucket is left as it is)
and `blocked = false`. -/
theorem cooldown_expired_admits_iff_credit (a : App) (c : Context) (clk : Clock)
    (key : String) (r : client)
    (hnet : getNetwork (getIP c) a.netmask = some (key, none))
    (hrec : a.clientsRate.lookup key = some r)
    (hblocked : r.blocked = true)
    (hcool : a.cooldownPeriod ≤ clk.checked - r.blockedSince) :
    ∃ a', rateLimiter a c clk =
        some (a', if r.limiter.hasCredit clk.allowed = true then c.Next
                  else (c.String StatusTooManyRequests "Too many requests\n").Abort) ∧
      c.Next ≠ (c.String StatusTooManyRequests "Too many requests\n").Abort ∧
      (r.limiter.hasCredit clk.allowed = true →
        a'.clientsRate.lookup key =
          some { r with
            limiter :=
              if r.limiter.interval ≤ 0 then r.limiter
              else { r.limiter with
                credit := r.limiter.advance clk.allowed - r.limiter.interval, last := clk.allowed }
            blocked := false }) := by
  have hne : c.Next ≠ (c.String StatusTooManyRequests "Too many requests\n").Abort := by
    intro h
    have hw := congrArg Context.writes h
    simp [Context.Next, Context.String, Context.Abort] at hw
  have hnb : ¬ (r.blocked = true ∧ clk.checked - r.blockedSince < a.cooldownPeriod) := by
    rintro ⟨_, h⟩
    omega
  have _hb := hblocked
  rw [rateLimiter_of_record a c clk key r hnet hrec]
  simp only [hnb, if_false]
  cases hc : r.limiter.hasCredit clk.allowed with
  | false =>
    simp only [Bool.false_eq_true, if_false]
    exact ⟨_, rfl, hne, fun h => absurd h (by simp)⟩
  | true =>
    simp only [if_true]
    refine ⟨_, rfl, hne, fun _ => ?_⟩
    simp only [AList.lookup_insert]
    congr 2
    unfold Limiter.hasCredit at hc
    unfold Limiter.Allow
    by_cases h1 : r.limiter.interval ≤ 0
    · simp [h1]
    · have h2 : r.limiter.interval ≤ r.limiter.advance clk.allowed := by
        simpa [h1] using hc
      simp [h1, h2]

/-- Witness of C5: the network blocked since 101 s asks again at 161.5 s; its
bucket has refilled. -/
theorem cooldown_expired_admits_iff_credit_witness :
    ∃ a', rateLimiter blockedApp hostRequest (Clock.at 161500000000) =
        some (a', if blockedClient.limiter.hasCredit (Clock.at 161500000000).allowed = true
                  then hostRequest.Next
                  else (hostRequest.String StatusTooManyRequests "Too many requests\n").Abort) ∧
      hostRequest.Next ≠
        (hostRequest.String StatusTooManyRequests "Too many requests\n").Abort ∧
      (blockedClient.limiter.hasCredit (Clock.at 161500000000).allowed = true →
        a'.clientsRate.lookup "192.168.1.0" =
          some { blockedClient with
            limiter :=
              if blockedClient.limiter.interval ≤ 0 then blockedClient.limiter
              else { blockedClient.limiter with
                credit := blockedClient.limiter.advance (Clock.at 161500000000).allowed -
                  blockedClient.limiter.interval,
                last := (Clock.at 161500000000).allowed }
            blocked := false }) :=
  cooldown_expired_admits_iff_credit blockedApp hostRequest (Clock.at 161500000000)
    "192.168.1.0" blockedClient (by decide) (by decide) (by decide) (by decide)

/-- C6. Whenever `rateLimiter` consults the bucket (the record, found or just
made, is not blocked, or is blocked with the cooldown over) and the bucket has no
credit, the request is answered 429 "Too many requests\n" and aborted, and the
record ends with `blocked = true` and `blockedSince` the instant read on line 52
of this very call, whatever `blockedSince` was before; nothing else of the record
changes. -/
theorem empty_bucket_blocks_from_now (a : App) (c : Context) (clk : Clock)
    (key : String) (r : client)
    (hnet : getNetwork (getIP c) a.netmask = some (key, none))
    (hrec : a.clientsRate.lookup key = some r ∨
      (a.clientsRate.lookup key = none ∧ newClient a.limitPerMinute clk.created = some r))
    (hconsult : r.blocked = false ∨
      (r.blocked = true ∧ a.cooldownPeriod ≤ clk.checked - r.blockedSince))
    (hempty : r.limiter.hasCredit clk.allowed = false) :
    ∃ a', rateLimiter a c clk =
        some (a', (c.String StatusTooManyRequests "Too many requests\n").Abort) ∧
      a'.clientsRate.lookup key =
        some { r with blocked := true, blockedSince := clk.blockedAt } := by
  have hnb : ¬ (r.blocked = true ∧ clk.checked - r.blockedSince < a.cooldownPeriod) := by
    rintro ⟨hb, h⟩
    rcases hconsult with h1 | ⟨_, h2⟩
    · rw [h1] at hb; cases hb
    · omega
  rcases hrec with hrec | ⟨hnone, hnew⟩
  · rw [rateLimiter_of_record a c clk key r hnet hrec]
    simp only [hnb, if_false, hempty, Bool.false_eq_true]
    exact ⟨_, rfl, by simp only [AList.lookup_insert]⟩
  · rw [rateLimiter_of_absent a c clk key r hnet hnone hnew]
    rw [rateLimiter_of_record { a with clientsRate := a.clientsRate.insert key r } c clk key r
      hnet (by simp only [AList.lookup_insert])]
    simp only [hnb, if_false, hempty, Bool.false_eq_true]
    exact ⟨_, rfl, by simp only [AList.lookup_insert]⟩

/-- Witness of C6: with a cooldown of zero the network blocked since 101 s asks
again at 102 s, its bucket still empty; the block now counts from 102 s. -/
theorem empty_bucket_blocks_from_now_witness :
    ∃ a', rateLimiter impatientApp hostRequest (Clock.at (102 * Second)) =
        some (a', (hostRequest.String StatusTooManyRequests "Too many requests\n").Abort) ∧
      a'.clientsRate.lookup "192.168.1.0" =
        some { blockedClient with blocked := true, blockedSince := (Clock.at (102 * Second)).blockedAt } :=
  empty_bucket_blocks_from_now impatientApp hostRequest (Clock.at (102 * Second))
    "192.168.1.0" blockedClient (by decide) (Or.inl (by decide)) (Or.inr (by decide)) (by decide)

/-- C7. The sweep deletes a record whose cooldown is still running. From the
empty map: the network 192.168.1.0 is created at 100 s and blocked at 150 s;
the pass at 161 s finds `lastSeen` (still 100 s) more than a minute old and
deletes the record, 11 s into its cooldown of 60 s. -/
theorem cleanPass_deletes_record_under_cooldown :
    (serve oneApp [(hostRequest, Clock.at (100 * Second)), (hostRequest, Clock.at (150 * Second))]).map
        (fun x => (x.1.clientsRate.lookup "192.168.1.0",
                   (cleanPass x.1 (fun _ => 161 * Second)).clientsRate.lookup "192.168.1.0")) =
      some (some
        { limiter := { interval := Minute, burst := 1, credit := 0, last := 100 * Second }
          blocked := true
          blockedSince := 150 * Second
          lastSeen := 100 * Second }, none) ∧
    161 * Second - 150 * Second < oneApp.cooldownPeriod := by
  decide

/-- C8. A request of a network that has a record leaves `lastSeen` at the instant
the record was made: after requests at 100 s and 130 s, the second let through
(limit 5) or rejected (limit 1), `lastSeen` is 100 s and not 130 s. -/
theorem rateLimiter_keeps_first_lastSeen :
    (serve fiveApp [(hostRequest, Clock.at (100 * Second)), (hostRequest, Clock.at (130 * Second))]).map
        (fun x => (x.2, (x.1.clientsRate.lookup "192.168.1.0").map client.lastSeen)) =
      some ([hostRequest.Next, hostRequest.Next], some (100 * Second)) ∧
    (serve oneApp [(hostRequest, Clock.at (100 * Second)), (hostRequest, Clock.at (130 * Second))]).map
        (fun x => (x.2, (x.1.clientsRate.lookup "192.168.1.0").map client.lastSeen)) =
      some ([hostRequest.Next,
             (hostRequest.String StatusTooManyRequests "Too many requests\n").Abort],
            some (100 * Second)) := by
  decide

/-- C9. One sweep pass of `cleanClientsRateMap` deletes exactly the records that
were last seen more than `cooldownPeriod` before the clock reading of the pass:
under every key, a record with `now - lastSeen > cooldownPeriod` is gone after
the pass, a record with `now - lastSeen <= cooldownPeriod` is still there with
all its fields unchanged, and a key without a record still has none. -/
theorem cleanPass_deletes_exactly_the_expired (a : App) (now : String → Int) (key : String) :
    (cleanPass a now).clientsRate.lookup key =
      match a.clientsRate.lookup key with
      | none => none
      | some r => if now key - r.lastSeen > a.cooldownPeriod then none else some r := by
  unfold cleanPass
  simp only
  rw [lookup_sweep_fold]
  cases hrec : a.clientsRate.lookup key with
  | none =>
    simp
  | some r =>
    have hmem : (⟨key, r⟩ : Sigma (fun _ : String => client)) ∈ a.clientsRate.entries :=
      AList.mem_lookup_iff.1 hrec
    by_cases hx : now key - r.lastSeen > a.cooldownPeriod
    · have h2 : ∃ e ∈ a.clientsRate.entries, e.1 = key ∧ now e.1 - e.2.lastSeen > a.cooldownPeriod :=
        ⟨⟨key, r⟩, hmem, rfl, hx⟩
      simp only [if_pos h2, if_pos hx]
    · have h2 : ¬ ∃ e ∈ a.clientsRate.entries, e.1 = key ∧ now e.1 - e.2.lastSeen > a.cooldownPeriod := by
        rintro ⟨⟨k, r'⟩, he, hk, hp⟩
        simp only at hk
        subst hk
        have hr' : a.clientsRate.lookup k = some r' := AList.mem_lookup_iff.2 he
        rw [hrec] at hr'
        cases hr'
        exact hx hp
      simp only [if_neg h2, if_neg hx]

/-- C10. `getNetwork(ip, mask)`, `mask` a `uint8`, always returns, and it returns
an error exactly when `ip` is not a syntactically valid IPv4/IPv6 literal or
`mask` exceeds the bit width of the family of `ip` (32 for IPv4, 128 for IPv6);
with an error the string is "" and the error is the same text for both causes. -/
theorem getNetwork_error_iff (ip : String) (netmask : Nat) (hmask : netmask < 256) :
    ∃ s e, getNetwork ip netmask = some (s, e) ∧
      (e ≠ none ↔
        (literalBits ip = none ∨ ∃ bits, literalBits ip = some bits ∧ bits < netmask)) ∧
      (e ≠ none → s = "" ∧ e = some badClientIP) := by
  have hiff := ParseCIDR_none_iff ip netmask hmask
  unfold getNetwork
  simp only
  cases hp : ParseCIDR (ip.data ++ '/' :: uitoa netmask) with
  | none =>
    rw [hp] at hiff
    exact ⟨"", some badClientIP, rfl, ⟨fun _ => hiff.1 rfl, fun _ => by simp⟩, fun _ => ⟨rfl, rfl⟩⟩
  | some ipnet =>
    rw [hp] at hiff
    have hlen := IPNetString_length ipnet
    have hnot : ¬ (IPNetString ipnet).length < 3 := by omega
    simp only [hnot, if_false]
    refine ⟨_, none, rfl, ⟨fun h => absurd rfl h, fun h => ?_⟩, fun h => absurd rfl h⟩
    have := hiff.2 h
    cases this

/-- Witness of C10: the address 192.168.1.10 with the mask 33. -/
theorem getNetwork_error_iff_witness :
    ∃ s e, getNetwork "192.168.1.10" 33 = some (s, e) ∧
      (e ≠ none ↔
        (literalBits "192.168.1.10" = none ∨
          ∃ bits, literalBits "192.168.1.10" = some bits ∧ bits < 33)) ∧
      (e ≠ none → s = "" ∧ e = some badClientIP) :=
  getNetwork_error_iff "192.168.1.10" 33 (by decide)

/-! ## Lemmas on new records and on the other keys -/

/-- The bucket of a record that was just made holds a credit. -/
theorem newClient_hasCredit (L now t : Int) (r : client) (h : newClient L now = some r) :
    r.limiter.hasCredit t = true ∧ r.blocked = false ∧ r.lastSeen = now := by
  unfold newClient at h
  by_cases hL : L = 0
  · simp [hL] at h
  · simp only [hL, if_false, Option.some.injEq] at h
    subst h
    refine ⟨?_, rfl, rfl⟩
    by_cases hI : Minute.tdiv L ≤ 0
    · simp [Limiter.hasCredit, NewLimiter, Every, hI]
    · have hIpos : 0 < Minute.tdiv L := not_le.1 hI
      have hLpos : 0 < L := by
        by_contra hneg
        have := Int.tdiv_nonpos (a := Minute) (b := L) (by decide) (not_lt.1 hneg)
        omega
      have hmul : Minute.tdiv L ≤ L * Minute.tdiv L := by nlinarith
      have hE : Every (Minute.tdiv L) = Minute.tdiv L := by simp [Every, hI]
      simp only [hE]
      exact (NewLimiter_allow (Minute.tdiv L) L t hIpos hmul).1

/-- A call of `rateLimiter` returns unless it has to make a record with a limit
of zero, and it leaves every key but the one of the request as it was. -/
theorem rateLimiter_frame (a : App) (c : Context) (clk : Clock) (key : String)
    (err : Option String)
    (hnet : getNetwork (getIP c) a.netmask = some (key, err)) :
    ((a.limitPerMinute ≠ 0 ∨ a.clientsRate.lookup key ≠ none) →
      (rateLimiter a c clk).isSome = true) ∧
    (∀ a1 c1, rateLimiter a c clk = some (a1, c1) →
      ∀ k, k ≠ key → a1.clientsRate.lookup k = a.clientsRate.lookup k) := by
  unfold rateLimiter
  simp only [hnet]
  cases hrec : a.clientsRate.lookup key with
  | some r =>
    simp only [hrec]
    by_cases hb : r.blocked = true ∧ clk.checked - r.blockedSince < a.cooldownPeriod
    · simp only [hb, and_self, if_true]
      refine ⟨fun _ => rfl, ?_⟩
      intro a1 c1 h k _
      simp only [Option.some.injEq, Prod.mk.injEq] at h
      rw [← h.1]
    · simp only [hb, if_false]
      rcases hA : r.limiter.Allow clk.allowed with ⟨ok, lim⟩
      cases ok
      · simp only
        refine ⟨fun _ => rfl, ?_⟩
        intro a1 c1 h k hk
        simp only [Option.some.injEq, Prod.mk.injEq] at h
        rw [← h.1]
        exact AList.lookup_insert_ne hk
      · simp only
        refine ⟨fun _ => rfl, ?_⟩
        intro a1 c1 h k hk
        simp only [Option.some.injEq, Prod.mk.injEq] at h
        rw [← h.1]
        exact AList.lookup_insert_ne hk
  | none =>
    simp only
    cases hnew : newClient a.limitPerMinute clk.created with
    | none =>
      simp only
      refine ⟨?_, fun a1 c1 h => by cases h⟩
      intro h
      rcases h with h | h
      · unfold newClient at hnew
        simp [h] at hnew
      · exact absurd rfl h
    | some r =>
      simp only [AList.lookup_insert]
      by_cases hb : r.blocked = true ∧ clk.checked - r.blockedSince < a.cooldownPeriod
      · simp only [hb, and_self, if_true]
        refine ⟨fun _ => rfl, ?_⟩
        intro a1 c1 h k hk
        simp only [Option.some.injEq, Prod.mk.injEq] at h
        rw [← h.1]
        exact AList.lookup_insert_ne hk
      · simp only [hb, if_false]
        rcases hA : r.limiter.Allow clk.allowed with ⟨ok, lim⟩
        cases ok
        · simp only
          refine ⟨fun _ => rfl, ?_⟩
          intro a1 c1 h k hk
          simp only [Option.some.injEq, Prod.mk.injEq] at h
          rw [← h.1]
          simp only [AList.lookup_insert_ne hk]
        · simp only
          refine ⟨fun _ => rfl, ?_⟩
          intro a1 c1 h k hk
          simp only [Option.some.injEq, Prod.mk.injEq] at h
          rw [← h.1]
          simp only [AList.lookup_insert_ne hk]

/-! ## The claims, continued -/

/-- C11. A request whose address does not resolve is not always answered by the
400 alone: on the empty map with a limit of one, the first request from
"541.221.1.10" is answered 400, and the second, one second later, is answered
400 "bad client IP address received\n" and then also 429
"Too many requests\n", the record under the key "" having no credit left. The
handlers after `rateLimiter` run in neither case. -/
theorem bad_address_answered_400_and_429 :
    (serve oneApp [(badRequest, Clock.at (100 * Second)),
                   (badRequest, Clock.at (101 * Second))]).map Prod.snd =
      some [{ forwardedFor := "", remoteIP := "541.221.1.10",
              writes := [(400, "bad client IP address received\n")],
              aborted := true, handled := false },
            { forwardedFor := "", remoteIP := "541.221.1.10",
              writes := [(400, "bad client IP address received\n"),
                         (429, "Too many requests\n")],
              aborted := true, handled := false }] := by
  decide

/-- C12. With `LIMIT_PER_MINUTE=0`, a value `getIntEnv` accepts, the first request
of a network panics in `rateLimiter`: `time.Minute / time.Duration(0)` on line 36
divides by zero, after the lock of line 31 and before any unlock. -/
theorem zero_limit_panics_on_new_network :
    getIntEnv (envOf [("LIMIT_PER_MINUTE", "0")]) "LIMIT_PER_MINUTE" defaultLimitPerMinute = 0 ∧
    zeroApp.limitPerMinute = 0 ∧
    newClient zeroApp.limitPerMinute (100 * Second) = none ∧
    (rateLimiter zeroApp hostRequest (Clock.at (100 * Second))).isSome = false := by
  decide

/-- C13. For every map, every `limitPerMinute` >= 1 and every request whose
address resolves to a network: after `clearLimitsHandler`, `rateLimiter` lets the
request through to the next handler, and the map then holds one record, the one
of that network, with `blocked = false`, `lastSeen` the instant of its creation
and a bucket of the configured rate and burst that is one credit short of
full. -/
theorem reset_then_request_admitted (a : App) (c0 c : Context) (clk : Clock) (key : String)
    (hL : 1 ≤ a.limitPerMinute)
    (hnet : getNetwork (getIP c) a.netmask = some (key, none)) :
    ∃ r, rateLimiter (clearLimitsHandler a c0).1 c clk =
        some ({ a with clientsRate := (∅ : AList (fun _ : String => client)).insert key r },
              c.Next) ∧
      r.blocked = false ∧ r.lastSeen = clk.created ∧
      r.limiter.interval = Every (Minute.tdiv a.limitPerMinute) ∧
      r.limiter.burst = a.limitPerMinute ∧
      r.limiter.credit =
        a.limitPerMinute * r.limiter.interval - r.limiter.interval := by
  have hL0 : a.limitPerMinute ≠ 0 := by omega
  obtain ⟨lim0, hlim0⟩ : ∃ lim0, lim0 = NewLimiter (Every (Minute.tdiv a.limitPerMinute)) a.limitPerMinute :=
    ⟨_, rfl⟩
  have hnew : newClient a.limitPerMinute clk.created =
      some { limiter := lim0, blocked := false, blockedSince := 0, lastSeen := clk.created } := by
    simp [newClient, hL0, hlim0]
  obtain ⟨hfull, _, _⟩ := newClient_hasCredit a.limitPerMinute clk.created clk.allowed _ hnew
  have hnone : (clearLimitsHandler a c0).1.clientsRate.lookup key = none := by
    simp [clearLimitsHandler]
  rw [rateLimiter_of_absent (clearLimitsHandler a c0).1 c clk key
    { limiter := lim0, blocked := false, blockedSince := 0, lastSeen := clk.created }
    hnet hnone hnew]
  rw [rateLimiter_of_record
    { (clearLimitsHandler a c0).1 with clientsRate := (clearLimitsHandler a c0).1.clientsRate.insert key { limiter := lim0, blocked := false, blockedSince := 0, lastSeen := clk.created } }
    c clk key
    { limiter := lim0, blocked := false, blockedSince := 0, lastSeen := clk.created }
    hnet (by simp only [AList.lookup_insert])]
  simp only at hfull
  simp only [hfull, Bool.false_eq_true, false_and, if_false, if_true]
  refine ⟨{ limiter := (lim0.Allow clk.allowed).2, blocked := false, blockedSince := 0, lastSeen := clk.created }, ?_, rfl, rfl, ?_, ?_, ?_⟩
  · simp only [clearLimitsHandler, AList.insert_insert]
  · simp only [Limiter.Allow]
    split
    · rw [hlim0]; rfl
    · split
      · rw [hlim0]; rfl
      · rw [hlim0]; rfl
  · simp only [Limiter.Allow]
    split
    · rw [hlim0]; rfl
    · split
      · rw [hlim0]; rfl
      · rw [hlim0]; rfl
  · by_cases hI : Minute.tdiv a.limitPerMinute ≤ 0
    · simp [hlim0, Limiter.Allow, NewLimiter, Every, hI]
    · have hIpos : 0 < Minute.tdiv a.limitPerMinute := not_le.1 hI
      have hE : Every (Minute.tdiv a.limitPerMinute) = Minute.tdiv a.limitPerMinute := by
        simp [Every, hI]
      have hmul : Minute.tdiv a.limitPerMinute ≤ a.limitPerMinute * Minute.tdiv a.limitPerMinute := by
        nlinarith
      rw [hlim0, hE, (NewLimiter_allow _ a.limitPerMinute clk.allowed hIpos hmul).2]

/-- Witness of C13: the blocked network 192.168.1.0 asks right after the
reset. -/
theorem reset_then_request_admitted_witness :
    ∃ r, rateLimiter (clearLimitsHandler blockedApp (request "" "10.0.0.1")).1 hostRequest
          (Clock.at (102 * Second)) =
        some ({ blockedApp with
                clientsRate := (∅ : AList (fun _ : String => client)).insert "192.168.1.0" r },
              hostRequest.Next) ∧
      r.blocked = false ∧ r.lastSeen = (Clock.at (102 * Second)).created ∧
      r.limiter.interval = Every (Minute.tdiv blockedApp.limitPerMinute) ∧
      r.limiter.burst = blockedApp.limitPerMinute ∧
      r.limiter.credit =
        blockedApp.limitPerMinute * r.limiter.interval - r.limiter.interval :=
  reset_then_request_admitted blockedApp (request "" "10.0.0.1") hostRequest
    (Clock.at (102 * Second)) "192.168.1.0" (by decide) (by decide)

/-! ## Lemmas on decimal numerals -/

theorem digitChar_decimal (k : Nat) (hk : k < 10) :
    (Nat.digitChar k).isDigit = true ∧ digitVal (Nat.digitChar k) = k := by
  interval_cases k <;> decide

/-- The digits `Nat.toDigitsCore` puts in front of `ds` are decimal digits whose
value is `n`. -/
theorem toDigitsCore_decimal :
    ∀ (fuel n : Nat) (ds : List Char), n < fuel →
      ∃ pre : List Char, Nat.toDigitsCore 10 fuel n ds = pre ++ ds ∧ pre ≠ [] ∧
        (∀ c ∈ pre, c.isDigit = true) ∧
        ∀ acc : Nat, pre.foldl (fun m ch => m * 10 + digitVal ch) acc =
          acc * 10 ^ pre.length + n := by
  intro fuel
  induction fuel with
  | zero => intro n ds h; omega
  | succ fuel ih =>
    intro n ds hn
    have hd := digitChar_decimal (n % 10) (Nat.mod_lt _ (by decide))
    unfold Nat.toDigitsCore
    simp only
    by_cases h0 : n / 10 = 0
    · simp only [h0, if_true]
      refine ⟨[Nat.digitChar (n % 10)], rfl, by simp, ?_, ?_⟩
      · intro c hc
        simp only [List.mem_singleton] at hc
        rw [hc]; exact hd.1
      · intro acc
        simp only [List.foldl_cons, List.foldl_nil, List.length_singleton, pow_one, hd.2]
        have : n % 10 = n := by omega
        omega
    · simp only [h0, if_false]
      have hlt : n / 10 < fuel := by omega
      obtain ⟨pre, hpre, _, hdig, hval⟩ := ih (n / 10) (Nat.digitChar (n % 10) :: ds) hlt
      refine ⟨pre ++ [Nat.digitChar (n % 10)], ?_, by simp, ?_, ?_⟩
      · rw [hpre]; simp
      · intro c hc
        rcases List.mem_append.1 hc with h | h
        · exact hdig c h
        · simp only [List.mem_singleton] at h
          rw [h]; exact hd.1
      · intro acc
        simp only [List.foldl_append, List.foldl_cons, List.foldl_nil, hval acc, hd.2,
          List.length_append, List.length_singleton, pow_succ]
        have := Nat.div_add_mod n 10
        nlinarith

/-- The decimal numeral of `n` is made of digits and has the value `n`. -/
theorem uitoa_decimal (n : Nat) :
    uitoa n ≠ [] ∧ (∀ c ∈ uitoa n, c.isDigit = true) ∧
      (uitoa n).foldl (fun m ch => m * 10 + digitVal ch) 0 = n := by
  obtain ⟨pre, hpre, hne, hdig, hval⟩ := toDigitsCore_decimal (n + 1) n [] (by omega)
  have hu : uitoa n = pre := by
    unfold uitoa Nat.toDigits
    rw [hpre]; simp
  rw [hu]
  refine ⟨hne, hdig, ?_⟩
  rw [hval 0]; simp

/-- Reading back: `strconv.Atoi` accepts the decimal numeral of every `int64`
value, with or without a sign. -/
theorem Atoi_uitoa (n : Nat) :
    (n < 2 ^ 63 → Atoi (uitoa n) = some (n : Int)) ∧
    (n < 2 ^ 63 → Atoi ('+' :: uitoa n) = some (n : Int)) ∧
    (n ≤ 2 ^ 63 → Atoi ('-' :: uitoa n) = some (-(n : Int))) := by
  obtain ⟨hne, hdig, hval⟩ := uitoa_decimal n
  have hall : (uitoa n).all Char.isDigit = true := by
    rw [List.all_eq_true]; exact hdig
  cases hu : uitoa n with
  | nil => exact absurd hu hne
  | cons d rest =>
    rw [hu] at hall hval
    have hd : d.isDigit = true := hdig d (by rw [hu]; simp)
    have hminus : d ≠ '-' := by intro h; rw [h] at hd; exact absurd hd (by decide)
    have hplus : d ≠ '+' := by intro h; rw [h] at hd; exact absurd hd (by decide)
    refine ⟨?_, ?_, ?_⟩
    · intro hn
      simp [Atoi, hminus, hplus, hall, hval]
      omega
    · intro hn
      simp [Atoi, hall, hval]
      omega
    · intro hn
      simp [Atoi, hall, hval]
      omega

theorem getIntEnv_of_holds (env : String → Option String) (name : String) (d n : Int)
    (h : holds env name n) : getIntEnv env name d = n := by
  obtain ⟨value, h1, h2⟩ := h
  simp [getIntEnv, h1, h2]

theorem getIntEnv_of_unreadable (env : String → Option String) (name : String) (d : Int)
    (h : unreadable env name) : getIntEnv env name d = d := by
  unfold getIntEnv
  cases hv : env name with
  | none => rfl
  | some value => simp [h value hv]

/-- The cases of `Test_getIntEnv` and `Test_getVars` (app_test.go). -/
theorem getIntEnv_getVars_tests :
    getIntEnv (envOf [("SomeIntEnv", "1"), ("SomeStrnv", "hello")]) "SomeIntEnv" 10 = 1 ∧
    getIntEnv (envOf [("SomeIntEnv", "1"), ("SomeStrnv", "hello")]) "SomeTestEnv1" 10 = 10 ∧
    getIntEnv (envOf [("SomeIntEnv", "1"), ("SomeStrnv", "hello")]) "SomeStrnv" 10 = 10 ∧
    getVars testEnv = (100, 24, Minute, Minute) := by
  decide

/-- C14. For every environment and default value, `getIntEnv(name, d)` returns
`n` when the variable is set to a text that parses as the integer `n` (that
`strconv.Atoi` reads as `n`; in particular the decimal numeral of any `int64`
value, signed or not), and `d` when the variable is not set or its text does
not parse; it is a total function to `int`, with no error result. -/
theorem getIntEnv_value_or_default (env : String → Option String) (envName : String)
    (defaultValue : Int) :
    (env envName = none → getIntEnv env envName defaultValue = defaultValue) ∧
    (∀ value n, env envName = some value → Atoi value.data = some n →
      getIntEnv env envName defaultValue = n) ∧
    (∀ value, env envName = some value → Atoi value.data = none →
      getIntEnv env envName defaultValue = defaultValue) ∧
    (∀ n : Nat, n < 2 ^ 63 → env envName = some (String.mk (uitoa n)) →
      getIntEnv env envName defaultValue = (n : Int)) ∧
    (∀ n : Nat, n ≤ 2 ^ 63 → env envName = some (String.mk ('-' :: uitoa n)) →
      getIntEnv env envName defaultValue = -(n : Int)) := by
  refine ⟨?_, ?_, ?_, ?_, ?_⟩
  · intro h; simp [getIntEnv, h]
  · intro value n h1 h2; simp [getIntEnv, h1, h2]
  · intro value h1 h2; simp [getIntEnv, h1, h2]
  · intro n hn h
    exact getIntEnv_of_holds env envName defaultValue n ⟨_, h, (Atoi_uitoa n).1 hn⟩
  · intro n hn h
    exact getIntEnv_of_holds env envName defaultValue _ ⟨_, h, (Atoi_uitoa n).2.2 hn⟩

/-- C15, as stated: with `NETMASK=280` and `COOLDOWN_PERIOD_IN_MINUTES=200000000`
`getVars` returns the netmask 24, not 280, and a negative cooldown, not
200000000 minutes. -/
theorem getVars_wraps_netmask_and_cooldown :
    holds (envOf [("NETMASK", "280"), ("COOLDOWN_PERIOD_IN_MINUTES", "200000000")])
      "NETMASK" 280 ∧
    holds (envOf [("NETMASK", "280"), ("COOLDOWN_PERIOD_IN_MINUTES", "200000000")])
      "COOLDOWN_PERIOD_IN_MINUTES" 200000000 ∧
    getVars (envOf [("NETMASK", "280"), ("COOLDOWN_PERIOD_IN_MINUTES", "200000000")]) =
      (100, 24, -6446744073709551616, Minute) ∧
    (200000000 : Int) * Minute ≠ -6446744073709551616 := by
  refine ⟨⟨"280", by decide, by decide⟩, ⟨"200000000", by decide, by decide⟩, by decide,
    by decide⟩

/-- C15, amended. For the integers l, c, p, m that `LIMIT_PER_MINUTE`,
`COOLDOWN_PERIOD_IN_MINUTES`, `CLEAN_PERIOD_IN_MINUTES` and `NETMASK` hold,
`getVars` returns `limitPerMinute = l`, the netmask `m mod 256` (which is `m`
when `0 <= m <= 255`), and the cooldown and clean periods `c` and `p` minutes as
`int64` nanoseconds (exactly `c` and `p` minutes when these fit in an `int64`);
for each variable that is unset or does not parse it returns the default 100,
24, one minute and one minute. -/
theorem getVars_configured (env : String → Option String) :
    (∀ l, holds env "LIMIT_PER_MINUTE" l → (getVars env).1 = l) ∧
    (∀ m, holds env "NETMASK" m →
      ((getVars env).2.1 : Int) = m % 256 ∧
      (0 ≤ m → m ≤ 255 → ((getVars env).2.1 : Int) = m)) ∧
    (∀ c, holds env "COOLDOWN_PERIOD_IN_MINUTES" c →
      (getVars env).2.2.1 = mulInt64 c Minute ∧
      (-2 ^ 63 ≤ c * Minute → c * Minute < 2 ^ 63 → (getVars env).2.2.1 = c * Minute)) ∧
    (∀ p, holds env "CLEAN_PERIOD_IN_MINUTES" p →
      (getVars env).2.2.2 = mulInt64 p Minute ∧
      (-2 ^ 63 ≤ p * Minute → p * Minute < 2 ^ 63 → (getVars env).2.2.2 = p * Minute)) ∧
    (unreadable env "LIMIT_PER_MINUTE" → (getVars env).1 = 100) ∧
    (unreadable env "NETMASK" → (getVars env).2.1 = 24) ∧
    (unreadable env "COOLDOWN_PERIOD_IN_MINUTES" → (getVars env).2.2.1 = Minute) ∧
    (unreadable env "CLEAN_PERIOD_IN_MINUTES" → (getVars env).2.2.2 = Minute) := by
  have hwrap : ∀ x : Int, -2 ^ 63 ≤ x * Minute → x * Minute < 2 ^ 63 →
      mulInt64 x Minute = x * Minute := by
    intro x h1 h2
    unfold mulInt64
    generalize x * Minute = y at h1 h2
    omega
  refine ⟨?_, ?_, ?_, ?_, ?_, ?_, ?_, ?_⟩
  · intro l h
    simp only [getVars, getIntEnv_of_holds env _ _ l h]
  · intro m h
    have hv : (getVars env).2.1 = toUint8 m := by
      simp only [getVars, getIntEnv_of_holds env _ _ m h]
    rw [hv]
    unfold toUint8
    constructor
    · omega
    · intro h0 h1; omega
  · intro c h
    have hv : (getVars env).2.2.1 = mulInt64 c Minute := by
      simp only [getVars, getIntEnv_of_holds env _ _ c h]
    exact ⟨hv, fun h1 h2 => by rw [hv]; exact hwrap c h1 h2⟩
  · intro p h
    have hv : (getVars env).2.2.2 = mulInt64 p Minute := by
      simp only [getVars, getIntEnv_of_holds env _ _ p h]
    exact ⟨hv, fun h1 h2 => by rw [hv]; exact hwrap p h1 h2⟩
  · intro h
    simp only [getVars, getIntEnv_of_unreadable env _ _ h]; rfl
  · intro h
    simp only [getVars, getIntEnv_of_unreadable env _ _ h]; rfl
  · intro h
    simp only [getVars, getIntEnv_of_unreadable env _ _ h]; rfl
  · intro h
    simp only [getVars, getIntEnv_of_unreadable env _ _ h]; rfl

/-! ## Lemmas on the remote address -/

theorem dropWhile_of_head (p : Char → Bool) (s : List Char)
    (h : ∀ c, s.head? = some c → p c = false) : s.dropWhile p = s := by
  cases s with
  | nil => rfl
  | cons c rest =>
    have hc := h c rfl
    simp [List.dropWhile, hc]

theorem head_append_cons (xs ys : List Char) (y c : Char)
    (h : (xs ++ y :: ys).head? = some c) : c ∈ xs ∨ c = y := by
  cases xs with
  | nil =>
    simp only [List.nil_append, List.head?_cons, Option.some.injEq] at h
    exact Or.inr h.symm
  | cons x rest =>
    simp only [List.cons_append, List.head?_cons, Option.some.injEq] at h
    left; rw [← h]; exact List.mem_cons_self _ _

/-- A text that neither begins nor ends with white space is left as it is. -/
theorem TrimSpace_of_ends (s : List Char)
    (h1 : ∀ c, s.head? = some c → isSpace c = false)
    (h2 : ∀ c, s.reverse.head? = some c → isSpace c = false) : TrimSpace s = s := by
  unfold TrimSpace
  rw [dropWhile_of_head isSpace s h1, dropWhile_of_head isSpace s.reverse h2, List.reverse_reverse]

theorem cutLast_append (sep : Char) (a b : List Char) (h : sep ∉ b) :
    cutLast sep (a ++ sep :: b) = some (a, b) := by
  unfold cutLast
  have hr : (a ++ sep :: b).reverse = b.reverse ++ sep :: a.reverse := by simp
  rw [hr, cutAt_append sep a.reverse b.reverse (by simpa using h)]
  simp

/-- The host of `host:port` for a host and a port without colon, bracket or
white space. -/
theorem RemoteIP_host_port (host port : List Char)
    (hhost : ∀ c ∈ host, plainChar c) (hport : ∀ c ∈ port, plainChar c) :
    RemoteIP (String.mk (host ++ ':' :: port)) = String.mk host := by
  have hcolon : isSpace ':' = false := by decide
  have htrim : TrimSpace (host ++ ':' :: port) = host ++ ':' :: port := by
    apply TrimSpace_of_ends
    · intro c hc
      rcases head_append_cons host port ':' c hc with h | h
      · exact (hhost c h).2.2.2
      · rw [h]; exact hcolon
    · intro c hc
      have hr : (host ++ ':' :: port).reverse = port.reverse ++ ':' :: host.reverse := by simp
      rw [hr] at hc
      rcases head_append_cons port.reverse host.reverse ':' c hc with h | h
      · exact (hport c (List.mem_reverse.1 h)).2.2.2
      · rw [h]; exact hcolon
  have hcut : cutLast ':' (host ++ ':' :: port) = some (host, port) :=
    cutLast_append ':' host port (fun h => (hport ':' h).1 rfl)
  have hhead : (host ++ ':' :: port).head? ≠ some '[' := by
    intro h
    rcases head_append_cons host port ':' '[' h with h1 | h1
    · exact (hhost '[' h1).2.1 rfl
    · exact absurd h1 (by decide)
  have h1 : ':' ∉ host := fun h => (hhost ':' h).1 rfl
  have h2 : '[' ∉ host ++ ':' :: port := by
    intro h
    rcases List.mem_append.1 h with h | h
    · exact (hhost '[' h).2.1 rfl
    · rcases List.mem_cons.1 h with h | h
      · exact absurd h (by decide)
      · exact (hport '[' h).2.1 rfl
  have h3 : ']' ∉ host ++ ':' :: port := by
    intro h
    rcases List.mem_append.1 h with h | h
    · exact (hhost ']' h).2.2.1 rfl
    · rcases List.mem_cons.1 h with h | h
      · exact absurd h (by decide)
      · exact (hport ']' h).2.2.1 rfl
  unfold RemoteIP
  simp only [htrim]
  unfold SplitHostPort
  simp only [hcut, hhead, if_false, h1, h2, h3]

/-- The host of `[host]:port` for a host without bracket and a port without
colon, bracket or white space. -/
theorem RemoteIP_bracket_host_port (host port : List Char)
    (hopen : '[' ∉ host) (hclose : ']' ∉ host) (hport : ∀ c ∈ port, plainChar c) :
    RemoteIP (String.mk ('[' :: host ++ ']' :: ':' :: port)) = String.mk host := by
  have hcolon : isSpace ':' = false := by decide
  have htrim : TrimSpace ('[' :: host ++ ']' :: ':' :: port) = '[' :: host ++ ']' :: ':' :: port := by
    apply TrimSpace_of_ends
    · intro c hc
      simp only [List.cons_append, List.head?_cons, Option.some.injEq] at hc
      rw [← hc]; decide
    · intro c hc
      have hr : ('[' :: host ++ ']' :: ':' :: port).reverse =
          port.reverse ++ ':' :: (']' :: host.reverse ++ ['[']) := by simp
      rw [hr] at hc
      rcases head_append_cons port.reverse _ ':' c hc with h | h
      · exact (hport c (List.mem_reverse.1 h)).2.2.2
      · rw [h]; exact hcolon
  have hsplit : '[' :: host ++ ']' :: ':' :: port = ('[' :: host ++ [']']) ++ ':' :: port := by
    simp
  have hcut : cutLast ':' ('[' :: host ++ ']' :: ':' :: port) = some ('[' :: host ++ [']'], port) := by
    rw [hsplit]
    exact cutLast_append ':' _ port (fun h => (hport ':' h).1 rfl)
  have hcut2 : cutAt ']' ('[' :: host ++ ']' :: ':' :: port) = some ('[' :: host, ':' :: port) := by
    have : '[' :: host ++ ']' :: ':' :: port = ('[' :: host) ++ ']' :: (':' :: port) := by simp
    rw [this]
    apply cutAt_append
    intro h
    rcases List.mem_cons.1 h with h | h
    · exact absurd h (by decide)
    · exact hclose h
  have h2 : '[' ∉ host ++ ']' :: ':' :: port := by
    intro h
    rcases List.mem_append.1 h with h | h
    · exact hopen h
    · rcases List.mem_cons.1 h with h | h
      · exact absurd h (by decide)
      · rcases List.mem_cons.1 h with h | h
        · exact absurd h (by decide)
        · exact (hport '[' h).2.1 rfl
  have h3 : ']' ∉ ':' :: port := by
    intro h
    rcases List.mem_cons.1 h with h | h
    · exact absurd h (by decide)
    · exact (hport ']' h).2.2.1 rfl
  unfold RemoteIP
  simp only [htrim]
  unfold SplitHostPort
  simp only [hcut, hcut2]
  simp [h2, h3]

/-- C16. For every request, `getIP` returns the value of the `X-Forwarded-For`
header when that value is not empty, whatever the remote address, and otherwise
what `c.RemoteIP()` makes of the remote address of the connection: the host of
`host:port` and of `[host]:port`, the port stripped. The header "10.20.30.40"
with the remote address "192.168.1.10:8080" gives "10.20.30.40", the remote
address "192.168.1.10:8080" alone gives "192.168.1.10". -/
theorem getIP_forwarded_or_remote (forwardedFor remoteAddr : String) :
    (forwardedFor ≠ "" → getIP (ginRequest forwardedFor remoteAddr) = forwardedFor) ∧
    (forwardedFor = "" → getIP (ginRequest forwardedFor remoteAddr) = RemoteIP remoteAddr) ∧
    (∀ host port : List Char, (∀ c ∈ host, plainChar c) → (∀ c ∈ port, plainChar c) →
      remoteAddr = String.mk (host ++ ':' :: port) → RemoteIP remoteAddr = String.mk host) ∧
    (∀ host port : List Char, '[' ∉ host → ']' ∉ host → (∀ c ∈ port, plainChar c) →
      remoteAddr = String.mk ('[' :: host ++ ']' :: ':' :: port) →
      RemoteIP remoteAddr = String.mk host) ∧
    getIP (ginRequest "10.20.30.40" "192.168.1.10:8080") = "10.20.30.40" ∧
    getIP (ginRequest "10.20.30.40" "") = "10.20.30.40" ∧
    getIP (ginRequest "" "192.168.1.10:8080") = "192.168.1.10" := by
  refine ⟨?_, ?_, ?_, ?_, by decide, by decide, by decide⟩
  · intro h
    simp [getIP, ginRequest, request, h]
  · intro h
    simp [getIP, ginRequest, request, h]
  · intro host port h1 h2 h
    rw [h]; exact RemoteIP_host_port host port h1 h2
  · intro host port h1 h2 h3 h
    rw [h]; exact RemoteIP_bracket_host_port host port h1 h2 h3

/-- C19. One admission decision for the network key k changes at most the record
under k: whenever `rateLimiter` returns, every other key has afterwards the
record it had before, with all its fields, or none as before; and it does return
unless it has to make a record with a limit of zero. -/
theorem admission_changes_one_record (a : App) (c : Context) (clk : Clock) (key : String)
    (hnet : getNetwork (getIP c) a.netmask = some (key, none)) :
    ((a.limitPerMinute ≠ 0 ∨ a.clientsRate.lookup key ≠ none) →
      (rateLimiter a c clk).isSome = true) ∧
    (∀ a1 c1, rateLimiter a c clk = some (a1, c1) →
      ∀ k, k ≠ key → a1.clientsRate.lookup k = a.clientsRate.lookup k) :=
  rateLimiter_frame a c clk key none hnet

/-- Witness of C19: a request of the host 10.1.2.3 on the map that holds the
blocked network 192.168.1.0. -/
theorem admission_changes_one_record_witness :
    ((blockedApp.limitPerMinute ≠ 0 ∨ blockedApp.clientsRate.lookup "10.1.2.0" ≠ none) →
      (rateLimiter blockedApp (request "" "10.1.2.3") (Clock.at (130 * Second))).isSome = true) ∧
    (∀ a1 c1, rateLimiter blockedApp (request "" "10.1.2.3") (Clock.at (130 * Second)) =
        some (a1, c1) →
      ∀ k, k ≠ "10.1.2.0" → a1.clientsRate.lookup k = blockedApp.clientsRate.lookup k) :=
  admission_changes_one_record blockedApp (request "" "10.1.2.3") (Clock.at (130 * Second))
    "10.1.2.0" (by decide)

/-! ## Lemmas on the mutex -/

theorem guardedFrom_accesses (n : Nat) (rest : List MuEvent) :
    guardedFrom true (List.replicate n MuEvent.access ++ rest) = guardedFrom true rest := by
  induction n with
  | zero => rfl
  | succ n ih => simp [List.replicate_succ, guardedFrom, ih]

/-- A call of `rateLimiter` keeps the discipline of the mutex exactly when it
returns. -/
theorem rateLimiterEvents_disciplined (a : App) (c : Context) (clk : Clock) :
    disciplined (rateLimiterEvents a c clk) = (rateLimiter a c clk).isSome := by
  unfold rateLimiterEvents rateLimiter
  simp only
  cases hnet : getNetwork (getIP c) a.netmask with
  | none => rfl
  | some p =>
    obtain ⟨key, err⟩ := p
    simp only
    cases hrec : a.clientsRate.lookup key with
    | some r =>
      simp only [hrec]
      by_cases hb : r.blocked = true ∧ clk.checked - r.blockedSince < a.cooldownPeriod
      · simp only [hb, and_self, if_true]
        rfl
      · simp only [hb, if_false]
        have h1 := Allow_fst r.limiter clk.allowed
        rcases hA : r.limiter.Allow clk.allowed with ⟨ok, lim⟩
        rw [hA] at h1
        simp only at h1
        rw [← h1]
        cases ok <;> simp [disciplined, guardedFrom]
    | none =>
      simp only
      cases hnew : newClient a.limitPerMinute clk.created with
      | none => rfl
      | some r =>
        simp only [AList.lookup_insert]
        by_cases hb : r.blocked = true ∧ clk.checked - r.blockedSince < a.cooldownPeriod
        · simp only [hb, and_self, if_true]
          rfl
        · simp only [hb, if_false]
          have h1 := Allow_fst r.limiter clk.allowed
          rcases hA : r.limiter.Allow clk.allowed with ⟨ok, lim⟩
          rw [hA] at h1
          simp only at h1
          rw [← h1]
          cases ok <;> simp [disciplined, guardedFrom]

theorem guardedFrom_sweep (cooldown : Int) (now : String → Int) (rest : List MuEvent) :
    ∀ l : List (Sigma (fun _ : String => client)),
      guardedFrom true ((l.map (fun e =>
        if now e.1 - e.2.lastSeen > cooldown then [MuEvent.access, MuEvent.access]
        else [MuEvent.access])).flatten ++ rest) = guardedFrom true rest ∧
      ((l.map (fun e =>
        if now e.1 - e.2.lastSeen > cooldown then [MuEvent.access, MuEvent.access]
        else [MuEvent.access])).flatten).count MuEvent.unlock = 0 := by
  intro l
  induction l with
  | nil => exact ⟨rfl, rfl⟩
  | cons e l ih =>
    by_cases h : now e.1 - e.2.lastSeen > cooldown
    · simp [h, guardedFrom, ih.1, ih.2]
    · simp [h, guardedFrom, ih.1, ih.2]

/-- A pass of `cleanClientsRateMap` keeps the discipline of the mutex. -/
theorem cleanPassEvents_disciplined (a : App) (now : String → Int) :
    disciplined (cleanPassEvents a now) = true := by
  obtain ⟨h1, h2⟩ := guardedFrom_sweep a.cooldownPeriod now [MuEvent.unlock] a.clientsRate.entries
  unfold disciplined cleanPassEvents
  rw [Bool.and_eq_true]
  constructor
  · rw [List.append_assoc, List.singleton_append, guardedFrom, h1]
    rfl
  · rw [List.count_append, List.count_append, h2]
    rfl

/-- C17. `clearLimitsHandler` writes `a.clientsRate` without holding `a.mu`, and
a call of `rateLimiter` that panics (a new network under a limit of zero) leaves
the mutex locked; the calls of `rateLimiter` that return and the passes of
`cleanClientsRateMap` do hold the mutex for every access and release it once. -/
theorem clearLimitsHandler_writes_unlocked :
    clearLimitsHandlerEvents = [MuEvent.access] ∧
    disciplined clearLimitsHandlerEvents = false ∧
    rateLimiterEvents zeroApp hostRequest (Clock.at (100 * Second)) =
      [MuEvent.lock, MuEvent.access] ∧
    disciplined (rateLimiterEvents zeroApp hostRequest (Clock.at (100 * Second))) = false ∧
    disciplined (rateLimiterEvents oneApp hostRequest (Clock.at (100 * Second))) = true ∧
    disciplined (rateLimiterEvents blockedApp hostRequest (Clock.at (130 * Second))) = true ∧
    disciplined (cleanPassEvents blockedApp (fun _ => 161 * Second)) = true := by
  decide

/-! ## Lemmas on the reachable states -/

/-- The record of the network of a request after the call of `rateLimiter`: the
record `r` found or just made, as it was (blocked and in its cooldown), blocked
from the reading of line 52 (no credit), or unblocked (credit). -/
theorem rateLimiter_record_after (a a1 : App) (c c1 : Context) (clk : Clock) (key : String)
    (err : Option String)
    (hnet : getNetwork (getIP c) a.netmask = some (key, err))
    (hrun : rateLimiter a c clk = some (a1, c1)) :
    ∃ r, (a.clientsRate.lookup key = some r ∨
          (a.clientsRate.lookup key = none ∧
            newClient a.limitPerMinute clk.created = some r)) ∧
      ((r.blocked = true ∧ clk.checked - r.blockedSince < a.cooldownPeriod ∧
          a1.clientsRate.lookup key = some r) ∨
       (r.limiter.hasCredit clk.allowed = false ∧
          a1.clientsRate.lookup key =
            some { r with blocked := true, blockedSince := clk.blockedAt } ∧
          tooManyWrite ∈ c1.writes) ∨
       (r.limiter.hasCredit clk.allowed = true ∧
          ∃ lim, a1.clientsRate.lookup key = some { r with limiter := lim, blocked := false })) := by
  have key_step : ∀ (m : AList (fun _ : String => client)) (r : client) (c0 : Context),
      m.lookup key = some r →
      (if r.blocked = true ∧ clk.checked - r.blockedSince < a.cooldownPeriod then
          some (({ a with clientsRate := m } : App),
                (c0.String StatusTooManyRequests "Too many requests\n").Abort)
        else
          match r.limiter.Allow clk.allowed with
          | (false, lim) =>
            some ({ a with clientsRate := m.insert key { r with limiter := lim, blocked := true, blockedSince := clk.blockedAt } },
                  (c0.String StatusTooManyRequests "Too many requests\n").Abort)
          | (true, lim) =>
            some ({ a with clientsRate := m.insert key { r with limiter := lim, blocked := false } }, c0.Next)) =
        some (a1, c1) →
      ((r.blocked = true ∧ clk.checked - r.blockedSince < a.cooldownPeriod ∧
          a1.clientsRate.lookup key = some r) ∨
       (r.limiter.hasCredit clk.allowed = false ∧
          a1.clientsRate.lookup key =
            some { r with blocked := true, blockedSince := clk.blockedAt } ∧
          tooManyWrite ∈ c1.writes) ∨
       (r.limiter.hasCredit clk.allowed = true ∧
          ∃ lim, a1.clientsRate.lookup key = some { r with limiter := lim, blocked := false })) := by
    intro m r c0 hm h
    by_cases hb : r.blocked = true ∧ clk.checked - r.blockedSince < a.cooldownPeriod
    · simp only [hb, and_self, if_true, Option.some.injEq, Prod.mk.injEq] at h
      left
      refine ⟨hb.1, hb.2, ?_⟩
      rw [← h.1]; exact hm
    · simp only [hb, if_false] at h
      right
      have h1 := Allow_fst r.limiter clk.allowed
      cases hc : r.limiter.hasCredit clk.allowed with
      | false =>
        have h2 := Allow_snd_of_empty r.limiter clk.allowed hc
        rw [hc] at h1
        rcases hA : r.limiter.Allow clk.allowed with ⟨ok, lim⟩
        rw [hA] at h1 h2 h
        simp only at h1 h2
        subst h1; subst h2
        simp only [Option.some.injEq, Prod.mk.injEq] at h
        left
        refine ⟨rfl, ?_, ?_⟩
        · rw [← h.1]; simp only [AList.lookup_insert]
        · rw [← h.2]; simp [tooManyWrite, Context.String, Context.Abort]
      | true =>
        rw [hc] at h1
        rcases hA : r.limiter.Allow clk.allowed with ⟨ok, lim⟩
        rw [hA] at h1 h
        simp only at h1
        subst h1
        simp only [Option.some.injEq, Prod.mk.injEq] at h
        right
        refine ⟨rfl, lim, ?_⟩
        rw [← h.1]; simp only [AList.lookup_insert]
  unfold rateLimiter at hrun
  simp only [hnet] at hrun
  cases hrec : a.clientsRate.lookup key with
  | some r =>
    simp only [hrec] at hrun
    exact ⟨r, Or.inl rfl, key_step a.clientsRate r _ hrec hrun⟩
  | none =>
    simp only [hrec] at hrun
    cases hnew : newClient a.limitPerMinute clk.created with
    | none => simp [hnew] at hrun
    | some r =>
      simp only [hnew, AList.lookup_insert] at hrun
      exact ⟨r, Or.inr ⟨rfl, rfl⟩,
        key_step (a.clientsRate.insert key r) r _ (by simp only [AList.lookup_insert]) hrun⟩

/-- A sweep pass only deletes: a record found after the pass was there before. -/
theorem cleanPass_lookup_some (a : App) (now : String → Int) (key : String) (r : client)
    (h : (cleanPass a now).clientsRate.lookup key = some r) :
    a.clientsRate.lookup key = some r := by
  unfold cleanPass at h
  simp only at h
  rw [lookup_sweep_fold] at h
  split at h
  · cases h
  · exact h

/-- In a reachable state the current time is positive, and every blocked record
has in `blockedSince` the reading of line 52 of a logged rejection of its
network, positive and not after the current time. -/
theorem Reachable_invariant (a : App) (log : List (String × Clock)) (now : Int)
    (h : Reachable a log now) :
    0 < now ∧
    ∀ key r, a.clientsRate.lookup key = some r → r.blocked = true →
      ∃ clk, (key, clk) ∈ log ∧ r.blockedSince = clk.blockedAt ∧
        0 < r.blockedSince ∧ r.blockedSince ≤ now := by
  induction h with
  | start l m cd cp now hnow =>
    refine ⟨hnow, ?_⟩
    intro key r hr _
    simp [NewApp] at hr
  | decision a a1 log now fwd rip clk key err c1 hreach h1 h2 h3 h4 hnet hrun ih =>
    obtain ⟨hnow, ihrec⟩ := ih
    refine ⟨by omega, ?_⟩
    intro k r hr hblocked
    have hsub : ∀ e, e ∈ log →
        e ∈ (if tooManyWrite ∈ c1.writes then (key, clk) :: log else log) := by
      intro e he
      split
      · exact List.mem_cons_of_mem _ he
      · exact he
    have hold : a.clientsRate.lookup k = some r →
        ∃ clk0, (k, clk0) ∈ (if tooManyWrite ∈ c1.writes then (key, clk) :: log else log) ∧
          r.blockedSince = clk0.blockedAt ∧ 0 < r.blockedSince ∧ r.blockedSince ≤ clk.blockedAt := by
      intro hrec
      obtain ⟨clk0, hmem, heq, hpos, hle⟩ := ihrec k r hrec hblocked
      exact ⟨clk0, hsub _ hmem, heq, hpos, by omega⟩
    by_cases hk : k = key
    · subst hk
      obtain ⟨r0, hsrc, hcases⟩ := rateLimiter_record_after a a1 _ c1 clk k err hnet hrun
      rcases hcases with ⟨hb, _, hsame⟩ | ⟨_, hnewrec, hwrite⟩ | ⟨_, lim, hnewrec⟩
      · rw [hsame] at hr
        cases hr
        rcases hsrc with hfound | ⟨_, hmade⟩
        · exact hold hfound
        · have := (newClient_hasCredit _ _ clk.allowed _ hmade).2.1
          rw [this] at hb
          cases hb
      · rw [hnewrec] at hr
        cases hr
        refine ⟨clk, ?_, rfl, ?_, ?_⟩
        · simp only [hwrite, if_true]
          exact List.mem_cons_self _ _
        · simp only; omega
        · simp only; omega
      · rw [hnewrec] at hr
        cases hr
        cases hblocked
    · have hframe := (rateLimiter_frame a _ clk key err hnet).2 a1 c1 hrun k hk
      rw [hframe] at hr
      exact hold hr
  | sweep a log now now1 clock hreach hle ih =>
    obtain ⟨hnow, ihrec⟩ := ih
    refine ⟨by omega, ?_⟩
    intro k r hr hblocked
    obtain ⟨clk0, hmem, heq, hpos, hle0⟩ := ihrec k r (cleanPass_lookup_some a clock k r hr) hblocked
    exact ⟨clk0, hmem, heq, hpos, by omega⟩
  | reset a log now c hreach ih =>
    refine ⟨ih.1, ?_⟩
    intro k r hr _
    simp [clearLimitsHandler] at hr

/-- The state `refusedApp` is reached by two requests of one host, the second
rejected at second 101. -/
theorem refusedApp_reachable :
    Reachable refusedApp [("192.168.1.0", Clock.at (101 * Second))] (101 * Second) :=
  Reachable.decision spentApp refusedApp [] (100 * Second) "" "192.168.1.10"
    (Clock.at (101 * Second)) "192.168.1.0" none
    (hostRequest.String StatusTooManyRequests "Too many requests\n").Abort
    (Reachable.decision oneApp spentApp [] (100 * Second) "" "192.168.1.10"
      (Clock.at (100 * Second)) "192.168.1.0" none hostRequest.Next
      (Reachable.start 1 24 Minute Minute (100 * Second) (by decide))
      (by decide) (by decide) (by decide) (by decide) (by decide) (by rfl))
    (by decide) (by decide) (by decide) (by decide) (by decide) (by rfl)

/-- C20. In every state reached from the empty map by admission decisions, sweep
passes and resets, under a clock that reads positive instants and never runs
backwards, every record with `blocked = true` has in `blockedSince` the instant
that an earlier request of its network, answered 429, read on line 52: not the
zero time and not after the current time. And a call that makes the record of a
network makes it with `blocked = false` and leaves it with `blocked = false`. -/
theorem blocked_since_is_a_rejection (a : App) (log : List (String × Clock)) (now : Int)
    (h : Reachable a log now) :
    (∀ key r, a.clientsRate.lookup key = some r → r.blocked = true →
      ∃ clk, (key, clk) ∈ log ∧ r.blockedSince = clk.blockedAt ∧
        0 < r.blockedSince ∧ r.blockedSince ≤ now) ∧
    (∀ (c c1 : Context) (clk : Clock) (a1 : App) (key : String) (err : Option String),
      getNetwork (getIP c) a.netmask = some (key, err) →
      a.clientsRate.lookup key = none →
      rateLimiter a c clk = some (a1, c1) →
      ∃ r0 r1, newClient a.limitPerMinute clk.created = some r0 ∧ r0.blocked = false ∧
        a1.clientsRate.lookup key = some r1 ∧ r1.blocked = false) := by
  refine ⟨(Reachable_invariant a log now h).2, ?_⟩
  intro c c1 clk a1 key err hnet hnone hrun
  obtain ⟨r, hsrc, hcases⟩ := rateLimiter_record_after a a1 c c1 clk key err hnet hrun
  rcases hsrc with hfound | ⟨_, hmade⟩
  · rw [hnone] at hfound
    cases hfound
  · obtain ⟨hcredit, hfresh, _⟩ := newClient_hasCredit _ _ clk.allowed r hmade
    rcases hcases with ⟨hb, _, _⟩ | ⟨hempty, _, _⟩ | ⟨_, lim, hrec⟩
    · rw [hfresh] at hb
      cases hb
    · rw [hcredit] at hempty
      cases hempty
    · exact ⟨r, _, hmade, hfresh, hrec, rfl⟩

/-- Witness of C20: the state after two requests of one host, the second rejected
at second 101. -/
theorem blocked_since_is_a_rejection_witness :
    (∀ key r, refusedApp.clientsRate.lookup key = some r → r.blocked = true →
      ∃ clk, (key, clk) ∈ [("192.168.1.0", Clock.at (101 * Second))] ∧
        r.blockedSince = clk.blockedAt ∧
        0 < r.blockedSince ∧ r.blockedSince ≤ 101 * Second) ∧
    (∀ (c c1 : Context) (clk : Clock) (a1 : App) (key : String) (err : Option String),
      getNetwork (getIP c) refusedApp.netmask = some (key, err) →
      refusedApp.clientsRate.lookup key = none →
      rateLimiter refusedApp c clk = some (a1, c1) →
      ∃ r0 r1, newClient refusedApp.limitPerMinute clk.created = some r0 ∧ r0.blocked = false ∧
        a1.clientsRate.lookup key = some r1 ∧ r1.blocked = false) :=
  blocked_since_is_a_rejection refusedApp [("192.168.1.0", Clock.at (101 * Second))]
    (101 * Second) refusedApp_reachable

/-! ## The key of a network decides the network -/

/-- The masks of IPv4: four bytes, none above 255, printed as their width. -/
theorem CIDRMask_v4 : ∀ m : Nat, m ≤ 32 →
    (CIDRMask m 32).length = 4 ∧ (∀ x ∈ CIDRMask m 32, x ≤ 255) ∧
      simpleMaskLength (CIDRMask m 32) = some m := by
  decide

/-- The masks of IPv6: sixteen bytes, none above 255, printed as their width. -/
theorem CIDRMask_v6 : ∀ m : Nat, m ≤ 128 →
    (CIDRMask m 128).length = 16 ∧ (∀ x ∈ CIDRMask m 128, x ≤ 255) ∧
      simpleMaskLength (CIDRMask m 128) = some m := by
  decide

/-- An IPv6 mask whose twelfth byte is full is at least 96 bits wide, and its
last four bytes print as the width less 96. -/
theorem CIDRMask_v6_mapped : ∀ m : Nat, m ≤ 128 → (CIDRMask m 128).getD 11 0 = 255 →
    96 ≤ m ∧ simpleMaskLength ((CIDRMask m 128).drop 12) = some (m - 96) := by
  decide

/-- The last byte of a mask narrower than 10 bits past the first 0 or 96 is
zero, and a narrow IPv6 mask clears every byte after the second. -/
theorem CIDRMask_narrow : ∀ m : Nat, m ≤ 105 →
    (m ≤ 9 → (CIDRMask m 32).getD 3 1 = 0) ∧ (CIDRMask m 128).getD 15 1 = 0 ∧
      (m ≤ 9 → (CIDRMask m 128).drop 2 = List.replicate 14 0) := by
  decide

/-- The count of digits of a prefix length. -/
theorem uitoa_length_le_128 : ∀ m : Nat, m ≤ 128 →
    (uitoa m).length = if m < 10 then 1 else if m < 100 then 2 else 3 := by
  decide

/-! ## Numerals can be read back -/

theorem digitChar_hex (k : Nat) (hk : k < 16) : hexVal (Nat.digitChar k) = some k := by
  interval_cases k <;> decide

/-- The digits `Nat.toDigitsCore` puts in front of `ds` in base 16 are
hexadecimal digits whose value is `n`. -/
theorem toDigitsCore_hex :
    ∀ (fuel n : Nat) (ds : List Char), n < fuel →
      ∃ pre : List Char, Nat.toDigitsCore 16 fuel n ds = pre ++ ds ∧ pre ≠ [] ∧
        (∀ c ∈ pre, (hexVal c).isSome = true) ∧
        ∀ acc : Nat, pre.foldl (fun m ch => m * 16 + (hexVal ch).getD 0) acc =
          acc * 16 ^ pre.length + n := by
  intro fuel
  induction fuel with
  | zero => intro n ds h; omega
  | succ fuel ih =>
    intro n ds hn
    have hd := digitChar_hex (n % 16) (Nat.mod_lt _ (by decide))
    unfold Nat.toDigitsCore
    simp only
    by_cases h0 : n / 16 = 0
    · simp only [h0, if_true]
      refine ⟨[Nat.digitChar (n % 16)], rfl, by simp, ?_, ?_⟩
      · intro c hc
        simp only [List.mem_singleton] at hc
        rw [hc, hd]; rfl
      · intro acc
        simp only [List.foldl_cons, List.foldl_nil, List.length_singleton, pow_one, hd,
          Option.getD_some]
        have : n % 16 = n := by omega
        omega
    · simp only [h0, if_false]
      have hlt : n / 16 < fuel := by omega
      obtain ⟨pre, hpre, _, hdig, hval⟩ := ih (n / 16) (Nat.digitChar (n % 16) :: ds) hlt
      refine ⟨pre ++ [Nat.digitChar (n % 16)], ?_, by simp, ?_, ?_⟩
      · rw [hpre]; simp
      · intro c hc
        rcases List.mem_append.1 hc with h | h
        · exact hdig c h
        · simp only [List.mem_singleton] at h
          rw [h, hd]; rfl
      · intro acc
        simp only [List.foldl_append, List.foldl_cons, List.foldl_nil, hval acc, hd,
          Option.getD_some, List.length_append, List.length_singleton, pow_succ]
        have := Nat.div_add_mod n 16
        nlinarith

/-- The hexadecimal numeral of `n` is made of hexadecimal digits and has the
value `n`. -/
theorem appendHex_hex (n : Nat) :
    appendHex n ≠ [] ∧ (∀ c ∈ appendHex n, (hexVal c).isSome = true) ∧
      (appendHex n).foldl (fun m ch => m * 16 + (hexVal ch).getD 0) 0 = n := by
  obtain ⟨pre, hpre, hne, hdig, hval⟩ := toDigitsCore_hex (n + 1) n [] (by omega)
  have hu : appendHex n = pre := by
    unfold appendHex Nat.toDigits
    rw [hpre]; simp
  rw [hu]
  refine ⟨hne, hdig, ?_⟩
  rw [hval 0]; simp

theorem uitoa_injective : Function.Injective uitoa := by
  intro x y h
  have hx := (uitoa_decimal x).2.2
  have hy := (uitoa_decimal y).2.2
  rw [h] at hx
  exact hx.symm.trans hy

theorem appendHex_injective : Function.Injective appendHex := by
  intro x y h
  have hx := (appendHex_hex x).2.2
  have hy := (appendHex_hex y).2.2
  rw [h] at hx
  exact hx.symm.trans hy

/-- A decimal numeral holds no character that is not a digit. -/
theorem not_mem_uitoa (c : Char) (hc : c.isDigit = false) (n : Nat) : c ∉ uitoa n := by
  intro h
  have := (uitoa_decimal n).2.1 c h
  rw [hc] at this
  cases this

/-- A hexadecimal numeral holds no character that is not a hexadecimal digit. -/
theorem not_mem_appendHex (c : Char) (hc : hexVal c = none) (n : Nat) : c ∉ appendHex n := by
  intro h
  have := (appendHex_hex n).2.1 c h
  rw [hc] at this
  cases this

/-- Texts without the separator, joined by it, can be told apart. -/
theorem intercalate_injective (sep : Char) (ls ks : List (List Char))
    (hl : ∀ l ∈ ls, sep ∉ l) (hk : ∀ l ∈ ks, sep ∉ l) (hls : ls ≠ []) (hks : ks ≠ [])
    (h : List.intercalate [sep] ls = List.intercalate [sep] ks) : ls = ks := by
  have h1 := List.splitOn_intercalate ls sep hl hls
  have h2 := List.splitOn_intercalate ks sep hk hks
  rw [h] at h1
  exact h1.symm.trans h2

/-- The dotted form tells the bytes apart. -/
theorem string4_injective (p q : List Nat) (hp : p ≠ []) (hq : q ≠ [])
    (h : string4 p = string4 q) : p = q := by
  unfold string4 at h
  have hd : ∀ r : List Nat, ∀ l ∈ r.map uitoa, '.' ∉ l := by
    intro r l hl
    obtain ⟨n, _, rfl⟩ := List.mem_map.1 hl
    exact not_mem_uitoa '.' (by decide) n
  have := intercalate_injective '.' _ _ (hd p) (hd q) (by simpa using hp) (by simpa using hq) h
  exact (List.map_injective_iff.2 uitoa_injective) this

/-! ## The text of an IPv6 address can be read back -/

theorem zeroRun_spec : ∀ l : List Nat,
    zeroRun l ≤ l.length ∧ ∀ j, j < zeroRun l → l.getD j 1 = 0 := by
  intro l
  induction l with
  | nil => simp [zeroRun]
  | cons g rest ih =>
    unfold zeroRun
    split
    · next hg =>
      refine ⟨by simp; exact ih.1, ?_⟩
      intro j hj
      cases j with
      | zero => simpa using hg
      | succ k => simpa using ih.2 k (by omega)
    · simp

/-- The first loop of `Addr.appendTo6` leaves a run of zero groups, or none. -/
theorem longestZeroRun_valid (full : List Nat) :
    ∀ (rest : List Nat) (i : Nat) (best : Nat × Nat), full.drop i = rest →
      validRun full best → validRun full (longestZeroRun rest i best) := by
  intro rest
  induction rest with
  | nil => intro i best _ hb; simpa [longestZeroRun] using hb
  | cons g rest ih =>
    intro i best hdrop hb
    have hrest : full.drop (i + 1) = rest := by
      rw [← List.drop_drop 1 i, hdrop]; rfl
    unfold longestZeroRun
    simp only
    split
    · next hl =>
      apply ih (i + 1) _ hrest
      right
      have hz := zeroRun_spec (g :: rest)
      have hlen : (g :: rest).length = full.length - i := by
        rw [← hdrop, List.length_drop]
      have hi : i < full.length := by
        by_contra hc
        rw [List.drop_eq_nil_of_le (by omega)] at hdrop
        cases hdrop
      refine ⟨by simp only; omega, by simp only; omega, ?_⟩
      intro j h1 h2
      simp only at h1 h2
      have := hz.2 (j - i) (by omega)
      rw [← hdrop] at this
      rw [List.getD_eq_getElem?_getD, List.getElem?_drop] at this
      rw [List.getD_eq_getElem?_getD]
      rwa [show i + (j - i) = j by omega] at this
    · exact ih (i + 1) best hrest hb

/-- What the second loop of `Addr.appendTo6` writes is its parts joined by
colons. -/
theorem string6Loop_tokens (g0 g1 g2 g3 g4 g5 g6 g7 zs ze : Nat)
    (h : (zs = 255 ∧ ze = 255) ∨ (zs + 2 ≤ ze ∧ ze ≤ 8)) :
    string6Loop [g0, g1, g2, g3, g4, g5, g6, g7] zs ze 8 0 =
      List.intercalate [':'] (hexTokens [g0, g1, g2, g3, g4, g5, g6, g7] zs ze) := by
  rcases h with ⟨h1, h2⟩ | ⟨h1, h2⟩
  · subst h1 h2
    simp [string6Loop, hexTokens, List.intercalate]
  · have hzs : zs ≤ 6 := by omega
    interval_cases zs <;> interval_cases ze <;>
      simp [string6Loop, hexTokens, List.intercalate]

theorem appendHex_isEmpty (v : Nat) : (appendHex v).isEmpty = false := by
  have := (appendHex_hex v).1
  cases h : appendHex v with
  | nil => exact absurd h this
  | cons c cs => rfl

/-- The parts of the text show where the zero run is: the count of the texts
before the first empty one, and of those after the last. -/
theorem hexTokens_ends (g0 g1 g2 g3 g4 g5 g6 g7 zs ze : Nat)
    (h : (zs = 255 ∧ ze = 255) ∨ (zs + 2 ≤ ze ∧ ze ≤ 8)) :
    ((hexTokens [g0, g1, g2, g3, g4, g5, g6, g7] zs ze).takeWhile
        (fun t => !t.isEmpty)).length = (if zs = 255 then 8 else zs) ∧
    ((hexTokens [g0, g1, g2, g3, g4, g5, g6, g7] zs ze).reverse.takeWhile
        (fun t => !t.isEmpty)).length = (if zs = 255 then 8 else 8 - ze) := by
  rcases h with ⟨h1, h2⟩ | ⟨h1, h2⟩
  · subst h1 h2
    simp [hexTokens, List.takeWhile, appendHex_isEmpty]
  · have hzs : zs ≤ 6 := by omega
    interval_cases zs <;> interval_cases ze <;>
      simp [hexTokens, List.takeWhile, appendHex_isEmpty]

/-- The parts of the text tell the groups apart. -/
theorem hexTokens_injective (g0 g1 g2 g3 g4 g5 g6 g7 h0 h1 h2 h3 h4 h5 h6 h7 : Nat)
    (r s : Nat × Nat)
    (hr : validRun [g0, g1, g2, g3, g4, g5, g6, g7] r)
    (hs : validRun [h0, h1, h2, h3, h4, h5, h6, h7] s)
    (h : hexTokens [g0, g1, g2, g3, g4, g5, g6, g7] r.1 r.2 =
      hexTokens [h0, h1, h2, h3, h4, h5, h6, h7] s.1 s.2) :
    [g0, g1, g2, g3, g4, g5, g6, g7] = [h0, h1, h2, h3, h4, h5, h6, h7] := by
  obtain ⟨zs, ze⟩ := r
  obtain ⟨ys, ye⟩ := s
  simp only at h
  have hr1 : (zs = 255 ∧ ze = 255) ∨ (zs + 2 ≤ ze ∧ ze ≤ 8) := by
    rcases hr with h | h
    · exact Or.inl h
    · exact Or.inr ⟨h.1, by simpa using h.2.1⟩
  have hs1 : (ys = 255 ∧ ye = 255) ∨ (ys + 2 ≤ ye ∧ ye ≤ 8) := by
    rcases hs with h | h
    · exact Or.inl h
    · exact Or.inr ⟨h.1, by simpa using h.2.1⟩
  have e1 := hexTokens_ends g0 g1 g2 g3 g4 g5 g6 g7 zs ze hr1
  have e2 := hexTokens_ends h0 h1 h2 h3 h4 h5 h6 h7 ys ye hs1
  rw [h] at e1
  have hzs : zs = ys ∧ ze = ye := by
    have a1 := e1.1.symm.trans e2.1
    have a2 := e1.2.symm.trans e2.2
    rcases hr1 with ⟨p1, p2⟩ | ⟨p1, p2⟩ <;> rcases hs1 with ⟨q1, q2⟩ | ⟨q1, q2⟩
    · omega
    · subst p1 p2
      rw [if_pos rfl, if_neg (by omega)] at a1
      omega
    · subst q1 q2
      rw [if_neg (by omega), if_pos rfl] at a1
      omega
    · rw [if_neg (by omega), if_neg (by omega)] at a1 a2
      omega
  obtain ⟨rfl, rfl⟩ := hzs
  rcases hr with ⟨p1, p2⟩ | ⟨p1, p2, p3⟩
  · simp only at p1 p2
    subst p1 p2
    simpa [hexTokens, appendHex_injective.eq_iff] using h
  · rcases hs with ⟨q1, q2⟩ | ⟨_, _, q3⟩
    · simp only at q1 q2 p1
      omega
    · simp only at p1 p2 p3 q3
      simp only [List.length_cons, List.length_nil] at p2
      have hzs : zs ≤ 6 := by omega
      have z0 := p3 0; have z1 := p3 1; have z2 := p3 2; have z3 := p3 3
      have z4 := p3 4; have z5 := p3 5; have z6 := p3 6; have z7 := p3 7
      have y0 := q3 0; have y1 := q3 1; have y2 := q3 2; have y3 := q3 3
      have y4 := q3 4; have y5 := q3 5; have y6 := q3 6; have y7 := q3 7
      clear p3 q3 e1 e2
      interval_cases zs <;> interval_cases ze <;>
        simp [hexTokens, appendHex_injective.eq_iff] at h z0 z1 z2 z3 z4 z5 z6 z7 y0 y1 y2 y3 y4 y5 y6 y7 ⊢ <;>
        omega

theorem length_four (n : List Nat) (h : n.length = 4) :
    ∃ b0 b1 b2 b3, n = [b0, b1, b2, b3] := by
  match n, h with
  | [b0, b1, b2, b3], _ => exact ⟨b0, b1, b2, b3, rfl⟩

theorem length_sixteen (n : List Nat) (h : n.length = 16) :
    ∃ b0 b1 b2 b3 b4 b5 b6 b7 b8 b9 b10 b11 b12 b13 b14 b15,
      n = [b0, b1, b2, b3, b4, b5, b6, b7, b8, b9, b10, b11, b12, b13, b14, b15] := by
  match n, h with
  | [b0, b1, b2, b3, b4, b5, b6, b7, b8, b9, b10, b11, b12, b13, b14, b15], _ =>
    exact ⟨b0, b1, b2, b3, b4, b5, b6, b7, b8, b9, b10, b11, b12, b13, b14, b15, rfl⟩

/-- Every part of the text is empty or the numeral of a group. -/
theorem hexTokens_mem (g : List Nat) (zs ze : Nat) (t : List Char)
    (h : t ∈ hexTokens g zs ze) : t = [] ∨ ∃ v, t = appendHex v := by
  unfold hexTokens at h
  split at h
  · obtain ⟨v, _, rfl⟩ := List.mem_map.1 h
    exact Or.inr ⟨v, rfl⟩
  · simp only [List.mem_append, List.mem_map] at h
    rcases h with ((⟨v, _, rfl⟩ | h) | h) | ⟨v, _, rfl⟩
    · exact Or.inr ⟨v, rfl⟩
    · left
      split at h <;> simpa using h
    · left
      split at h
      · simpa using h
      · simp at h
    · exact Or.inr ⟨v, rfl⟩

/-- No part of the text holds a character that is not a hexadecimal digit. -/
theorem hexTokens_not_mem (c : Char) (hc : hexVal c = none) (g : List Nat) (zs ze : Nat) :
    ∀ t ∈ hexTokens g zs ze, c ∉ t := by
  intro t ht
  rcases hexTokens_mem g zs ze t ht with rfl | ⟨v, rfl⟩
  · simp
  · exact not_mem_appendHex c hc v

theorem hexTokens_ne_nil (g : List Nat) (hg : g ≠ []) (zs ze : Nat) : hexTokens g zs ze ≠ [] := by
  unfold hexTokens
  split
  · simpa using hg
  · split <;> simp

/-- The text of a 16-byte address is its parts joined by colons, for a run of
zero groups of the address, or none. -/
theorem string6_tokens (n : List Nat) (hn : n.length = 16) :
    ∃ r : Nat × Nat, validRun (groups16 n) r ∧ (groups16 n).length = 8 ∧
      string6 n = List.intercalate [':'] (hexTokens (groups16 n) r.1 r.2) := by
  obtain ⟨b0, b1, b2, b3, b4, b5, b6, b7, b8, b9, b10, b11, b12, b13, b14, b15, rfl⟩ :=
    length_sixteen n hn
  have hg : groups16 [b0, b1, b2, b3, b4, b5, b6, b7, b8, b9, b10, b11, b12, b13, b14, b15] =
      [b0 * 256 + b1, b2 * 256 + b3, b4 * 256 + b5, b6 * 256 + b7, b8 * 256 + b9,
        b10 * 256 + b11, b12 * 256 + b13, b14 * 256 + b15] := rfl
  have hv : validRun (groups16 [b0, b1, b2, b3, b4, b5, b6, b7, b8, b9, b10, b11, b12, b13,
      b14, b15]) (longestZeroRun (groups16 [b0, b1, b2, b3, b4, b5, b6, b7, b8, b9, b10, b11,
      b12, b13, b14, b15]) 0 (255, 255)) :=
    longestZeroRun_valid _ _ 0 (255, 255) rfl (Or.inl ⟨rfl, rfl⟩)
  unfold string6
  simp only
  rw [hg] at hv ⊢
  obtain ⟨r, hr⟩ : ∃ r, longestZeroRun [b0 * 256 + b1, b2 * 256 + b3, b4 * 256 + b5,
      b6 * 256 + b7, b8 * 256 + b9, b10 * 256 + b11, b12 * 256 + b13, b14 * 256 + b15] 0
      (255, 255) = r := ⟨_, rfl⟩
  rw [hr] at hv ⊢
  obtain ⟨zs, ze⟩ := r
  refine ⟨(zs, ze), hv, rfl, ?_⟩
  apply string6Loop_tokens
  rcases hv with h | h
  · exact Or.inl h
  · exact Or.inr ⟨h.1, by simpa using h.2.1⟩

/-- The second loop of `Addr.appendTo6` writes colons and hexadecimal digits
only. -/
theorem string6Loop_chars (g : List Nat) (zs ze : Nat) (c : Char) (hc : hexVal c = none)
    (hcolon : c ≠ ':') : ∀ fuel i : Nat, c ∉ string6Loop g zs ze fuel i := by
  intro fuel
  induction fuel with
  | zero => intro i; simp [string6Loop]
  | succ fuel ih =>
    intro i
    unfold string6Loop
    split
    · simp
    · split
      · split
        · simp [hcolon]
        · simp only [List.mem_cons, List.mem_append, not_or]
          exact ⟨hcolon, hcolon, not_mem_appendHex c hc _, ih _⟩
      · simp only [List.mem_append, not_or]
        refine ⟨⟨?_, not_mem_appendHex c hc _⟩, ih _⟩
        split <;> simp [hcolon]

/-- The text of an address holds colons and hexadecimal digits only. -/
theorem string6_chars (n : List Nat) (c : Char) (hc : hexVal c = none)
    (hcolon : c ≠ ':') : c ∉ string6 n := by
  unfold string6
  exact string6Loop_chars _ _ _ c hc hcolon 8 0

/-- The groups of a 16-byte address tell its bytes apart. -/
theorem groups16_injective (p q : List Nat) (hp : p.length = 16) (hq : q.length = 16)
    (bp : ∀ x ∈ p, x ≤ 255) (bq : ∀ x ∈ q, x ≤ 255) (h : groups16 p = groups16 q) : p = q := by
  obtain ⟨b0, b1, b2, b3, b4, b5, b6, b7, b8, b9, b10, b11, b12, b13, b14, b15, rfl⟩ :=
    length_sixteen p hp
  obtain ⟨c0, c1, c2, c3, c4, c5, c6, c7, c8, c9, c10, c11, c12, c13, c14, c15, rfl⟩ :=
    length_sixteen q hq
  simp only [List.mem_cons, List.mem_singleton, List.not_mem_nil, or_false, forall_eq_or_imp,
    forall_eq] at bp bq
  simp only [groups16, List.cons.injEq, and_true] at h
  simp only [List.cons.injEq, and_true]
  omega

/-- The text of a 16-byte address tells the addresses apart. -/
theorem string6_injective (p q : List Nat) (hp : p.length = 16) (hq : q.length = 16)
    (bp : ∀ x ∈ p, x ≤ 255) (bq : ∀ x ∈ q, x ≤ 255) (h : string6 p = string6 q) : p = q := by
  obtain ⟨r, vr, lr, er⟩ := string6_tokens p hp
  obtain ⟨s, vs, ls, es⟩ := string6_tokens q hq
  rw [er, es] at h
  have ht := intercalate_injective ':' _ _ (hexTokens_not_mem ':' (by decide) _ _ _)
    (hexTokens_not_mem ':' (by decide) _ _ _)
    (hexTokens_ne_nil _ (by intro e; rw [e] at lr; cases lr) _ _)
    (hexTokens_ne_nil _ (by intro e; rw [e] at ls; cases ls) _ _) h
  apply groups16_injective p q hp hq bp bq
  obtain ⟨g0, g1, g2, g3, g4, g5, g6, g7, hg⟩ :
      ∃ g0 g1 g2 g3 g4 g5 g6 g7, groups16 p = [g0, g1, g2, g3, g4, g5, g6, g7] := by
    match groups16 p, lr with
    | [g0, g1, g2, g3, g4, g5, g6, g7], _ => exact ⟨g0, g1, g2, g3, g4, g5, g6, g7, rfl⟩
  obtain ⟨h0, h1, h2, h3, h4, h5, h6, h7, hh⟩ :
      ∃ g0 g1 g2 g3 g4 g5 g6 g7, groups16 q = [g0, g1, g2, g3, g4, g5, g6, g7] := by
    match groups16 q, ls with
    | [g0, g1, g2, g3, g4, g5, g6, g7], _ => exact ⟨g0, g1, g2, g3, g4, g5, g6, g7, rfl⟩
  rw [hg] at vr ht ⊢
  rw [hh] at vs ht ⊢
  exact hexTokens_injective _ _ _ _ _ _ _ _ _ _ _ _ _ _ _ _ r s vr vs ht

/-! ## The text of a network and what the cut leaves of it -/

/-- The text of an IPv4 network: dotted bytes, a slash, the width. -/
theorem IPNetString_v4 (p M : List Nat) (l : Nat) (hp : p.length = 4) (hM : M.length = 4)
    (hs : simpleMaskLength M = some l) :
    IPNetString ⟨p, M⟩ = string4 p ++ '/' :: uitoa l := by
  have h4 : To4 p = some p := by simp [To4, hp]
  simp [IPNetString, networkNumberAndMask, h4, hM, hp, hs, IPString]

/-- The text of a network of IPv4-mapped IPv6 addresses: the last four bytes
dotted, a slash, the width of the last four bytes of the mask. -/
theorem IPNetString_v6_mapped (p M : List Nat) (l : Nat) (hp : p.length = 16)
    (hM : M.length = 16) (hpre : p.take 12 = v4InV6Prefix)
    (hs : simpleMaskLength (M.drop 12) = some l) :
    IPNetString ⟨p, M⟩ = string4 (p.drop 12) ++ '/' :: uitoa l := by
  have h4 : To4 p = some (p.drop 12) := by simp [To4, hp, hpre]
  have h5 : To4 (p.drop 12) = some (p.drop 12) := by simp [To4, hp]
  simp [IPNetString, networkNumberAndMask, h4, h5, hM, hp, hs, IPString]

/-- The text of any other IPv6 network: the groups, a slash, the width. -/
theorem IPNetString_v6 (p M : List Nat) (l : Nat) (hp : p.length = 16)
    (hM : M.length = 16) (hpre : p.take 12 ≠ v4InV6Prefix)
    (hs : simpleMaskLength M = some l) :
    IPNetString ⟨p, M⟩ = string6 p ++ '/' :: uitoa l := by
  have h4 : To4 p = none := by simp [To4, hp, hpre]
  simp [IPNetString, networkNumberAndMask, h4, hM, hp, hs, IPString]

/-- Cutting three characters after a one-digit width takes the last character
of the address with it. -/
theorem cut_one_digit (X D : List Char) (c : Char) (hD : D.length = 1) :
    (X ++ [c] ++ '/' :: D).take ((X ++ [c] ++ '/' :: D).length - 3) = X := by
  have : (X ++ [c] ++ '/' :: D).length - 3 = X.length := by simp [hD]
  rw [this, List.append_assoc, List.take_left]

/-- Cutting three characters after a two-digit width leaves the address. -/
theorem cut_two_digits (N D : List Char) (hD : D.length = 2) :
    (N ++ '/' :: D).take ((N ++ '/' :: D).length - 3) = N := by
  have : (N ++ '/' :: D).length - 3 = N.length := by simp [hD]
  rw [this, List.take_left]

/-- Cutting three characters after a three-digit width leaves the address and
the slash. -/
theorem cut_three_digits (N D : List Char) (hD : D.length = 3) :
    (N ++ '/' :: D).take ((N ++ '/' :: D).length - 3) = N ++ ['/'] := by
  have : (N ++ '/' :: D).length - 3 = (N ++ ['/']).length := by simp [hD]
  rw [this, show N ++ '/' :: D = (N ++ ['/']) ++ D by simp, List.take_left]

/-- A masked byte is not above the byte of the mask. -/
theorem zipWith_land_le (M : List Nat) (hM : ∀ v ∈ M, v ≤ 255) :
    ∀ x : List Nat, ∀ v ∈ List.zipWith Nat.land x M, v ≤ 255 := by
  induction M with
  | nil => intro x v hv; simp at hv
  | cons b M ih =>
    intro x v hv
    cases x with
    | nil => simp at hv
    | cons a x =>
      simp only [List.zipWith_cons_cons, List.mem_cons] at hv
      rcases hv with rfl | hv
      · exact le_trans Nat.and_le_right (hM b (by simp))
      · exact ih (fun w hw => hM w (by simp [hw])) x v hv

/-- The dotted form of four bytes of which the last is zero ends with `0`, and
holds a dot before it. -/
theorem string4_last_zero (a b c : Nat) :
    ∃ X : List Char, string4 [a, b, c, 0] = X ++ ['0'] ∧ '.' ∈ X := by
  refine ⟨uitoa a ++ '.' :: (uitoa b ++ '.' :: (uitoa c ++ ['.'])), ?_, by simp⟩
  simp [string4, List.intercalate, show uitoa 0 = ['0'] by decide]

theorem string4_dot (a b c d : Nat) : '.' ∈ string4 [a, b, c, d] := by
  simp [string4, List.intercalate]

/-- The text of an IPv6 address of which all bytes after the second are zero
ends with a colon. -/
theorem string6_narrow (a b : Nat) :
    ∃ X : List Char, string6 (a :: b :: List.replicate 14 0) = X ++ [':'] := by
  by_cases h : a * 256 + b = 0
  · refine ⟨[':'], ?_⟩
    simp [string6, groups16, List.replicate, h, longestZeroRun, zeroRun, string6Loop]
  · refine ⟨appendHex (a * 256 + b) ++ [':'], ?_⟩
    simp [string6, groups16, List.replicate, h, longestZeroRun, zeroRun, string6Loop]

/-- Two dotted networks of one width with one key are one network: the cut
takes the last character of the address only when the width has one digit, and
then the last byte must be zero. -/
theorem dotted_key_injective (p q : List Nat) (l : Nat) (hl : l ≤ 32)
    (hp : p.length = 4) (hq : q.length = 4)
    (hn : l < 10 → p.getD 3 1 = 0 ∧ q.getD 3 1 = 0)
    (h : (string4 p ++ '/' :: uitoa l).take ((string4 p ++ '/' :: uitoa l).length - 3) =
      (string4 q ++ '/' :: uitoa l).take ((string4 q ++ '/' :: uitoa l).length - 3)) :
    p = q := by
  have hd := uitoa_length_le_128 l (by omega)
  apply string4_injective p q (by intro e; rw [e] at hp; cases hp)
    (by intro e; rw [e] at hq; cases hq)
  by_cases h10 : l < 10
  · rw [if_pos h10] at hd
    obtain ⟨p0, p1, p2, p3, rfl⟩ := length_four p hp
    obtain ⟨q0, q1, q2, q3, rfl⟩ := length_four q hq
    obtain ⟨e1, e2⟩ := hn h10
    simp only [List.getD_cons_succ, List.getD_cons_zero] at e1 e2
    subst e1 e2
    obtain ⟨X, hX, _⟩ := string4_last_zero p0 p1 p2
    obtain ⟨Y, hY, _⟩ := string4_last_zero q0 q1 q2
    rw [hX, hY, cut_one_digit X _ '0' hd, cut_one_digit Y _ '0' hd] at h
    rw [hX, hY, h]
  · rw [if_neg h10, if_pos (by omega)] at hd
    rwa [cut_two_digits _ _ hd, cut_two_digits _ _ hd] at h

/-- Two IPv6 networks of one width with one key are one network: the cut takes
the last character of the address only when the width has one digit, and then
every byte after the second must be zero. -/
theorem colon_key_injective (p q : List Nat) (m : Nat) (hm : m ≤ 128)
    (hp : p.length = 16) (hq : q.length = 16)
    (bp : ∀ x ∈ p, x ≤ 255) (bq : ∀ x ∈ q, x ≤ 255)
    (hn : m < 10 → p.drop 2 = List.replicate 14 0 ∧ q.drop 2 = List.replicate 14 0)
    (h : (string6 p ++ '/' :: uitoa m).take ((string6 p ++ '/' :: uitoa m).length - 3) =
      (string6 q ++ '/' :: uitoa m).take ((string6 q ++ '/' :: uitoa m).length - 3)) :
    p = q := by
  have hd := uitoa_length_le_128 m hm
  apply string6_injective p q hp hq bp bq
  by_cases h10 : m < 10
  · rw [if_pos h10] at hd
    obtain ⟨e1, e2⟩ := hn h10
    have sp : ∃ a b, p = a :: b :: List.replicate 14 0 := by
      match p, hp, e1 with
      | a :: b :: rest, _, e => exact ⟨a, b, by simpa using e⟩
    have sq : ∃ a b, q = a :: b :: List.replicate 14 0 := by
      match q, hq, e2 with
      | a :: b :: rest, _, e => exact ⟨a, b, by simpa using e⟩
    obtain ⟨a, b, rfl⟩ := sp
    obtain ⟨c, d, rfl⟩ := sq
    obtain ⟨X, hX⟩ := string6_narrow a b
    obtain ⟨Y, hY⟩ := string6_narrow c d
    rw [hX, hY, cut_one_digit X _ ':' hd, cut_one_digit Y _ ':' hd] at h
    rw [hX, hY, h]
  · rw [if_neg h10] at hd
    by_cases h100 : m < 100
    · rw [if_pos h100] at hd
      rwa [cut_two_digits _ _ hd, cut_two_digits _ _ hd] at h
    · rw [if_neg h100] at hd
      rw [cut_three_digits _ _ hd, cut_three_digits _ _ hd] at h
      exact List.append_cancel_right h

/-- The key of a dotted network is never the key of an IPv6 network: it holds a
dot. -/
theorem dotted_key_ne_colon_key (p q : List Nat) (l m : Nat) (hl : l ≤ 32)
    (hp : p.length = 4) (hn : l < 10 → p.getD 3 1 = 0) :
    (string4 p ++ '/' :: uitoa l).take ((string4 p ++ '/' :: uitoa l).length - 3) ≠
      (string6 q ++ '/' :: uitoa m).take ((string6 q ++ '/' :: uitoa m).length - 3) := by
  intro h
  have hd := uitoa_length_le_128 l (by omega)
  have hdot : '.' ∈ (string4 p ++ '/' :: uitoa l).take
      ((string4 p ++ '/' :: uitoa l).length - 3) := by
    obtain ⟨p0, p1, p2, p3, rfl⟩ := length_four p hp
    by_cases h10 : l < 10
    · rw [if_pos h10] at hd
      have e1 := hn h10
      simp only [List.getD_cons_succ, List.getD_cons_zero] at e1
      subst e1
      obtain ⟨X, hX, hXd⟩ := string4_last_zero p0 p1 p2
      rw [hX, cut_one_digit X _ '0' hd]
      exact hXd
    · rw [if_neg h10, if_pos (by omega)] at hd
      rw [cut_two_digits _ _ hd]
      exact string4_dot p0 p1 p2 p3
  rw [h] at hdot
  have := List.mem_of_mem_take hdot
  rw [List.mem_append, List.mem_cons] at this
  rcases this with h1 | h1 | h1
  · exact string6_chars q '.' (by decide) (by decide) h1
  · cases h1
  · exact not_mem_uitoa '.' (by decide) m h1

/-! ## The length of a parsed address -/

/-- The outer loop of `netip.parseIPv6` keeps an even count of bytes, at most
sixteen, and an ellipsis inside them. -/
theorem parseIPv6Loop_length :
    ∀ (fuel : Nat) (s : List Char) (ip : List Nat) (ellipsis : Option Nat)
      (left : List Char) (ip1 : List Nat) (ellipsis1 : Option Nat),
      parseIPv6Loop fuel s ip ellipsis = some (left, ip1, ellipsis1) →
      (ip.length % 2 = 0 ∧ ip.length ≤ 16 ∧ ∀ k, ellipsis = some k → k ≤ ip.length) →
      ip1.length % 2 = 0 ∧ ip1.length ≤ 16 ∧ ∀ k, ellipsis1 = some k → k ≤ ip1.length := by
  intro fuel
  induction fuel with
  | zero =>
    intro s ip ellipsis left ip1 ellipsis1 h hinv
    simp only [parseIPv6Loop, Option.some.injEq, Prod.mk.injEq] at h
    obtain ⟨_, rfl, rfl⟩ := h
    exact hinv
  | succ fuel ih =>
    intro s ip ellipsis left ip1 ellipsis1 h hinv
    obtain ⟨hev, hle, hel⟩ := hinv
    unfold parseIPv6Loop at h
    split at h
    · simp only [Option.some.injEq, Prod.mk.injEq] at h
      obtain ⟨_, rfl, rfl⟩ := h
      exact ⟨hev, hle, hel⟩
    · next hlt =>
      have hlt16 : ip.length < 16 := by simpa using hlt
      have hinv1 : ∀ acc : Nat, (ip ++ [acc / 256, acc % 256]).length % 2 = 0 ∧
          (ip ++ [acc / 256, acc % 256]).length ≤ 16 ∧
          ∀ k, ellipsis = some k → k ≤ (ip ++ [acc / 256, acc % 256]).length := by
        intro acc
        simp only [List.length_append, List.length_cons, List.length_nil]
        refine ⟨by omega, by omega, ?_⟩
        intro k hk
        have := hel k hk
        omega
      have hinv2 : ∀ acc : Nat, (ip ++ [acc / 256, acc % 256]).length % 2 = 0 ∧
          (ip ++ [acc / 256, acc % 256]).length ≤ 16 ∧
          ∀ k, some (ip ++ [acc / 256, acc % 256]).length = some k →
            k ≤ (ip ++ [acc / 256, acc % 256]).length := by
        intro acc
        refine ⟨(hinv1 acc).1, (hinv1 acc).2.1, ?_⟩
        intro k hk
        cases hk
        exact le_refl _
      cases hscan : scanHex s 0 0 with
      | none => simp [hscan] at h
      | some p =>
        obtain ⟨acc, off, rest⟩ := p
        simp only [hscan] at h
        split at h
        · cases h
        · split at h
          · split at h
            · cases h
            · split at h
              · cases h
              · next hfit =>
                cases hfour : parseIPv4Fields s with
                | none => simp [hfour] at h
                | some four =>
                  simp only [hfour, Option.some.injEq, Prod.mk.injEq] at h
                  obtain ⟨_, rfl, rfl⟩ := h
                  have h4 := parseIPv4FieldsLoop_length s true false 0 0 [] four (by simp) hfour
                  simp only [List.length_append, h4]
                  refine ⟨by omega, by omega, ?_⟩
                  intro k hk
                  have := hel k hk
                  omega
          · cases rest with
            | nil =>
              simp only [Option.some.injEq, Prod.mk.injEq] at h
              obtain ⟨_, rfl, rfl⟩ := h
              exact hinv1 acc
            | cons c0 rest1 =>
              simp only at h
              split at h
              · cases h
              · cases rest1 with
                | nil => simp at h
                | cons c1 rest2 =>
                  simp only at h
                  split at h
                  · split at h
                    · cases h
                    · cases rest2 with
                      | nil =>
                        simp only [Option.some.injEq, Prod.mk.injEq] at h
                        obtain ⟨_, rfl, rfl⟩ := h
                        exact hinv2 acc
                      | cons c2 rest3 =>
                        simp only at h
                        exact ih _ _ _ _ _ _ h (hinv2 acc)
                  · exact ih _ _ _ _ _ _ h (hinv1 acc)

/-- An address `netip.parseIPv6` accepts has sixteen bytes. -/
theorem parseIPv6Body_length (s zone : List Char) (a : Addr)
    (h : parseIPv6Body s zone = some a) : a.bytes.length = 16 := by
  have key : ∀ (s1 : List Char) (e0 : Option Nat) (left : List Char) (ip : List Nat)
      (ellipsis : Option Nat), (e0 = none ∨ e0 = some 0) →
      parseIPv6Loop 8 s1 [] e0 = some (left, ip, ellipsis) →
      ip.length ≤ 16 ∧ ∀ k, ellipsis = some k → k ≤ ip.length := by
    intro s1 e0 left ip ellipsis he0 hl
    refine (parseIPv6Loop_length 8 s1 [] e0 left ip ellipsis hl ⟨rfl, by simp, ?_⟩).2
    intro k hk
    rcases he0 with e | e
    · rw [e] at hk; cases hk
    · rw [e] at hk; cases hk; exact le_refl _
  have fin : ∀ (ip : List Nat) (e : Nat), ip.length ≤ 16 → e ≤ ip.length →
      (ip.take e ++ List.replicate (16 - ip.length) 0 ++ ip.drop e).length = 16 := by
    intro ip e h1 h2
    simp only [List.length_append, List.length_take, List.length_replicate, List.length_drop]
    omega
  unfold parseIPv6Body at h
  simp only at h
  cases s with
  | nil =>
    simp only [Bool.false_eq_true, false_and, if_false] at h
    split at h
    · cases h
    · next left ip ellipsis hl =>
      have hk := key _ _ left ip ellipsis (Or.inl rfl) hl
      split at h
      · cases h
      · split at h
        · split at h
          · cases h
          · next e =>
            cases h
            exact fin ip e hk.1 (hk.2 e rfl)
        · split at h
          · cases h
          · cases h
            have := hk.1
            simp only
            omega
  | cons c0 t =>
    cases t with
    | nil =>
      simp only [Bool.false_eq_true, false_and, if_false] at h
      split at h
      · cases h
      · next left ip ellipsis hl =>
        have hk := key _ _ left ip ellipsis (Or.inl rfl) hl
        split at h
        · cases h
        · split at h
          · split at h
            · cases h
            · next e =>
              cases h
              exact fin ip e hk.1 (hk.2 e rfl)
          · split at h
            · cases h
            · cases h
              have := hk.1
              simp only
              omega
    | cons c1 t1 =>
      simp only at h
      by_cases hlead : (c0 == ':' && c1 == ':') = true
      · simp only [hlead, if_true, true_and] at h
        split at h
        · cases h; simp
        · simp only [List.drop_succ_cons, List.drop_zero] at h
          split at h
          · cases h
          · next left ip ellipsis hl =>
            have hk := key _ _ left ip ellipsis (Or.inr rfl) hl
            split at h
            · cases h
            · split at h
              · split at h
                · cases h
                · next e =>
                  cases h
                  exact fin ip e hk.1 (hk.2 e rfl)
              · split at h
                · cases h
                · cases h
                  have := hk.1
                  simp only
                  omega
      · simp only [hlead, Bool.false_eq_true, false_and, if_false] at h
        split at h
        · cases h
        · next left ip ellipsis hl =>
          have hk := key _ _ left ip ellipsis (Or.inl rfl) hl
          split at h
          · cases h
          · split at h
            · split at h
              · cases h
              · next e =>
                cases h
                exact fin ip e hk.1 (hk.2 e rfl)
            · split at h
              · cases h
              · cases h
                have := hk.1
                simp only
                omega

/-- An address `netip.ParseAddr` accepts has four bytes or sixteen. -/
theorem ParseAddr_length (s : List Char) (a : Addr) (h : ParseAddr s = some a) :
    a.bytes.length = 4 ∨ a.bytes.length = 16 := by
  unfold ParseAddr at h
  split at h
  · cases h
  · split at h
    · unfold parseIPv4 at h
      cases h4 : parseIPv4Fields s with
      | none => simp [h4] at h
      | some f =>
        simp only [h4, Option.some.injEq] at h
        subst h
        exact Or.inl (parseIPv4FieldsLoop_length s true false 0 0 [] f (by simp) h4)
    · split at h
      · right
        unfold parseIPv6 at h
        cases hcut : cutAt '%' s with
        | none =>
          simp only [hcut] at h
          exact parseIPv6Body_length s [] a h
        | some p =>
          obtain ⟨s1, zone⟩ := p
          simp only [hcut] at h
          split at h
          · cases h
          · exact parseIPv6Body_length s1 zone a h
      · cases h

/-! ## The masked address and its key -/

/-- Masking the 16-byte form of an IPv4 address with a 4-byte mask masks its
four bytes. -/
theorem IP_Mask_v4 (x M : List Nat) (hx : x.length = 4) (hM : M.length = 4) :
    IP_Mask (v4InV6Prefix ++ x) M = List.zipWith Nat.land x M := by
  obtain ⟨x0, x1, x2, x3, rfl⟩ := length_four x hx
  obtain ⟨M0, M1, M2, M3, rfl⟩ := length_four M hM
  simp [IP_Mask, v4InV6Prefix]

/-- Masking a 16-byte address with a 16-byte mask masks byte by byte. -/
theorem IP_Mask_v6 (x M : List Nat) (hx : x.length = 16) (hM : M.length = 16) :
    IP_Mask x M = List.zipWith Nat.land x M := by
  simp [IP_Mask, hx, hM]

/-- Two masked IPv4 addresses with one key are one network. -/
theorem masked_key_injective_v4 (m : Nat) (hm : m ≤ 32) (x y : List Nat)
    (hx : x.length = 4) (hy : y.length = 4)
    (h : (IPNetString ⟨List.zipWith Nat.land x (CIDRMask m 32), CIDRMask m 32⟩).take
        ((IPNetString ⟨List.zipWith Nat.land x (CIDRMask m 32), CIDRMask m 32⟩).length - 3) =
      (IPNetString ⟨List.zipWith Nat.land y (CIDRMask m 32), CIDRMask m 32⟩).take
        ((IPNetString ⟨List.zipWith Nat.land y (CIDRMask m 32), CIDRMask m 32⟩).length - 3)) :
    List.zipWith Nat.land x (CIDRMask m 32) = List.zipWith Nat.land y (CIDRMask m 32) := by
  obtain ⟨hML, _, hMs⟩ := CIDRMask_v4 m hm
  have hnar := (CIDRMask_narrow m (by omega)).1
  generalize CIDRMask m 32 = M at h hML hMs hnar ⊢
  have hp : (List.zipWith Nat.land x M).length = 4 := by simp [hx, hML]
  have hq : (List.zipWith Nat.land y M).length = 4 := by simp [hy, hML]
  rw [IPNetString_v4 _ M m hp hML hMs, IPNetString_v4 _ M m hq hML hMs] at h
  apply dotted_key_injective _ _ m hm hp hq _ h
  intro h10
  have h3 := hnar (by omega)
  obtain ⟨x0, x1, x2, x3, rfl⟩ := length_four x hx
  obtain ⟨y0, y1, y2, y3, rfl⟩ := length_four y hy
  obtain ⟨M0, M1, M2, M3, rfl⟩ := length_four M hML
  simp only [List.getD_cons_succ, List.getD_cons_zero] at h3
  subst h3
  exact ⟨Nat.and_zero x3, Nat.and_zero y3⟩

/-- Two masked IPv6 addresses with one key are one network, whether they print
as groups or, the addresses being IPv4-mapped, as dotted bytes. -/
theorem masked_key_injective_v6 (m : Nat) (hm : m ≤ 128) (x y : List Nat)
    (hx : x.length = 16) (hy : y.length = 16)
    (h : (IPNetString ⟨List.zipWith Nat.land x (CIDRMask m 128), CIDRMask m 128⟩).take
        ((IPNetString ⟨List.zipWith Nat.land x (CIDRMask m 128), CIDRMask m 128⟩).length - 3) =
      (IPNetString ⟨List.zipWith Nat.land y (CIDRMask m 128), CIDRMask m 128⟩).take
        ((IPNetString ⟨List.zipWith Nat.land y (CIDRMask m 128), CIDRMask m 128⟩).length - 3)) :
    List.zipWith Nat.land x (CIDRMask m 128) = List.zipWith Nat.land y (CIDRMask m 128) := by
  obtain ⟨hML, hMb, hMs⟩ := CIDRMask_v6 m hm
  have hmap := CIDRMask_v6_mapped m hm
  have hnar : m ≤ 105 → _ := CIDRMask_narrow m
  generalize CIDRMask m 128 = M at h hML hMb hMs hmap hnar ⊢
  have hlen : ∀ z : List Nat, z.length = 16 → (List.zipWith Nat.land z M).length = 16 := by
    intro z hz; simp [hz, hML]
  have hbound := zipWith_land_le M hMb
  have mapped : ∀ z : List Nat, z.length = 16 →
      (List.zipWith Nat.land z M).take 12 = v4InV6Prefix →
      96 ≤ m ∧ simpleMaskLength (M.drop 12) = some (m - 96) ∧
        (m - 96 < 10 → ((List.zipWith Nat.land z M).drop 12).getD 3 1 = 0) := by
    intro z hz hpre
    obtain ⟨z0, z1, z2, z3, z4, z5, z6, z7, z8, z9, z10, z11, z12, z13, z14, z15, rfl⟩ :=
      length_sixteen z hz
    obtain ⟨M0, M1, M2, M3, M4, M5, M6, M7, M8, M9, M10, M11, M12, M13, M14, M15, rfl⟩ :=
      length_sixteen M hML
    have h11 : Nat.land z11 M11 = 255 := by
      have := congrArg (fun l => l.getD 11 0) hpre
      simpa [v4InV6Prefix] using this
    have hM11 : M11 = 255 := by
      have h1 : Nat.land z11 M11 ≤ M11 := Nat.and_le_right
      have h2 : M11 ≤ 255 := hMb M11 (by simp)
      omega
    obtain ⟨h96, hsm⟩ := hmap (by simpa using hM11)
    refine ⟨h96, hsm, ?_⟩
    intro h10
    have h15 := (hnar (by omega)).2.1
    simp only [List.getD_cons_succ, List.getD_cons_zero] at h15
    subst h15
    exact Nat.and_zero z15
  have narrow : ∀ z : List Nat, z.length = 16 → m < 10 →
      (List.zipWith Nat.land z M).drop 2 = List.replicate 14 0 := by
    intro z hz h10
    have hd := (hnar (by omega)).2.2 (by omega)
    obtain ⟨z0, z1, z2, z3, z4, z5, z6, z7, z8, z9, z10, z11, z12, z13, z14, z15, rfl⟩ :=
      length_sixteen z hz
    obtain ⟨M0, M1, M2, M3, M4, M5, M6, M7, M8, M9, M10, M11, M12, M13, M14, M15, rfl⟩ :=
      length_sixteen M hML
    simp only [List.drop_succ_cons, List.drop_zero, List.replicate, List.cons.injEq,
      and_true] at hd
    obtain ⟨rfl, rfl, rfl, rfl, rfl, rfl, rfl, rfl, rfl, rfl, rfl, rfl, rfl, rfl⟩ := hd
    have hz0 : ∀ v : Nat, Nat.land v 0 = 0 := fun v => Nat.and_zero v
    simp [List.replicate, hz0]
  have hp := hlen x hx
  have hq := hlen y hy
  by_cases px : (List.zipWith Nat.land x M).take 12 = v4InV6Prefix
  · obtain ⟨h96, hsm, hz⟩ := mapped x hx px
    rw [IPNetString_v6_mapped _ M (m - 96) hp hML px hsm] at h
    by_cases py : (List.zipWith Nat.land y M).take 12 = v4InV6Prefix
    · obtain ⟨_, _, hz2⟩ := mapped y hy py
      rw [IPNetString_v6_mapped _ M (m - 96) hq hML py hsm] at h
      have hd := dotted_key_injective _ _ (m - 96) (by omega) (by simp [hp]) (by simp [hq])
        (fun h10 => ⟨hz h10, hz2 h10⟩) h
      rw [← List.take_append_drop 12 (List.zipWith Nat.land x M),
        ← List.take_append_drop 12 (List.zipWith Nat.land y M), px, py, hd]
    · rw [IPNetString_v6 _ M m hq hML py hMs] at h
      exact absurd h (dotted_key_ne_colon_key _ _ (m - 96) m (by omega) (by simp [hp]) hz)
  · rw [IPNetString_v6 _ M m hp hML px hMs] at h
    by_cases py : (List.zipWith Nat.land y M).take 12 = v4InV6Prefix
    · obtain ⟨h96, hsm, hz⟩ := mapped y hy py
      rw [IPNetString_v6_mapped _ M (m - 96) hq hML py hsm] at h
      exact absurd h.symm
        (dotted_key_ne_colon_key _ _ (m - 96) m (by omega) (by simp [hq]) hz)
    · rw [IPNetString_v6 _ M m hq hML py hMs] at h
      exact colon_key_injective _ _ m hm hp hq (hbound x) (hbound y)
        (fun h10 => ⟨narrow x hx h10, narrow y hy h10⟩) h

/-! ## Equal masked bytes are equal leading bits -/

/-- The bits of a byte of a mask: the `k` highest of the eight. -/
theorem maskByte_testBit (k : Nat) (hk : k ≤ 8) (i : Nat) :
    (255 - 255 / 2 ^ k).testBit i = decide (8 - k ≤ i ∧ i < 8) := by
  by_cases hi : i < 8
  · interval_cases k <;> interval_cases i <;> decide
  · have h1 : 255 - 255 / 2 ^ k < 2 ^ i := by
      have : 2 ^ 8 ≤ 2 ^ i := Nat.pow_le_pow_right (by decide) (by omega)
      have : 255 - 255 / 2 ^ k ≤ 255 := Nat.sub_le _ _
      omega
    rw [Nat.testBit_lt_two_pow h1]
    simp [hi]

/-- Two bytes are equal under a byte of a mask when they agree on the bits the
mask keeps. -/
theorem land_maskByte_eq_iff (k : Nat) (hk : k ≤ 8) (a b : Nat) :
    Nat.land a (255 - 255 / 2 ^ k) = Nat.land b (255 - 255 / 2 ^ k) ↔
      ∀ j, j < k → a.testBit (7 - j) = b.testBit (7 - j) := by
  constructor
  · intro h j hj
    have h1 := congrArg (fun v => Nat.testBit v (7 - j)) h
    simp only at h1
    have e1 : ∀ v : Nat, (Nat.land v (255 - 255 / 2 ^ k)).testBit (7 - j) =
        (v.testBit (7 - j) && (255 - 255 / 2 ^ k).testBit (7 - j)) :=
      fun v => Nat.testBit_and v _ _
    rw [e1, e1, maskByte_testBit k hk] at h1
    have : decide (8 - k ≤ 7 - j ∧ 7 - j < 8) = true := by
      simp only [decide_eq_true_eq]; omega
    rw [this] at h1
    simpa using h1
  · intro h
    apply Nat.eq_of_testBit_eq
    intro i
    have e1 : ∀ v : Nat, (Nat.land v (255 - 255 / 2 ^ k)).testBit i =
        (v.testBit i && (255 - 255 / 2 ^ k).testBit i) :=
      fun v => Nat.testBit_and v _ _
    rw [e1, e1, maskByte_testBit k hk]
    by_cases hi : 8 - k ≤ i ∧ i < 8
    · have := h (7 - i) (by omega)
      rw [show 7 - (7 - i) = i by omega] at this
      rw [this]
    · have : decide (8 - k ≤ i ∧ i < 8) = false := by
        simp only [decide_eq_false_iff_not]; exact hi
      rw [this, Bool.and_false, Bool.and_false]

theorem addrBit_cons_lt (a : Nat) (x : List Nat) (i : Nat) (hi : i < 8) :
    addrBit (a :: x) i = a.testBit (7 - i) := by
  unfold addrBit
  rw [Nat.div_eq_of_lt hi, Nat.mod_eq_of_lt hi]
  rfl

theorem addrBit_cons_add (a : Nat) (x : List Nat) (i : Nat) :
    addrBit (a :: x) (i + 8) = addrBit x i := by
  unfold addrBit
  rw [show (i + 8) / 8 = i / 8 + 1 by omega, show (i + 8) % 8 = i % 8 by omega]
  rfl

/-- Two addresses of `l` bytes are equal under the mask of `n` bits when they
agree on their first `n` bits. -/
theorem zipWith_land_CIDRMaskLoop_eq_iff :
    ∀ (l n : Nat) (x y : List Nat), x.length = l → y.length = l → n ≤ 8 * l →
      (List.zipWith Nat.land x (CIDRMaskLoop l n) = List.zipWith Nat.land y (CIDRMaskLoop l n) ↔
        ∀ i, i < n → addrBit x i = addrBit y i) := by
  intro l
  induction l with
  | zero =>
    intro n x y hx hy hn
    simp [CIDRMaskLoop]
    intro i hi
    omega
  | succ l ih =>
    intro n x y hx hy hn
    obtain ⟨a, x, rfl⟩ := List.exists_cons_of_length_eq_add_one hx
    obtain ⟨b, y, rfl⟩ := List.exists_cons_of_length_eq_add_one hy
    simp only [List.length_cons, Nat.add_right_cancel_iff] at hx hy
    unfold CIDRMaskLoop
    split
    · next h8 =>
      simp only [List.zipWith_cons_cons, List.cons.injEq]
      rw [ih (n - 8) x y hx hy (by omega)]
      have hb := land_maskByte_eq_iff 8 (le_refl 8) a b
      rw [show 255 - 255 / 2 ^ 8 = 0xff by decide] at hb
      rw [hb]
      constructor
      · rintro ⟨h1, h2⟩ i hi
        by_cases hi8 : i < 8
        · rw [addrBit_cons_lt a x i hi8, addrBit_cons_lt b y i hi8]
          exact h1 i hi8
        · have := h2 (i - 8) (by omega)
          rw [← addrBit_cons_add a x, ← addrBit_cons_add b y,
            show i - 8 + 8 = i by omega] at this
          exact this
      · intro h
        constructor
        · intro j hj
          have := h j (by omega)
          rwa [addrBit_cons_lt a x j hj, addrBit_cons_lt b y j hj] at this
        · intro i hi
          have := h (i + 8) (by omega)
          rwa [addrBit_cons_add, addrBit_cons_add] at this
    · next h8 =>
      simp only [List.zipWith_cons_cons, List.cons.injEq]
      have hrest := (ih 0 x y hx hy (by omega)).2 (fun i hi => absurd hi (by omega))
      rw [land_maskByte_eq_iff n (by omega) a b]
      constructor
      · rintro ⟨h1, _⟩ i hi
        have hi8 : i < 8 := by omega
        rw [addrBit_cons_lt a x i hi8, addrBit_cons_lt b y i hi8]
        exact h1 i hi
      · intro h
        refine ⟨?_, hrest⟩
        intro j hj
        have hj8 : j < 8 := by omega
        have := h j hj
        rwa [addrBit_cons_lt a x j hj8, addrBit_cons_lt b y j hj8] at this

/-- What `getNetwork` returns for a valid address and a mask of its family: the
text of the masked network less its last three characters, and no error. -/
theorem getNetwork_of_parsed (a : String) (mask : Nat) (A : Addr)
    (ha : ParseAddr a.data = some A) (hza : A.zone = []) (hmask : mask ≤ A.BitLen) :
    getNetwork a mask = some (String.mk
      ((IPNetString ⟨IP_Mask A.As16 (CIDRMask mask A.BitLen), CIDRMask mask A.BitLen⟩).take
        ((IPNetString ⟨IP_Mask A.As16 (CIDRMask mask A.BitLen),
          CIDRMask mask A.BitLen⟩).length - 3)), none) := by
  have hslash : '/' ∉ a.data := fun hmem =>
    not_addrChar_slash (ParseAddr_chars a.data A ha hza '/' hmem)
  have hbits : A.BitLen ≤ 128 := by
    unfold Addr.BitLen; split <;> omega
  have h3 := IPNetString_length
    ⟨IP_Mask A.As16 (CIDRMask mask A.BitLen), CIDRMask mask A.BitLen⟩
  unfold getNetwork
  simp only
  rw [ParseCIDR_of_no_slash a mask (by omega) hslash, ha]
  simp only [hza, ne_eq, not_true_eq_false, if_false, if_neg (not_lt.2 hmask)]
  rw [if_neg (by omega)]

/-- The masked network of a valid address and a mask of its family, with what
it takes for two of them to be equal. -/
theorem masked_eq_iff_bits (A B : Addr) (mask : Nat)
    (hA : A.bytes.length = 4 ∨ A.bytes.length = 16)
    (hB : B.bytes.length = 4 ∨ B.bytes.length = 16)
    (hfam : A.BitLen = B.BitLen) (hmask : mask ≤ A.BitLen) :
    IP_Mask A.As16 (CIDRMask mask A.BitLen) =
        List.zipWith Nat.land A.bytes (CIDRMask mask A.BitLen) ∧
      IP_Mask B.As16 (CIDRMask mask B.BitLen) =
        List.zipWith Nat.land B.bytes (CIDRMask mask A.BitLen) ∧
      (IP_Mask A.As16 (CIDRMask mask A.BitLen) = IP_Mask B.As16 (CIDRMask mask B.BitLen) ↔
        ∀ i, i < mask → addrBit A.bytes i = addrBit B.bytes i) := by
  rcases hA with h4 | h16
  · have hbA : A.BitLen = 32 := by simp [Addr.BitLen, h4]
    have g4 : B.bytes.length = 4 := by
      rcases hB with g | g
      · exact g
      · rw [hbA] at hfam; simp [Addr.BitLen, g] at hfam
    have hbB : B.BitLen = 32 := by simp [Addr.BitLen, g4]
    have hm : mask ≤ 32 := by rw [hbA] at hmask; exact hmask
    have hML := (CIDRMask_v4 mask hm).1
    have e1 : IP_Mask A.As16 (CIDRMask mask 32) =
        List.zipWith Nat.land A.bytes (CIDRMask mask 32) := by
      unfold Addr.As16; rw [if_pos h4]; exact IP_Mask_v4 _ _ h4 hML
    have e2 : IP_Mask B.As16 (CIDRMask mask 32) =
        List.zipWith Nat.land B.bytes (CIDRMask mask 32) := by
      unfold Addr.As16; rw [if_pos g4]; exact IP_Mask_v4 _ _ g4 hML
    rw [hbA, hbB]
    refine ⟨e1, e2, ?_⟩
    rw [e1, e2]
    exact zipWith_land_CIDRMaskLoop_eq_iff 4 mask A.bytes B.bytes h4 g4 (by omega)
  · have hbA : A.BitLen = 128 := by simp [Addr.BitLen, h16]
    have g16 : B.bytes.length = 16 := by
      rcases hB with g | g
      · rw [hbA] at hfam; simp [Addr.BitLen, g] at hfam
      · exact g
    have hbB : B.BitLen = 128 := by simp [Addr.BitLen, g16]
    have hm : mask ≤ 128 := by rw [hbA] at hmask; exact hmask
    have hML := (CIDRMask_v6 mask hm).1
    have e1 : IP_Mask A.As16 (CIDRMask mask 128) =
        List.zipWith Nat.land A.bytes (CIDRMask mask 128) := by
      unfold Addr.As16; rw [if_neg (by omega)]; exact IP_Mask_v6 _ _ h16 hML
    have e2 : IP_Mask B.As16 (CIDRMask mask 128) =
        List.zipWith Nat.land B.bytes (CIDRMask mask 128) := by
      unfold Addr.As16; rw [if_neg (by omega)]; exact IP_Mask_v6 _ _ g16 hML
    rw [hbA, hbB]
    refine ⟨e1, e2, ?_⟩
    rw [e1, e2]
    exact zipWith_land_CIDRMaskLoop_eq_iff 16 mask A.bytes B.bytes h16 g16 (by omega)

/-- C18. For two valid addresses `a` and `b` of one family and a mask width
valid for that family, `getNetwork` returns a key for each without an error, and
the two keys are equal exactly when the addresses agree on their first `mask`
bits, which is when their masked networks (the address with all host bits
cleared) are equal: hosts of one network share one key, hence one record, and
hosts of different networks never do. -/
theorem same_key_iff_same_network (a b : String) (mask : Nat) (A B : Addr)
    (ha : ParseAddr a.data = some A) (hza : A.zone = [])
    (hb : ParseAddr b.data = some B) (hzb : B.zone = [])
    (hfam : A.BitLen = B.BitLen) (hmask : mask ≤ A.BitLen) :
    ∃ ka kb : String,
      getNetwork a mask = some (ka, none) ∧ getNetwork b mask = some (kb, none) ∧
      (getNetwork a mask = getNetwork b mask ↔ ka = kb) ∧
      (ka = kb ↔ ∀ i, i < mask → addrBit A.bytes i = addrBit B.bytes i) ∧
      (ka = kb ↔
        IP_Mask A.As16 (CIDRMask mask A.BitLen) = IP_Mask B.As16 (CIDRMask mask B.BitLen)) := by
  have ga := getNetwork_of_parsed a mask A ha hza hmask
  have gb := getNetwork_of_parsed b mask B hb hzb (hfam ▸ hmask)
  have hA := ParseAddr_length a.data A ha
  have hB := ParseAddr_length b.data B hb
  obtain ⟨e1, e2, hbits⟩ := masked_eq_iff_bits A B mask hA hB hfam hmask
  have hkey : String.mk
        ((IPNetString ⟨IP_Mask A.As16 (CIDRMask mask A.BitLen), CIDRMask mask A.BitLen⟩).take
          ((IPNetString ⟨IP_Mask A.As16 (CIDRMask mask A.BitLen),
            CIDRMask mask A.BitLen⟩).length - 3)) =
      String.mk
        ((IPNetString ⟨IP_Mask B.As16 (CIDRMask mask B.BitLen), CIDRMask mask B.BitLen⟩).take
          ((IPNetString ⟨IP_Mask B.As16 (CIDRMask mask B.BitLen),
            CIDRMask mask B.BitLen⟩).length - 3)) ↔
      IP_Mask A.As16 (CIDRMask mask A.BitLen) = IP_Mask B.As16 (CIDRMask mask B.BitLen) := by
    constructor
    · intro h
      have hl := congrArg String.data h
      simp only at hl
      rw [e1, e2, ← hfam] at hl
      rw [e1, e2]
      rcases hA with h4 | h16
      · have hbA : A.BitLen = 32 := by simp [Addr.BitLen, h4]
        have g4 : B.bytes.length = 4 := by
          rcases hB with g | g
          · exact g
          · rw [hbA] at hfam; simp [Addr.BitLen, g] at hfam
        have hm : mask ≤ 32 := by rw [hbA] at hmask; exact hmask
        rw [hbA] at hl ⊢
        exact masked_key_injective_v4 mask hm A.bytes B.bytes h4 g4 hl
      · have hbA : A.BitLen = 128 := by simp [Addr.BitLen, h16]
        have g16 : B.bytes.length = 16 := by
          rcases hB with g | g
          · rw [hbA] at hfam; simp [Addr.BitLen, g] at hfam
          · exact g
        have hm : mask ≤ 128 := by rw [hbA] at hmask; exact hmask
        rw [hbA] at hl ⊢
        exact masked_key_injective_v6 mask hm A.bytes B.bytes h16 g16 hl
    · intro h
      rw [h, hfam]
  refine ⟨_, _, ga, gb, ?_, hkey.trans hbits, hkey⟩
  rw [ga, gb]
  constructor
  · intro h
    simpa using h
  · intro h
    rw [h]

theorem same_key_iff_same_network_witness :
    ∃ ka kb : String,
      getNetwork "192.168.1.10" 24 = some (ka, none) ∧
      getNetwork "192.168.1.77" 24 = some (kb, none) ∧
      (getNetwork "192.168.1.10" 24 = getNetwork "192.168.1.77" 24 ↔ ka = kb) ∧
      (ka = kb ↔ ∀ i, i < 24 →
        addrBit (⟨[192, 168, 1, 10], []⟩ : Addr).bytes i =
          addrBit (⟨[192, 168, 1, 77], []⟩ : Addr).bytes i) ∧
      (ka = kb ↔
        IP_Mask (⟨[192, 168, 1, 10], []⟩ : Addr).As16
            (CIDRMask 24 (⟨[192, 168, 1, 10], []⟩ : Addr).BitLen) =
          IP_Mask (⟨[192, 168, 1, 77], []⟩ : Addr).As16
            (CIDRMask 24 (⟨[192, 168, 1, 77], []⟩ : Addr).BitLen)) :=
  same_key_iff_same_network "192.168.1.10" "192.168.1.77" 24 ⟨[192, 168, 1, 10], []⟩
    ⟨[192, 168, 1, 77], []⟩ (by decide) rfl (by decide) rfl (by decide) (by decide)
